import Mathlib

/-!
Verification development for the MPMUtils nuclear-decay cascade generator
(src/Physics/NuclEvtGen.cc).  C++ `double` values are modelled as exact
rationals; `std::vector` as `List`; the ROOT global uniform source
(`gRandom`) as an explicit stream of pre-drawn uniform values.
-/

set_option maxHeartbeats 1000000

namespace NuclEvtGen

/-! ## PSelector -/

/-- `PSelector` (NuclEvtGen): a vector of cumulative probabilities.
Modelled from the spec: the constructor initializes `cumprob` to `[0]` and
`addProb(w)` appends a new bin of weight `w`, extending the cumulative total
(spec §4.1); the declaration lives in the header, which only the .cc's uses
of `cumprob` reflect here. -/
structure PSelector where
  cumprob : List ℚ
deriving Repr, DecidableEq

/-- The freshly constructed selector: a single cumulative entry 0. -/
def PSelector.init : PSelector := ⟨[0]⟩

/-- `cumprob.back()` (the total weight); 0 on the empty vector. -/
def PSelector.back (P : PSelector) : ℚ := P.cumprob.getLastD 0

/-- Modelled from the spec: `addProb(w)` appends a new cumulative entry
`back + w` (spec §4.1). -/
def PSelector.addProb (P : PSelector) (w : ℚ) : PSelector :=
  ⟨P.cumprob ++ [P.back + w]⟩

/-- Number of bins (`cumprob.size()-1`). -/
def PSelector.getN (P : PSelector) : ℕ := P.cumprob.length - 1

/-- `getCumProb()`: the total weight. -/
def PSelector.getCumProb (P : PSelector) : ℚ := P.back

/-- Index returned by `std::upper_bound(cumprob.begin(), cumprob.end(), v)`:
the first position whose entry exceeds `v`.  The C++ binary search requires
`cumprob` sorted; on sorted lists the first entry exceeding `v` sits right
after the maximal prefix of entries `≤ v`, which is what this computes. -/
def upperBound (v : ℚ) : List ℚ → ℕ
  | [] => 0
  | c :: cs => if c ≤ v then upperBound v cs + 1 else 0

/-- `PSelector::select` with a supplied uniform value `x`
(NuclEvtGen.cc:12-21): `x` is scaled by the total weight, the containing bin
is located by upper-bound search, and the renormalized residual is written
back through the pointer.  Returns `(selected, residual)`. -/
def PSelector.selectX (P : PSelector) (x : ℚ) : ℕ × ℚ :=
  let v := x * P.back
  let selected := upperBound v P.cumprob - 1
  (selected,
    (v - P.cumprob.getD selected 0) /
      (P.cumprob.getD (selected + 1) 0 - P.cumprob.getD selected 0))

/-- `PSelector::scale` (NuclEvtGen.cc:23-25): every cumulative entry is
multiplied by `s` in place. -/
def PSelector.scale (P : PSelector) (s : ℚ) : PSelector :=
  ⟨P.cumprob.map (· * s)⟩

/-- `PSelector::getProb` (NuclEvtGen.cc:27-30). -/
def PSelector.getProb (P : PSelector) (n : ℕ) : ℚ :=
  (P.cumprob.getD (n + 1) 0 - P.cumprob.getD n 0) / P.back

/-- A selector built by default construction followed by `addProb` over a
list of weights — the only way the generator ever builds one. -/
def PSelector.ofWeights (ws : List ℚ) : PSelector :=
  ws.foldl PSelector.addProb PSelector.init

/-- The cumulative-sum list starting from accumulator `a`. -/
def cumsums : ℚ → List ℚ → List ℚ
  | a, [] => [a]
  | a, w :: ws => a :: cumsums (a + w) ws

theorem cumsums_ne_nil (a : ℚ) (ws : List ℚ) : cumsums a ws ≠ [] := by
  cases ws <;> simp [cumsums]

theorem getLastD_append_single (l : List ℚ) (a d : ℚ) :
    (l ++ [a]).getLastD d = a := by
  induction l with
  | nil => rfl
  | cons x xs ih =>
      cases xs with
      | nil => rfl
      | cons y ys => simpa using ih

theorem foldl_addProb_cumprob (ws : List ℚ) :
    ∀ (l : List ℚ) (a : ℚ),
      (ws.foldl PSelector.addProb ⟨l ++ [a]⟩).cumprob = l ++ cumsums a ws := by
  induction ws with
  | nil => intro l a; simp [cumsums]
  | cons w ws ih =>
      intro l a
      have hback : (PSelector.mk (l ++ [a])).back = a := by
        simp [PSelector.back, getLastD_append_single]
      have : PSelector.addProb ⟨l ++ [a]⟩ w = ⟨(l ++ [a]) ++ [a + w]⟩ := by
        simp [PSelector.addProb, hback]
      calc ((w :: ws).foldl PSelector.addProb ⟨l ++ [a]⟩).cumprob
          = (ws.foldl PSelector.addProb ⟨(l ++ [a]) ++ [a + w]⟩).cumprob := by
            simp [List.foldl_cons, this]
        _ = (l ++ [a]) ++ cumsums (a + w) ws := ih (l ++ [a]) (a + w)
        _ = l ++ cumsums a (w :: ws) := by simp [cumsums]

/-- `ofWeights` produces exactly the cumulative sums (starting at 0). -/
theorem ofWeights_cumprob (ws : List ℚ) :
    (PSelector.ofWeights ws).cumprob = cumsums 0 ws := by
  have h := foldl_addProb_cumprob ws [] 0
  simpa [PSelector.ofWeights, PSelector.init] using h

theorem cumsums_length (a : ℚ) (ws : List ℚ) :
    (cumsums a ws).length = ws.length + 1 := by
  induction ws generalizing a with
  | nil => rfl
  | cons w ws ih => simp [cumsums, ih]

theorem cumsums_getD_zero (a : ℚ) (ws : List ℚ) (d : ℚ) :
    (cumsums a ws).getD 0 d = a := by
  cases ws <;> rfl

theorem cumsums_getLastD (a d : ℚ) (ws : List ℚ) :
    (cumsums a ws).getLastD d = a + ws.sum := by
  induction ws generalizing a with
  | nil => simp [cumsums]
  | cons w ws ih =>
      have hne := cumsums_ne_nil (a + w) ws
      have : (cumsums a (w :: ws)).getLastD d = (cumsums (a + w) ws).getLastD d := by
        rcases hcs : cumsums (a + w) ws with _ | ⟨c, cs⟩
        · exact absurd hcs hne
        · simp [cumsums, hcs, List.getLastD]
      rw [this, ih]
      simp [List.sum_cons]
      ring

theorem le_of_mem_cumsums {a : ℚ} {ws : List ℚ} (hw : ∀ w ∈ ws, 0 ≤ w) :
    ∀ x ∈ cumsums a ws, a ≤ x := by
  induction ws generalizing a with
  | nil => intro x hx; simp [cumsums] at hx; simp [hx]
  | cons w ws ih =>
      intro x hx
      simp only [cumsums, List.mem_cons] at hx
      rcases hx with rfl | hx
      · exact le_refl x
      · have h0 : 0 ≤ w := hw w (by simp)
        have := ih (fun u hu => hw u (by simp [hu])) x hx
        linarith

theorem cumsums_sorted {a : ℚ} {ws : List ℚ} (hw : ∀ w ∈ ws, 0 ≤ w) :
    (cumsums a ws).Sorted (· ≤ ·) := by
  induction ws generalizing a with
  | nil => simp [cumsums]
  | cons w ws ih =>
      simp only [cumsums, List.sorted_cons]
      refine ⟨fun b hb => ?_, ih (fun u hu => hw u (by simp [hu]))⟩
      have h0 : 0 ≤ w := hw w (by simp)
      have := le_of_mem_cumsums (fun u hu => hw u (by simp [hu])) b hb
      linarith

/-! ### upperBound facts -/

theorem upperBound_le_length (v : ℚ) (l : List ℚ) : upperBound v l ≤ l.length := by
  induction l with
  | nil => simp [upperBound]
  | cons c cs ih =>
      by_cases h : c ≤ v <;> simp [upperBound, h, Nat.succ_le_succ, ih]

theorem upperBound_pos {v : ℚ} {l : List ℚ} (hne : l ≠ [])
    (h0 : l.getD 0 0 ≤ v) : 0 < upperBound v l := by
  cases l with
  | nil => exact absurd rfl hne
  | cons c cs =>
      simp only [List.getD_cons_zero] at h0
      simp [upperBound, h0]

/-- Every index before the upper bound holds an entry `≤ v`. -/
theorem getD_lt_upperBound (v : ℚ) (l : List ℚ) :
    ∀ i, i < upperBound v l → l.getD i 0 ≤ v := by
  induction l with
  | nil => intro i hi; simp [upperBound] at hi
  | cons c cs ih =>
      intro i hi
      by_cases h : c ≤ v
      · simp only [upperBound, if_pos h] at hi
        cases i with
        | zero => simpa using h
        | succ j =>
            simp only [List.getD_cons_succ]
            exact ih j (by omega)
      · simp [upperBound, if_neg h] at hi

/-- The entry at the upper bound (when in range) exceeds `v`. -/
theorem getD_at_upperBound (v : ℚ) (l : List ℚ)
    (h : upperBound v l < l.length) : v < l.getD (upperBound v l) 0 := by
  induction l with
  | nil => simp at h
  | cons c cs ih =>
      by_cases hc : c ≤ v
      · simp only [upperBound, if_pos hc] at h ⊢
        simp only [List.getD_cons_succ]
        exact ih (by simpa using h)
      · simp only [upperBound, if_neg hc, List.getD_cons_zero]
        linarith [not_le.mp hc]

theorem getLastD_eq_getD (l : List ℚ) (hne : l ≠ []) (d : ℚ) :
    l.getLastD d = l.getD (l.length - 1) 0 := by
  induction l with
  | nil => exact absurd rfl hne
  | cons c cs ih =>
      cases cs with
      | nil => rfl
      | cons y ys =>
          have h1 : (c :: y :: ys).getLastD d = (y :: ys).getLastD d := by
            simp [List.getLastD_cons]
          rw [h1, ih (by simp)]
          simp only [List.length_cons]
          have h2 : (y :: ys).length - 1 + 1 = (y :: ys).length := by
            simp
          simp [List.getD_cons_succ]

/-- If the last entry exceeds `v`, the upper bound stays strictly inside. -/
theorem upperBound_lt_length {v : ℚ} {l : List ℚ} (hne : l ≠ [])
    (hlast : v < l.getLastD 0) : upperBound v l < l.length := by
  rcases Nat.lt_or_ge (upperBound v l) l.length with h | h
  · exact h
  · exfalso
    have hub : upperBound v l = l.length :=
      le_antisymm (upperBound_le_length v l) h
    have hlen : 0 < l.length := List.length_pos.mpr hne
    have hle : l.getD (l.length - 1) 0 ≤ v :=
      getD_lt_upperBound v l (l.length - 1) (by omega)
    rw [getLastD_eq_getD l hne 0] at hlast
    linarith

theorem ofWeights_back (ws : List ℚ) :
    (PSelector.ofWeights ws).back = ws.sum := by
  have h := cumsums_getLastD 0 0 ws
  simp only [PSelector.back, ofWeights_cumprob, h, zero_add]

theorem ofWeights_getN (ws : List ℚ) :
    (PSelector.ofWeights ws).getN = ws.length := by
  simp [PSelector.getN, ofWeights_cumprob, cumsums_length]

theorem upperBound_mono {v w : ℚ} (hvw : v ≤ w) (l : List ℚ) :
    upperBound v l ≤ upperBound w l := by
  induction l with
  | nil => simp [upperBound]
  | cons c cs ih =>
      by_cases h : c ≤ v
      · have h2 : c ≤ w := le_trans h hvw
        simp [upperBound, h, h2, Nat.succ_le_succ ih]
      · simp [upperBound, h]

theorem sorted_getD_mono {l : List ℚ} (hs : l.Sorted (· ≤ ·)) {i j : ℕ}
    (hij : i ≤ j) (hj : j < l.length) : l.getD i 0 ≤ l.getD j 0 := by
  have hi : i < l.length := lt_of_le_of_lt hij hj
  rw [List.getD_eq_getElem l 0 hi, List.getD_eq_getElem l 0 hj]
  rcases Nat.lt_or_ge i j with h | h
  · exact List.pairwise_iff_getElem.mp hs i j hi hj h
  · have : i = j := le_antisymm hij h
    subst this
    exact le_refl _

/-- The geometry of `select`'s upper-bound search: with a sorted cumulative
list whose head is `≤ v` and whose last entry exceeds `v`, the selected index
(`upperBound - 1`) is in range and sandwiches `v`. -/
theorem upperBound_sandwich {c : List ℚ} {v : ℚ}
    (hne : c ≠ []) (h0 : c.getD 0 0 ≤ v) (hlast : v < c.getLastD 0) :
    (upperBound v c - 1) + 1 = upperBound v c ∧
    (upperBound v c - 1) + 1 < c.length ∧
    c.getD (upperBound v c - 1) 0 ≤ v ∧
    v < c.getD ((upperBound v c - 1) + 1) 0 := by
  have hpos : 0 < upperBound v c := upperBound_pos hne h0
  have hlt : upperBound v c < c.length := upperBound_lt_length hne hlast
  have he : (upperBound v c - 1) + 1 = upperBound v c := by omega
  refine ⟨he, by omega, ?_, ?_⟩
  · exact getD_lt_upperBound v c _ (by omega)
  · rw [he]; exact getD_at_upperBound v c hlt

/-- Uniqueness of the sandwiched bin in a sorted cumulative list. -/
theorem sandwich_unique {c : List ℚ} {v : ℚ}
    (hs : c.Sorted (· ≤ ·)) (hv0 : 0 ≤ v)
    (hne : c ≠ []) (h0 : c.getD 0 0 ≤ v) (hlast : v < c.getLastD 0)
    {j : ℕ} (hj1 : c.getD j 0 ≤ v) (hj2 : v < c.getD (j + 1) 0) :
    j = upperBound v c - 1 := by
  have hpos : 0 < upperBound v c := upperBound_pos hne h0
  have hlt : upperBound v c < c.length := upperBound_lt_length hne hlast
  rcases Nat.lt_trichotomy (j + 1) (upperBound v c) with h | h | h
  · exact absurd (getD_lt_upperBound v c (j + 1) h) (not_le.mpr hj2)
  · omega
  · exfalso
    rcases Nat.lt_or_ge j c.length with hjl | hjl
    · have h1 : c.getD (upperBound v c) 0 ≤ c.getD j 0 :=
        sorted_getD_mono hs (by omega) hjl
      have h2 : v < c.getD (upperBound v c) 0 := getD_at_upperBound v c hlt
      linarith
    · have : c.getD (j + 1) 0 = 0 := List.getD_eq_default c 0 (by omega)
      rw [this] at hj2
      linarith

theorem ofWeights_sorted {ws : List ℚ} (hw : ∀ w ∈ ws, 0 ≤ w) :
    (PSelector.ofWeights ws).cumprob.Sorted (· ≤ ·) := by
  rw [ofWeights_cumprob]; exact cumsums_sorted hw

theorem ofWeights_head (ws : List ℚ) :
    (PSelector.ofWeights ws).cumprob.getD 0 0 = 0 := by
  rw [ofWeights_cumprob]; exact cumsums_getD_zero 0 ws 0

theorem ofWeights_ne_nil (ws : List ℚ) :
    (PSelector.ofWeights ws).cumprob ≠ [] := by
  rw [ofWeights_cumprob]; exact cumsums_ne_nil 0 ws

theorem back_eq_getLastD (P : PSelector) : P.back = P.cumprob.getLastD 0 := rfl

/-- Bundled behaviour of `PSelector::select` with a supplied `x ∈ [0,1)` on a
weight-built selector of positive total: the returned index is in range,
uniquely sandwiches the scaled value, and the residual lies in `[0,1)`. -/
theorem selectX_core {ws : List ℚ} (hw : ∀ w ∈ ws, 0 ≤ w)
    (htot : 0 < (PSelector.ofWeights ws).back)
    {x : ℚ} (hx0 : 0 ≤ x) (hx1 : x < 1) :
    (((PSelector.ofWeights ws).selectX x).1 + 1 <
        (PSelector.ofWeights ws).cumprob.length) ∧
    ((PSelector.ofWeights ws).cumprob.getD ((PSelector.ofWeights ws).selectX x).1 0
        ≤ x * (PSelector.ofWeights ws).back) ∧
    (x * (PSelector.ofWeights ws).back <
        (PSelector.ofWeights ws).cumprob.getD
          (((PSelector.ofWeights ws).selectX x).1 + 1) 0) ∧
    (∀ j : ℕ,
        (PSelector.ofWeights ws).cumprob.getD j 0 ≤ x * (PSelector.ofWeights ws).back →
        x * (PSelector.ofWeights ws).back <
          (PSelector.ofWeights ws).cumprob.getD (j + 1) 0 →
        j = ((PSelector.ofWeights ws).selectX x).1) ∧
    (0 ≤ ((PSelector.ofWeights ws).selectX x).2) ∧
    (((PSelector.ofWeights ws).selectX x).2 < 1) := by
  set P := PSelector.ofWeights ws with hP
  set v := x * P.back with hv
  have hs : P.cumprob.Sorted (· ≤ ·) := ofWeights_sorted hw
  have hne : P.cumprob ≠ [] := ofWeights_ne_nil ws
  have h0 : P.cumprob.getD 0 0 ≤ v := by
    rw [ofWeights_head ws]
    exact mul_nonneg hx0 (le_of_lt htot)
  have hv0 : 0 ≤ v := by
    rw [← ofWeights_head ws]; exact h0
  have hlast : v < P.cumprob.getLastD 0 := by
    rw [← back_eq_getLastD]
    calc v = x * P.back := hv
      _ < P.back := mul_lt_of_lt_one_left htot hx1
  obtain ⟨heq, hlen, hlo, hhi⟩ := upperBound_sandwich hne h0 hlast
  have hfst : (P.selectX x).1 = upperBound v P.cumprob - 1 := rfl
  have hlo' : P.cumprob.getD ((P.selectX x).1) 0 ≤ v := by rw [hfst]; exact hlo
  have hhi' : v < P.cumprob.getD ((P.selectX x).1 + 1) 0 := by rw [hfst]; exact hhi
  have hsnd : (P.selectX x).2 =
      (v - P.cumprob.getD ((P.selectX x).1) 0) /
        (P.cumprob.getD ((P.selectX x).1 + 1) 0 -
          P.cumprob.getD ((P.selectX x).1) 0) := rfl
  refine ⟨by rw [hfst]; exact hlen, hlo', hhi', ?_, ?_, ?_⟩
  · intro j hj1 hj2
    rw [hfst]
    exact sandwich_unique hs hv0 hne h0 hlast hj1 hj2
  · rw [hsnd]
    apply div_nonneg <;> linarith
  · rw [hsnd]
    have hden : 0 < P.cumprob.getD ((P.selectX x).1 + 1) 0 -
        P.cumprob.getD ((P.selectX x).1) 0 := by linarith
    exact (div_lt_one hden).mpr (by linarith)

/-- Interval characterization of the returned bin, for a supplied `x`. -/
theorem selectX_eq_iff {ws : List ℚ} (hw : ∀ w ∈ ws, 0 ≤ w)
    (htot : 0 < (PSelector.ofWeights ws).back)
    {x : ℚ} (hx0 : 0 ≤ x) (hx1 : x < 1) (j : ℕ) :
    ((PSelector.ofWeights ws).selectX x).1 = j ↔
      ((PSelector.ofWeights ws).cumprob.getD j 0 ≤ x * (PSelector.ofWeights ws).back ∧
        x * (PSelector.ofWeights ws).back < (PSelector.ofWeights ws).cumprob.getD (j + 1) 0) := by
  obtain ⟨hlen, hlo, hhi, huniq, hr0, hr1⟩ := selectX_core hw htot hx0 hx1
  constructor
  · rintro rfl
    exact ⟨hlo, hhi⟩
  · rintro ⟨hj1, hj2⟩
    exact (huniq j hj1 hj2).symm

/-- C3: For every PSelector with positive total weight (built, as everywhere
in the generator, by `addProb` over nonnegative weights) and every supplied
`x` with `0 ≤ x < 1`, `select(&x)` returns the unique 0-based bin index `i`
with `cumprob[i] ≤ x·total < cumprob[i+1]` (so a zero-width bin is never
returned), and overwrites `x` with
`(x·total − cumprob[i])/(cumprob[i+1] − cumprob[i])`, which lies in `[0,1)`;
consequently, as `x` sweeps upward from 0 staying below 1, the selected index
is monotone and every positive-weight bin is attained. -/
theorem C3_select_characterization {ws : List ℚ} (hw : ∀ w ∈ ws, 0 ≤ w)
    (htot : 0 < (PSelector.ofWeights ws).back) :
    (∀ x : ℚ, 0 ≤ x → x < 1 →
      ((PSelector.ofWeights ws).cumprob.getD ((PSelector.ofWeights ws).selectX x).1 0
          ≤ x * (PSelector.ofWeights ws).back ∧
        x * (PSelector.ofWeights ws).back <
          (PSelector.ofWeights ws).cumprob.getD
            (((PSelector.ofWeights ws).selectX x).1 + 1) 0) ∧
      (∀ j : ℕ,
        (PSelector.ofWeights ws).cumprob.getD j 0 ≤ x * (PSelector.ofWeights ws).back →
        x * (PSelector.ofWeights ws).back <
          (PSelector.ofWeights ws).cumprob.getD (j + 1) 0 →
        j = ((PSelector.ofWeights ws).selectX x).1) ∧
      ((PSelector.ofWeights ws).cumprob.getD ((PSelector.ofWeights ws).selectX x).1 0 <
        (PSelector.ofWeights ws).cumprob.getD
          (((PSelector.ofWeights ws).selectX x).1 + 1) 0) ∧
      (((PSelector.ofWeights ws).selectX x).2 =
        (x * (PSelector.ofWeights ws).back -
            (PSelector.ofWeights ws).cumprob.getD ((PSelector.ofWeights ws).selectX x).1 0) /
          ((PSelector.ofWeights ws).cumprob.getD
              (((PSelector.ofWeights ws).selectX x).1 + 1) 0 -
            (PSelector.ofWeights ws).cumprob.getD
              ((PSelector.ofWeights ws).selectX x).1 0)) ∧
      (0 ≤ ((PSelector.ofWeights ws).selectX x).2 ∧
        ((PSelector.ofWeights ws).selectX x).2 < 1)) ∧
    (∀ y z : ℚ, 0 ≤ y → y ≤ z → z < 1 →
      ((PSelector.ofWeights ws).selectX y).1 ≤ ((PSelector.ofWeights ws).selectX z).1) ∧
    (∀ j : ℕ, j < (PSelector.ofWeights ws).getN →
      (PSelector.ofWeights ws).cumprob.getD j 0 <
        (PSelector.ofWeights ws).cumprob.getD (j + 1) 0 →
      ∃ y : ℚ, 0 ≤ y ∧ y < 1 ∧ ((PSelector.ofWeights ws).selectX y).1 = j) := by
  set P := PSelector.ofWeights ws with hP
  refine ⟨?_, ?_, ?_⟩
  · intro x hx0 hx1
    obtain ⟨hlen, hlo, hhi, huniq, hr0, hr1⟩ := selectX_core hw htot hx0 hx1
    exact ⟨⟨hlo, hhi⟩, huniq, lt_of_le_of_lt hlo hhi, rfl, hr0, hr1⟩
  · intro y z hy0 hyz hz1
    have h1 : y * P.back ≤ z * P.back :=
      mul_le_mul_of_nonneg_right hyz (le_of_lt htot)
    have h2 := upperBound_mono h1 P.cumprob
    have hfy : (P.selectX y).1 = upperBound (y * P.back) P.cumprob - 1 := rfl
    have hfz : (P.selectX z).1 = upperBound (z * P.back) P.cumprob - 1 := rfl
    rw [hfy, hfz]
    omega
  · intro j hj hwidth
    have hs : P.cumprob.Sorted (· ≤ ·) := ofWeights_sorted hw
    have hne : P.cumprob ≠ [] := by rw [hP]; exact ofWeights_ne_nil ws
    have hlen : j + 1 < P.cumprob.length := by
      have hj2 : j < P.cumprob.length - 1 := hj
      have hpos : 0 < P.cumprob.length := List.length_pos.mpr hne
      omega
    have hj0 : 0 ≤ P.cumprob.getD j 0 := by
      have h := sorted_getD_mono hs (Nat.zero_le j) (show j < P.cumprob.length by omega)
      have hh : P.cumprob.getD 0 0 = 0 := by rw [hP]; exact ofWeights_head ws
      rw [hh] at h
      exact h
    have hjtop : P.cumprob.getD (j + 1) 0 ≤ P.back := by
      rw [back_eq_getLastD, getLastD_eq_getD _ hne]
      exact sorted_getD_mono hs (by omega)
        (show P.cumprob.length - 1 < P.cumprob.length by omega)
    have hjlt : P.cumprob.getD j 0 < P.back := lt_of_lt_of_le hwidth hjtop
    refine ⟨P.cumprob.getD j 0 / P.back, ?_, ?_, ?_⟩
    · exact div_nonneg hj0 (le_of_lt htot)
    · exact (div_lt_one htot).mpr hjlt
    · have hy0 : 0 ≤ P.cumprob.getD j 0 / P.back := div_nonneg hj0 (le_of_lt htot)
      have hy1 : P.cumprob.getD j 0 / P.back < 1 := (div_lt_one htot).mpr hjlt
      have hcancel : P.cumprob.getD j 0 / P.back * P.back = P.cumprob.getD j 0 :=
        div_mul_cancel₀ _ (ne_of_gt htot)
      rw [selectX_eq_iff hw htot hy0 hy1 j, hcancel]
      exact ⟨le_refl _, hwidth⟩

theorem getD_map_mul (l : List ℚ) (s : ℚ) (n : ℕ) :
    (l.map (· * s)).getD n 0 = l.getD n 0 * s := by
  induction l generalizing n with
  | nil => simp
  | cons c cs ih =>
      cases n with
      | zero => simp
      | succ m => simpa using ih m

theorem getLastD_map_mul (l : List ℚ) (s : ℚ) :
    (l.map (· * s)).getLastD 0 = l.getLastD 0 * s := by
  rcases l with _ | ⟨c, cs⟩
  · simp
  · have hne : (c :: cs) ≠ ([] : List ℚ) := by simp
    have hne2 : ((c :: cs).map (· * s)) ≠ ([] : List ℚ) := by simp
    rw [getLastD_eq_getD _ hne, getLastD_eq_getD _ hne2, List.length_map]
    exact getD_map_mul _ s _

theorem upperBound_map_mul {s : ℚ} (hs : 0 < s) (v : ℚ) (l : List ℚ) :
    upperBound (v * s) (l.map (· * s)) = upperBound v l := by
  induction l with
  | nil => rfl
  | cons c cs ih =>
      have hiff : c * s ≤ v * s ↔ c ≤ v := mul_le_mul_right hs
      by_cases h : c ≤ v
      · simp [upperBound, h, hiff.mpr h, ih]
      · have hvc : v * s < c * s :=
          mul_lt_mul_of_pos_right (not_le.mp h) hs
        simp [upperBound, h, not_le.mpr hvc]

theorem div_mul_cancel_div (a b s : ℚ) (hs : s ≠ 0) :
    (a * s) / (b * s) = a / b := by
  rcases eq_or_ne b 0 with rfl | hb
  · simp
  · rw [mul_comm a s, mul_comm b s, mul_div_mul_left a b hs]

/-- C10: for every PSelector and every `s > 0`, `scale(s)` changes no
observable probability: `getProb(n)` is unchanged for every bin, and `select`
on any supplied `x ∈ [0,1)` returns the same bin index and writes back the
same residual; only the cumulative weights (hence the total) are multiplied
by `s`. -/
theorem C10_scale_invariance (P : PSelector) {s : ℚ} (hs : 0 < s) :
    (P.scale s).cumprob = P.cumprob.map (· * s) ∧
    (P.scale s).back = P.back * s ∧
    (∀ n : ℕ, (P.scale s).getProb n = P.getProb n) ∧
    (∀ x : ℚ, 0 ≤ x → x < 1 → (P.scale s).selectX x = P.selectX x) := by
  have hback : (P.scale s).back = P.back * s := by
    simp only [PSelector.scale, PSelector.back]
    exact getLastD_map_mul P.cumprob s
  refine ⟨rfl, hback, ?_, ?_⟩
  · intro n
    simp only [PSelector.getProb, PSelector.scale, PSelector.back,
      getD_map_mul, getLastD_map_mul]
    rw [show P.cumprob.getD (n + 1) 0 * s - P.cumprob.getD n 0 * s =
      (P.cumprob.getD (n + 1) 0 - P.cumprob.getD n 0) * s by ring]
    exact div_mul_cancel_div _ _ s (ne_of_gt hs)
  · intro x hx0 hx1
    have hub : upperBound (x * (P.scale s).back) (P.scale s).cumprob =
        upperBound (x * P.back) P.cumprob := by
      rw [hback, show x * (P.back * s) = (x * P.back) * s by ring]
      exact upperBound_map_mul hs (x * P.back) P.cumprob
    have hfst : ((P.scale s).selectX x).1 = (P.selectX x).1 := by
      show upperBound (x * (P.scale s).back) (P.scale s).cumprob - 1 =
        upperBound (x * P.back) P.cumprob - 1
      rw [hub]
    have hsnd : ((P.scale s).selectX x).2 = (P.selectX x).2 := by
      show (x * (P.scale s).back - (P.scale s).cumprob.getD
            ((P.scale s).selectX x).1 0) /
          ((P.scale s).cumprob.getD (((P.scale s).selectX x).1 + 1) 0 -
            (P.scale s).cumprob.getD ((P.scale s).selectX x).1 0) =
        (x * P.back - P.cumprob.getD (P.selectX x).1 0) /
          (P.cumprob.getD ((P.selectX x).1 + 1) 0 -
            P.cumprob.getD (P.selectX x).1 0)
      rw [hfst]
      simp only [PSelector.scale, PSelector.back, getD_map_mul, getLastD_map_mul]
      rw [show x * (P.cumprob.getLastD 0 * s) - P.cumprob.getD (P.selectX x).1 0 * s =
        (x * P.cumprob.getLastD 0 - P.cumprob.getD (P.selectX x).1 0) * s by ring]
      rw [show P.cumprob.getD ((P.selectX x).1 + 1) 0 * s -
          P.cumprob.getD (P.selectX x).1 0 * s =
        (P.cumprob.getD ((P.selectX x).1 + 1) 0 -
          P.cumprob.getD (P.selectX x).1 0) * s by ring]
      exact div_mul_cancel_div _ _ s (ne_of_gt hs)
    exact Prod.ext hfst hsnd

/-- Witness for C3 at the two-bin selector with weights 1/2, 1/2 and
supplied value 3/4. -/
theorem C3_select_characterization_witness :
    0 ≤ ((PSelector.ofWeights [(1 : ℚ)/2, 1/2]).selectX (3/4)).2 ∧
      ((PSelector.ofWeights [(1 : ℚ)/2, 1/2]).selectX (3/4)).2 < 1 := by
  have h := @C3_select_characterization [(1 : ℚ)/2, 1/2]
    (by intro w hw; fin_cases hw <;> norm_num)
    (by rw [ofWeights_back]; norm_num)
  exact (h.1 (3/4) (by norm_num) (by norm_num)).2.2.2.2

/-- Witness for C10 at a concrete two-bin selector, scaled by 2. -/
theorem C10_scale_invariance_witness :
    ((PSelector.mk [0, 1, 3]).scale 2).selectX (1/2) =
      (PSelector.mk [0, 1, 3]).selectX (1/2) := by
  have h := @C10_scale_invariance (PSelector.mk [0, 1, 3]) 2 (by norm_num)
  exact h.2.2.2 (1/2) (by norm_num) (by norm_num)

/-! ## Decay-system data model (NuclEvtGen.cc:61-486) -/

/-- DecayType: particle species tags (NuclEvtGen particleName/particleType). -/
inductive DecayType where
  | D_GAMMA
  | D_ELECTRON
  | D_POSITRON
  | D_NEUTRINO
  | D_NONEVENT
deriving Repr, DecidableEq

/-- An emitted-particle event.  `randp` draws two uniforms and feeds them to
`randomDirection` (NuclEvtGen.cc:50-57), which maps them through cos/sin/sqrt
to a unit vector; that map is fixed, so the direction is recorded as the
determining pair (costheta input, phi input). -/
structure NucDecayEvent where
  d : DecayType
  E : ℚ
  dir : ℚ × ℚ
deriving Repr, DecidableEq

/-- DecayAtom: the atomic-relaxation fields read during chain generation
(pAuger/Eauger from NuclEvtGen.cc:81-99, IMissing likewise, and the
binding-energy table `BET->getSubshellBinding` behind it).  The lazy `atoms`
cache is modelled by its final, post-construction contents. -/
structure DecayAtom where
  pAuger : ℚ
  Eauger : ℚ
  IMissing : ℚ
  binding : ℕ → ℕ → ℚ

/-- NucLevel: the fields the generator reads (NuclEvtGen.cc:61-72); a
level's dense index is its position in the sorted `levels` list. -/
structure NucLevel where
  name : String
  A : ℤ
  Z : ℤ
  E : ℚ
  hl : ℚ
  jpi : String
  fluxIn : ℚ
  fluxOut : ℚ
deriving Repr, DecidableEq

instance : Inhabited NucLevel := ⟨⟨"", 0, 0, 0, 0, "", 0, 0⟩⟩

/-- Modelled from the spec: `NucLevel::scale` is declared in the missing
header; spec §4.2 says ground-state normalization rescales "all intensities
and level fluxes", so it multiplies the two flux accumulators by `s`. -/
def NucLevel.scale (L : NucLevel) (s : ℚ) : NucLevel :=
  { L with fluxIn := L.fluxIn * s, fluxOut := L.fluxOut * s }

/-- The closed set of transition variants (spec §9): gamma/internal
conversion (NuclEvtGen.cc:123-163), beta (234-258: the tabulated spectrum and
its inverse CDF are summarized by the `quantile` function used at cc:253),
electron capture (262-264). -/
inductive TransKind where
  | gammaConv (shells : PSelector) (subshells : List PSelector) (Egamma : ℚ)
  | beta (positron : Bool) (quantile : ℚ → ℚ)
  | ecapture

/-- TransitionBase: the edge fields the generator reads.  `ndf` is modelled
from the spec: `getNDF()` is a construction-time fixed count of uniform draws
per variant (spec §4.3); its per-variant override values live in the missing
header, so it is carried as a field. -/
structure Transition where
  fromN : ℕ
  toN : ℕ
  toZ : ℕ
  Itotal : ℚ
  ndf : ℕ
  kind : TransKind

instance : Inhabited Transition := ⟨⟨0, 0, 0, 0, 0, TransKind.ecapture⟩⟩

/-- `TransitionBase::scale` multiplies `Itotal` by `s` (modelled from the
spec's "all intensities ... are rescaled"; the virtual override
`ConversionGamma::scale`, NuclEvtGen.cc:226-230, additionally rescales the
shell selector; `Igamma` is display-only and not carried here). -/
def Transition.scale (T : Transition) (s : ℚ) : Transition :=
  match T.kind with
  | TransKind.gammaConv sh subs Eg =>
      { T with Itotal := T.Itotal * s, kind := TransKind.gammaConv (sh.scale s) subs Eg }
  | _ => { T with Itotal := T.Itotal * s }

/-- NucDecaySystem state: levels sorted ascending by energy, the global
transition list, per-level inbound/outbound transition-index lists, the
per-level next-transition selectors, the chain-start selector, the half-life
cutoff, and the atom cache (by atomic number). -/
structure NucDecaySystem where
  levels : List NucLevel
  transitions : List Transition
  transIn : List (List ℕ)
  transOut : List (List ℕ)
  levelDecays : List PSelector
  lStart : PSelector
  tcut : ℚ
  atoms : ℕ → DecayAtom

/-- In-place update of the `n`-th entry of a vector. -/
def modN (f : α → α) : ℕ → List α → List α
  | _, [] => []
  | 0, x :: xs => f x :: xs
  | n + 1, x :: xs => x :: modN f n xs

theorem modN_length (f : α → α) (n : ℕ) (l : List α) :
    (modN f n l).length = l.length := by
  induction l generalizing n with
  | nil => cases n <;> rfl
  | cons x xs ih =>
      cases n with
      | zero => rfl
      | succ m => simp [modN, ih]

theorem getD_modN (f : α → α) (n i : ℕ) (l : List α) (d : α) :
    (modN f n l).getD i d =
      if n = i ∧ i < l.length then f (l.getD i d) else l.getD i d := by
  induction l generalizing n i with
  | nil => simp [modN]
  | cons x xs ih =>
      cases n with
      | zero =>
          cases i with
          | zero => simp [modN]
          | succ j => simp [modN]
      | succ m =>
          cases i with
          | zero => simp [modN]
          | succ j =>
              simp only [modN, List.getD_cons_succ, ih, List.length_cons]
              by_cases h : m = j ∧ j < xs.length

              · simp [h.1, h.2, Nat.succ_lt_succ h.2]
              · rw [if_neg h, if_neg]
                omega

/-- `NucDecaySystem::addTransition` (NuclEvtGen.cc:375-383): register the
new transition on both endpoint levels, extend the origin's selector, and
accumulate the fluxes.  (`T->toAtom = getAtom(T->to.Z)` is reflected by chain
generation reading the atom cache at `T.toZ`.) -/
def NucDecaySystem.addTransition (S : NucDecaySystem) (T : Transition) :
    NucDecaySystem :=
  { S with
    transitions := S.transitions ++ [T]
    transIn := modN (· ++ [S.transitions.length]) T.toN S.transIn
    transOut := modN (· ++ [S.transitions.length]) T.fromN S.transOut
    levelDecays := modN (fun P => P.addProb T.Itotal) T.fromN S.levelDecays
    levels := modN (fun L => { L with fluxIn := L.fluxIn + T.Itotal }) T.toN
      (modN (fun L => { L with fluxOut := L.fluxOut + T.Itotal }) T.fromN S.levels) }

/-- Sum of `Itotal` over a level's outbound transitions. -/
def NucDecaySystem.outSum (S : NucDecaySystem) (n : ℕ) : ℚ :=
  ((S.transOut.getD n []).map (fun k => (S.transitions.getD k default).Itotal)).sum

/-- Sum of `Itotal` over a level's inbound transitions. -/
def NucDecaySystem.inSum (S : NucDecaySystem) (n : ℕ) : ℚ :=
  ((S.transIn.getD n []).map (fun k => (S.transitions.getD k default).Itotal)).sum

/-- The start weight `pStart` computed for level `n` by `setCutoff`
(NuclEvtGen.cc:393-396): 1 for the last (highest-energy) level; otherwise the
inbound intensity sum when the half-life exceeds the cutoff and the level has
outbound transitions, else 0. -/
def NucDecaySystem.startWeight (S : NucDecaySystem) (t : ℚ) (n : ℕ) : ℚ :=
  if n + 1 = S.levels.length then 1
  else if t < (S.levels.getD n default).hl ∧ S.transOut.getD n [] ≠ [] then
    S.inSum n
  else 0

/-- `NucDecaySystem::setCutoff` (NuclEvtGen.cc:385-399): store the cutoff,
rebuild every per-level selector from the outbound `Itotal`s, and rebuild the
chain-start selector from the per-level start weights. -/
def NucDecaySystem.setCutoff (S : NucDecaySystem) (t : ℚ) : NucDecaySystem :=
  { S with
    tcut := t
    levelDecays := (List.range S.levels.length).map
      (fun n => PSelector.ofWeights
        ((S.transOut.getD n []).map (fun k => (S.transitions.getD k default).Itotal)))
    lStart := PSelector.ofWeights
      ((List.range S.levels.length).map (S.startWeight t)) }

/-- `NucDecaySystem::scale` (NuclEvtGen.cc:478-486). -/
def NucDecaySystem.scale (S : NucDecaySystem) (s : ℚ) : NucDecaySystem :=
  { S with
    lStart := S.lStart.scale s
    transitions := S.transitions.map (fun T => T.scale s)
    levels := S.levels.map (fun L => L.scale s)
    levelDecays := S.levelDecays.map (fun P => P.scale s) }

/-- Insertion step for sorting levels ascending by energy (the comparator of
`sortLevels`, NuclEvtGen.cc:268). -/
def insertLevel (L : NucLevel) : List NucLevel → List NucLevel
  | [] => [L]
  | x :: xs => if L.E < x.E then L :: x :: xs else x :: insertLevel L xs

/-- `std::sort(levels.begin(), levels.end(), sortLevels)`: the levels in
ascending energy order (insertion sort; the C++ sort promises the same
ascending-by-E ordering). -/
def sortByE (ls : List NucLevel) : List NucLevel := ls.foldr insertLevel []

theorem mem_insertLevel (L : NucLevel) (l : List NucLevel) (x : NucLevel) :
    x ∈ insertLevel L l ↔ x = L ∨ x ∈ l := by
  induction l with
  | nil => simp [insertLevel]
  | cons y ys ih =>
      by_cases h : L.E < y.E
      · simp [insertLevel, h]
      · simp [insertLevel, h, ih]
        tauto

theorem insertLevel_sorted (L : NucLevel) (l : List NucLevel)
    (hs : l.Sorted (fun a b => a.E ≤ b.E)) :
    (insertLevel L l).Sorted (fun a b => a.E ≤ b.E) := by
  induction l with
  | nil => simp [insertLevel]
  | cons y ys ih =>
      rw [List.sorted_cons] at hs
      by_cases h : L.E < y.E
      · rw [insertLevel, if_pos h, List.sorted_cons]
        constructor
        · intro b hb
          rcases List.mem_cons.mp hb with rfl | hb2
          · exact le_of_lt h
          · exact le_trans (le_of_lt h) (hs.1 b hb2)
        · rw [List.sorted_cons]; exact hs
      · rw [insertLevel, if_neg h, List.sorted_cons]
        constructor
        · intro b hb
          rcases (mem_insertLevel L ys b).mp hb with rfl | hb2
          · exact le_of_not_lt h
          · exact hs.1 b hb2
        · exact ih hs.2

theorem sortByE_sorted (ls : List NucLevel) :
    (sortByE ls).Sorted (fun a b => a.E ≤ b.E) := by
  induction ls with
  | nil => simp [sortByE]
  | cons L ls ih => exact insertLevel_sorted L _ ih

/-- The freshly initialized system of the NucDecaySystem constructor
(NuclEvtGen.cc:270-288): levels loaded (the NucLevel constructor,
cc:61, zeroes both flux accumulators), sorted by energy and densely
indexed, with one empty inbound list, outbound list and decay selector per
level, before any transition is registered.  `atoms` is the external
binding-energy-derived atom data keyed by Z (built lazily in the C++, fully
given here). -/
def initSystem (ls : List NucLevel) (atoms : ℕ → DecayAtom) : NucDecaySystem :=
  let ls0 := sortByE (ls.map (fun L => { L with fluxIn := 0, fluxOut := 0 }))
  { levels := ls0
    transitions := []
    transIn := ls0.map (fun _ => [])
    transOut := ls0.map (fun _ => [])
    levelDecays := ls0.map (fun _ => PSelector.init)
    lStart := PSelector.init
    tcut := 0
    atoms := atoms }

/-- The ground-state normalization block (NuclEvtGen.cc:295-304): when
`norm gamma = groundstate` is requested, every transition and every level is
rescaled by 1/gsflux, where gsflux is the total influx of outflux-free
levels.  (The per-level decay selectors are not rescaled here; the
constructor's final `setCutoff` rebuilds them.) -/
def NucDecaySystem.normGS (S : NucDecaySystem) : NucDecaySystem :=
  let gsflux :=
    ((S.levels.filter (fun L => decide (L.fluxOut = 0))).map (fun L => L.fluxIn)).sum
  { S with
    transitions := S.transitions.map (fun T => T.scale (1 / gsflux))
    levels := S.levels.map (fun L => L.scale (1 / gsflux)) }

/-- The NucDecaySystem constructor (NuclEvtGen.cc:270-360) after the parsing
layer: sort and index the levels; register the internal-conversion
transitions; optionally apply ground-state normalization; register the beta
and electron-capture transitions; finish with `setCutoff t`. -/
def buildSystem (ls : List NucLevel) (phase1 : List Transition) (norm : Bool)
    (phase2 : List Transition) (t : ℚ) (atoms : ℕ → DecayAtom) : NucDecaySystem :=
  let S1 := phase1.foldl NucDecaySystem.addTransition (initSystem ls atoms)
  let S2 := if norm then S1.normGS else S1
  let S3 := phase2.foldl NucDecaySystem.addTransition S2
  S3.setCutoff t

theorem getD_append_lt (l l2 : List α) (k : ℕ) (d : α) (h : k < l.length) :
    (l ++ l2).getD k d = l.getD k d := by
  induction l generalizing k with
  | nil => simp at h
  | cons x xs ih =>
      cases k with
      | zero => rfl
      | succ j => simpa using ih j (by simpa using h)

theorem getD_append_self (l : List α) (a d : α) :
    (l ++ [a]).getD l.length d = a := by
  induction l with
  | nil => rfl
  | cons x xs ih => simp only [List.cons_append, List.length_cons,
      List.getD_cons_succ]; exact ih

/-- The bundled reachable-state invariant of a NucDecaySystem: adjacency
lists and per-level selectors are one per level; outbound (inbound) indices
point at transitions leaving (entering) that level; each level's recorded
outflux equals the sum of its outbound intensities; and each per-level decay
selector carries exactly its outbound intensities as bin weights. -/
structure SysInv (S : NucDecaySystem) : Prop where
  hIn : S.transIn.length = S.levels.length
  hOut : S.transOut.length = S.levels.length
  hDec : S.levelDecays.length = S.levels.length
  hOutK : ∀ n, n < S.levels.length → ∀ k ∈ S.transOut.getD n [],
    k < S.transitions.length ∧ (S.transitions.getD k default).fromN = n
  hInK : ∀ n, n < S.levels.length → ∀ k ∈ S.transIn.getD n [],
    k < S.transitions.length ∧ (S.transitions.getD k default).toN = n
  hFlux : ∀ n, n < S.levels.length →
    (S.levels.getD n default).fluxOut = S.outSum n

/-- The post-`setCutoff` canonical form of the per-level decay selectors:
each carries exactly its level's outbound `Itotal`s as bin weights.  It holds
in every state the constructor exposes (its last step is `setCutoff`) and is
preserved by `setCutoff` and `scale`; ground-state normalization breaks it
transiently mid-construction, which the constructor's final `setCutoff`
repairs. -/
def CanonInv (S : NucDecaySystem) : Prop :=
  ∀ n, n < S.levels.length →
    S.levelDecays.getD n PSelector.init =
      PSelector.ofWeights
        ((S.transOut.getD n []).map (fun k => (S.transitions.getD k default).Itotal))

theorem ofWeights_append_single (ws : List ℚ) (w : ℚ) :
    PSelector.ofWeights (ws ++ [w]) = (PSelector.ofWeights ws).addProb w := by
  simp [PSelector.ofWeights, List.foldl_append]

theorem getD_map_const (l : List β) (c : α) (n : ℕ) (d : α) (h : n < l.length) :
    (l.map (fun _ => c)).getD n d = c := by
  induction l generalizing n with
  | nil => simp at h
  | cons x xs ih =>
      cases n with
      | zero => rfl
      | succ j => simpa using ih j (by simpa using h)

theorem mem_sortByE {ls : List NucLevel} {x : NucLevel} :
    x ∈ sortByE ls ↔ x ∈ ls := by
  induction ls with
  | nil => simp [sortByE]
  | cons L l ih =>
      simp only [sortByE, List.foldr_cons] at ih ⊢
      rw [mem_insertLevel, ih, List.mem_cons]

theorem getD_mem {l : List α} {n : ℕ} (h : n < l.length) (d : α) :
    l.getD n d ∈ l := by
  rw [List.getD_eq_getElem l d h]
  exact List.getElem_mem h

theorem sysInv_init (ls : List NucLevel) (atoms : ℕ → DecayAtom) :
    SysInv (initSystem ls atoms) := by
  refine ⟨by simp [initSystem], by simp [initSystem], by simp [initSystem],
    ?_, ?_, ?_⟩
  · intro n hn k hk
    simp only [initSystem] at hk hn
    rw [getD_map_const _ _ _ _ (by simpa using hn)] at hk
    simp at hk
  · intro n hn k hk
    simp only [initSystem] at hk hn
    rw [getD_map_const _ _ _ _ (by simpa using hn)] at hk
    simp at hk
  · intro n hn
    simp only [initSystem, NucDecaySystem.outSum] at hn ⊢
    rw [getD_map_const _ _ _ _ (by simpa using hn)]
    simp only [List.map_nil, List.sum_nil]
    have hmem : (sortByE (ls.map (fun L => { L with fluxIn := 0, fluxOut := 0 }))).getD
        n default ∈ sortByE (ls.map (fun L => { L with fluxIn := 0, fluxOut := 0 })) :=
      getD_mem (by simpa using hn) default
    rw [mem_sortByE] at hmem
    obtain ⟨L, hL, hEq⟩ := List.mem_map.mp hmem
    rw [← hEq]

/-- The canonical-selector form also holds in the freshly initialized
system: every selector and every outbound list is empty. -/
theorem canonInv_init (ls : List NucLevel) (atoms : ℕ → DecayAtom) :
    CanonInv (initSystem ls atoms) := by
  intro n hn
  simp only [initSystem] at hn ⊢
  rw [getD_map_const _ _ _ _ (by simpa using hn),
    getD_map_const _ _ _ _ (by simpa using hn)]
  rfl

theorem addTransition_fields (S : NucDecaySystem) (T : Transition) :
    (S.addTransition T).transitions = S.transitions ++ [T] ∧
    (S.addTransition T).transIn = modN (· ++ [S.transitions.length]) T.toN S.transIn ∧
    (S.addTransition T).transOut = modN (· ++ [S.transitions.length]) T.fromN S.transOut ∧
    (S.addTransition T).levelDecays =
      modN (fun P => P.addProb T.Itotal) T.fromN S.levelDecays ∧
    (S.addTransition T).levels =
      modN (fun L => { L with fluxIn := L.fluxIn + T.Itotal }) T.toN
        (modN (fun L => { L with fluxOut := L.fluxOut + T.Itotal }) T.fromN S.levels) ∧
    (S.addTransition T).lStart = S.lStart ∧ (S.addTransition T).tcut = S.tcut ∧
    (S.addTransition T).atoms = S.atoms :=
  ⟨rfl, rfl, rfl, rfl, rfl, rfl, rfl, rfl⟩

theorem sysInv_addTransition {S : NucDecaySystem} (h : SysInv S) (T : Transition) :
    SysInv (S.addTransition T) := by
  obtain ⟨hTs, hTin, hTout, hTdec, hTlev, _, _, _⟩ := addTransition_fields S T
  have hLev : (S.addTransition T).levels.length = S.levels.length := by
    rw [hTlev, modN_length, modN_length]
  have hTsLen : (S.addTransition T).transitions.length = S.transitions.length + 1 := by
    rw [hTs]; simp
  -- transition lookups in the extended list
  have hGetOld : ∀ k, k < S.transitions.length →
      (S.addTransition T).transitions.getD k default = S.transitions.getD k default := by
    intro k hk
    rw [hTs]; exact getD_append_lt _ _ k default hk
  have hGetNew : (S.addTransition T).transitions.getD S.transitions.length default = T := by
    rw [hTs]; exact getD_append_self _ T default
  -- outbound index lists of the new state
  have hOutD : ∀ n, n < S.levels.length →
      (S.addTransition T).transOut.getD n [] =
        if T.fromN = n then S.transOut.getD n [] ++ [S.transitions.length]
        else S.transOut.getD n [] := by
    intro n hn
    rw [hTout, getD_modN]
    by_cases hc : T.fromN = n
    · rw [if_pos ⟨hc, by rw [h.hOut]; exact hn⟩, if_pos hc]
    · rw [if_neg (fun hh => hc hh.1), if_neg hc]
  have hInD : ∀ n, n < S.levels.length →
      (S.addTransition T).transIn.getD n [] =
        if T.toN = n then S.transIn.getD n [] ++ [S.transitions.length]
        else S.transIn.getD n [] := by
    intro n hn
    rw [hTin, getD_modN]
    by_cases hc : T.toN = n
    · rw [if_pos ⟨hc, by rw [h.hIn]; exact hn⟩, if_pos hc]
    · rw [if_neg (fun hh => hc hh.1), if_neg hc]
  -- mapping intensities over an old index list is unchanged
  have hMapOld : ∀ n, n < S.levels.length →
      (S.transOut.getD n []).map
          (fun k => ((S.addTransition T).transitions.getD k default).Itotal) =
        (S.transOut.getD n []).map (fun k => (S.transitions.getD k default).Itotal) := by
    intro n hn
    apply List.map_congr_left
    intro k hk
    rw [hGetOld k (h.hOutK n hn k hk).1]
  refine ⟨?_, ?_, ?_, ?_, ?_, ?_⟩
  · rw [hTin, modN_length, h.hIn, hLev]
  · rw [hTout, modN_length, h.hOut, hLev]
  · rw [hTdec, modN_length, h.hDec, hLev]
  · intro n hn k hk
    rw [hLev] at hn
    rw [hOutD n hn] at hk
    by_cases hc : T.fromN = n
    · rw [if_pos hc] at hk
      rcases List.mem_append.mp hk with hk1 | hk2
      · obtain ⟨hk1a, hk1b⟩ := h.hOutK n hn k hk1
        exact ⟨by omega, by rw [hGetOld k hk1a]; exact hk1b⟩
      · have : k = S.transitions.length := by simpa using hk2
        subst this
        exact ⟨by omega, by rw [hGetNew]; exact hc⟩
    · rw [if_neg hc] at hk
      obtain ⟨hk1a, hk1b⟩ := h.hOutK n hn k hk
      exact ⟨by omega, by rw [hGetOld k hk1a]; exact hk1b⟩
  · intro n hn k hk
    rw [hLev] at hn
    rw [hInD n hn] at hk
    by_cases hc : T.toN = n
    · rw [if_pos hc] at hk
      rcases List.mem_append.mp hk with hk1 | hk2
      · obtain ⟨hk1a, hk1b⟩ := h.hInK n hn k hk1
        exact ⟨by omega, by rw [hGetOld k hk1a]; exact hk1b⟩
      · have : k = S.transitions.length := by simpa using hk2
        subst this
        exact ⟨by omega, by rw [hGetNew]; exact hc⟩
    · rw [if_neg hc] at hk
      obtain ⟨hk1a, hk1b⟩ := h.hInK n hn k hk
      exact ⟨by omega, by rw [hGetOld k hk1a]; exact hk1b⟩
  · intro n hn
    rw [hLev] at hn
    have hOS : (S.addTransition T).outSum n =
        if T.fromN = n then S.outSum n + T.Itotal else S.outSum n := by
      unfold NucDecaySystem.outSum
      rw [hOutD n hn]
      by_cases hc : T.fromN = n
      · rw [if_pos hc, if_pos hc, List.map_append, List.sum_append,
          List.map_cons, List.map_nil, hMapOld n hn, hGetNew]
        simp
      · rw [if_neg hc, if_neg hc, hMapOld n hn]
    have hFl : ((S.addTransition T).levels.getD n default).fluxOut =
        if T.fromN = n then (S.levels.getD n default).fluxOut + T.Itotal
        else (S.levels.getD n default).fluxOut := by
      rw [hTlev, getD_modN, getD_modN]
      by_cases hc2 : T.toN = n ∧ n < S.levels.length
      · rw [if_pos ⟨hc2.1, by rw [modN_length]; exact hc2.2⟩]
        by_cases hc : T.fromN = n
        · rw [if_pos ⟨hc, hn⟩, if_pos hc]
        · rw [if_neg (fun hh => hc hh.1), if_neg hc]
      · rw [if_neg (by rw [modN_length]; exact hc2)]
        by_cases hc : T.fromN = n
        · rw [if_pos ⟨hc, hn⟩, if_pos hc]
        · rw [if_neg (fun hh => hc hh.1), if_neg hc]
    rw [hFl, hOS]
    by_cases hc : T.fromN = n
    · rw [if_pos hc, if_pos hc, h.hFlux n hn]
    · rw [if_neg hc, if_neg hc, h.hFlux n hn]

theorem sysInv_foldl {S : NucDecaySystem} (h : SysInv S) (ts : List Transition) :
    SysInv (ts.foldl NucDecaySystem.addTransition S) := by
  induction ts generalizing S with
  | nil => exact h
  | cons T ts ih => exact ih (sysInv_addTransition h T)

theorem Transition.scale_parts (T : Transition) (s : ℚ) :
    (T.scale s).fromN = T.fromN ∧ (T.scale s).toN = T.toN ∧
    (T.scale s).toZ = T.toZ ∧ (T.scale s).ndf = T.ndf ∧
    (T.scale s).Itotal = T.Itotal * s := by
  rcases T with ⟨f, t, z, I, nd, k⟩
  cases k <;> exact ⟨rfl, rfl, rfl, rfl, rfl⟩

theorem getD_map_lt (f : α → β) (l : List α) (k : ℕ) (d : β) (d2 : α)
    (h : k < l.length) : (l.map f).getD k d = f (l.getD k d2) := by
  induction l generalizing k with
  | nil => simp at h
  | cons x xs ih =>
      cases k with
      | zero => rfl
      | succ j => simpa using ih j (by simpa using h)

theorem sum_map_mul_right (l : List ℚ) (c : ℚ) :
    (l.map (fun x => x * c)).sum = l.sum * c := by
  induction l with
  | nil => simp
  | cons x xs ih => simp [ih]; ring

/-- Ground-state normalization (rescaling every transition and level by a
common factor) preserves the structural and flux invariants. -/
theorem sysInv_normGS {S : NucDecaySystem} (h : SysInv S) : SysInv S.normGS := by
  set c := (1 : ℚ) /
    ((S.levels.filter (fun L => decide (L.fluxOut = 0))).map (fun L => L.fluxIn)).sum
    with hc
  have hfields : S.normGS.transitions = S.transitions.map (fun T => T.scale c) ∧
      S.normGS.levels = S.levels.map (fun L => L.scale c) ∧
      S.normGS.transIn = S.transIn ∧ S.normGS.transOut = S.transOut ∧
      S.normGS.levelDecays = S.levelDecays := ⟨rfl, rfl, rfl, rfl, rfl⟩
  obtain ⟨hTs, hLs, hTin, hTout, hTdec⟩ := hfields
  have hLev : S.normGS.levels.length = S.levels.length := by rw [hLs]; simp
  have hTsLen : S.normGS.transitions.length = S.transitions.length := by
    rw [hTs]; simp
  have hGet : ∀ k, k < S.transitions.length →
      S.normGS.transitions.getD k default = (S.transitions.getD k default).scale c := by
    intro k hk
    rw [hTs]
    exact getD_map_lt _ _ k default default hk
  refine ⟨?_, ?_, ?_, ?_, ?_, ?_⟩
  · rw [hTin, h.hIn, hLev]
  · rw [hTout, h.hOut, hLev]
  · rw [hTdec, h.hDec, hLev]
  · intro n hn k hk
    rw [hLev] at hn
    rw [hTout] at hk
    obtain ⟨hk1, hk2⟩ := h.hOutK n hn k hk
    refine ⟨by omega, ?_⟩
    rw [hGet k hk1, (Transition.scale_parts _ c).1]
    exact hk2
  · intro n hn k hk
    rw [hLev] at hn
    rw [hTin] at hk
    obtain ⟨hk1, hk2⟩ := h.hInK n hn k hk
    refine ⟨by omega, ?_⟩
    rw [hGet k hk1, (Transition.scale_parts _ c).2.1]
    exact hk2
  · intro n hn
    rw [hLev] at hn
    have hOS : S.normGS.outSum n = S.outSum n * c := by
      unfold NucDecaySystem.outSum
      rw [hTout]
      have hmap : (S.transOut.getD n []).map
          (fun k => (S.normGS.transitions.getD k default).Itotal) =
          ((S.transOut.getD n []).map
            (fun k => (S.transitions.getD k default).Itotal)).map (fun x => x * c) := by
        rw [List.map_map]
        apply List.map_congr_left
        intro k hk
        have hk1 := (h.hOutK n hn k hk).1
        simp only [Function.comp]
        rw [hGet k hk1, (Transition.scale_parts _ c).2.2.2.2]
      rw [hmap, sum_map_mul_right]
    rw [hOS]
    have hgl : S.normGS.levels.getD n default = (S.levels.getD n default).scale c := by
      rw [hLs]
      exact getD_map_lt _ _ n default default hn
    rw [hgl]
    have : ((S.levels.getD n default).scale c).fluxOut =
        (S.levels.getD n default).fluxOut * c := rfl
    rw [this, h.hFlux n hn]

/-- `setCutoff` keeps the structural and flux invariants (it only rebuilds
the two selector families and the cutoff). -/
theorem sysInv_setCutoff {S : NucDecaySystem} (h : SysInv S) (t : ℚ) :
    SysInv (S.setCutoff t) := by
  have hfields : (S.setCutoff t).transitions = S.transitions ∧
      (S.setCutoff t).levels = S.levels ∧
      (S.setCutoff t).transIn = S.transIn ∧ (S.setCutoff t).transOut = S.transOut ∧
      (S.setCutoff t).levelDecays = (List.range S.levels.length).map
        (fun n => PSelector.ofWeights
          ((S.transOut.getD n []).map
            (fun k => (S.transitions.getD k default).Itotal))) :=
    ⟨rfl, rfl, rfl, rfl, rfl⟩
  obtain ⟨hTs, hLs, hTin, hTout, hTdec⟩ := hfields
  refine ⟨?_, ?_, ?_, ?_, ?_, ?_⟩
  · rw [hTin, hLs]; exact h.hIn
  · rw [hTout, hLs]; exact h.hOut
  · rw [hTdec, hLs]; simp
  · intro n hn k hk
    rw [hLs] at hn
    rw [hTout] at hk
    rw [hTs]
    exact h.hOutK n hn k hk
  · intro n hn k hk
    rw [hLs] at hn
    rw [hTin] at hk
    rw [hTs]
    exact h.hInK n hn k hk
  · intro n hn
    rw [hLs] at hn
    have : (S.setCutoff t).outSum n = S.outSum n := by
      unfold NucDecaySystem.outSum
      rw [hTout, hTs]
    rw [this, hLs]
    exact h.hFlux n hn

theorem getD_range_map (f : ℕ → α) (L n : ℕ) (d : α) (hn : n < L) :
    ((List.range L).map f).getD n d = f n := by
  rw [getD_map_lt f _ n d 0 (by simpa using hn)]
  congr 1
  rw [List.getD_eq_getElem _ _ (by simpa using hn)]
  simp

/-- `setCutoff` establishes the canonical selector form. -/
theorem canonInv_setCutoff {S : NucDecaySystem} (t : ℚ) :
    CanonInv (S.setCutoff t) := by
  intro n hn
  have hLs : (S.setCutoff t).levels = S.levels := rfl
  rw [hLs] at hn
  have hTdec : (S.setCutoff t).levelDecays = (List.range S.levels.length).map
      (fun n => PSelector.ofWeights
        ((S.transOut.getD n []).map
          (fun k => (S.transitions.getD k default).Itotal))) := rfl
  rw [hTdec, getD_range_map _ _ _ _ hn]
  have hTs : (S.setCutoff t).transitions = S.transitions := rfl
  have hTout : (S.setCutoff t).transOut = S.transOut := rfl
  rw [hTs, hTout]

/-- `NucDecaySystem::scale` preserves the structural and flux invariants. -/
theorem sysInv_scale {S : NucDecaySystem} (h : SysInv S) (s : ℚ) :
    SysInv (S.scale s) := by
  have hfields : (S.scale s).transitions = S.transitions.map (fun T => T.scale s) ∧
      (S.scale s).levels = S.levels.map (fun L => L.scale s) ∧
      (S.scale s).transIn = S.transIn ∧ (S.scale s).transOut = S.transOut ∧
      (S.scale s).levelDecays = S.levelDecays.map (fun P => P.scale s) :=
    ⟨rfl, rfl, rfl, rfl, rfl⟩
  obtain ⟨hTs, hLs, hTin, hTout, hTdec⟩ := hfields
  have hLev : (S.scale s).levels.length = S.levels.length := by rw [hLs]; simp
  have hGet : ∀ k, k < S.transitions.length →
      (S.scale s).transitions.getD k default = (S.transitions.getD k default).scale s := by
    intro k hk
    rw [hTs]
    exact getD_map_lt _ _ k default default hk
  refine ⟨?_, ?_, ?_, ?_, ?_, ?_⟩
  · rw [hTin, h.hIn, hLev]
  · rw [hTout, h.hOut, hLev]
  · rw [hTdec, hLev]; simp [h.hDec]
  · intro n hn k hk
    rw [hLev] at hn
    rw [hTout] at hk
    obtain ⟨hk1, hk2⟩ := h.hOutK n hn k hk
    refine ⟨by rw [hTs]; simpa using hk1, ?_⟩
    rw [hGet k hk1, (Transition.scale_parts _ s).1]
    exact hk2
  · intro n hn k hk
    rw [hLev] at hn
    rw [hTin] at hk
    obtain ⟨hk1, hk2⟩ := h.hInK n hn k hk
    refine ⟨by rw [hTs]; simpa using hk1, ?_⟩
    rw [hGet k hk1, (Transition.scale_parts _ s).2.1]
    exact hk2
  · intro n hn
    rw [hLev] at hn
    have hOS : (S.scale s).outSum n = S.outSum n * s := by
      unfold NucDecaySystem.outSum
      rw [hTout]
      have hmap : (S.transOut.getD n []).map
          (fun k => ((S.scale s).transitions.getD k default).Itotal) =
          ((S.transOut.getD n []).map
            (fun k => (S.transitions.getD k default).Itotal)).map (fun x => x * s) := by
        rw [List.map_map]
        apply List.map_congr_left
        intro k hk
        have hk1 := (h.hOutK n hn k hk).1
        simp only [Function.comp]
        rw [hGet k hk1, (Transition.scale_parts _ s).2.2.2.2]
      rw [hmap, sum_map_mul_right]
    rw [hOS]
    have hgl : (S.scale s).levels.getD n default = (S.levels.getD n default).scale s := by
      rw [hLs]
      exact getD_map_lt _ _ n default default hn
    rw [hgl]
    have : ((S.levels.getD n default).scale s).fluxOut =
        (S.levels.getD n default).fluxOut * s := rfl
    rw [this, h.hFlux n hn]

theorem cumsums_map_mul (ws : List ℚ) (a s : ℚ) :
    (cumsums a ws).map (· * s) = cumsums (a * s) (ws.map (· * s)) := by
  induction ws generalizing a with
  | nil => simp [cumsums]
  | cons w tl ih =>
      simp only [cumsums, List.map_cons, ih, add_mul]

theorem ofWeights_scale (ws : List ℚ) (s : ℚ) :
    (PSelector.ofWeights ws).scale s = PSelector.ofWeights (ws.map (· * s)) := by
  have h1 : ((PSelector.ofWeights ws).scale s).cumprob =
      (PSelector.ofWeights (ws.map (· * s))).cumprob := by
    show (PSelector.ofWeights ws).cumprob.map (· * s) = _
    rw [ofWeights_cumprob, ofWeights_cumprob, cumsums_map_mul, zero_mul]
  rcases hA : (PSelector.ofWeights ws).scale s with ⟨A⟩
  rcases hB : PSelector.ofWeights (ws.map (· * s)) with ⟨B⟩
  rw [hA, hB] at h1
  simpa using h1

/-- `NucDecaySystem::scale` preserves the canonical selector form: the
per-level selectors and the per-transition intensities are rescaled by the
same factor. -/
theorem canonInv_scale {S : NucDecaySystem} (h : SysInv S) (hc : CanonInv S)
    (s : ℚ) : CanonInv (S.scale s) := by
  intro n hn
  have hLs : (S.scale s).levels = S.levels.map (fun L => L.scale s) := rfl
  have hTdec : (S.scale s).levelDecays = S.levelDecays.map (fun P => P.scale s) := rfl
  have hTout : (S.scale s).transOut = S.transOut := rfl
  have hTs : (S.scale s).transitions = S.transitions.map (fun T => T.scale s) := rfl
  rw [hLs] at hn
  simp only [List.length_map] at hn
  have hget : (S.scale s).levelDecays.getD n PSelector.init =
      (S.levelDecays.getD n PSelector.init).scale s := by
    rw [hTdec]
    exact getD_map_lt _ _ n PSelector.init PSelector.init (by rw [h.hDec]; exact hn)
  rw [hget, hc n hn, hTout, ofWeights_scale]
  congr 1
  rw [List.map_map]
  apply List.map_congr_left
  intro k hk
  have hk1 := (h.hOutK n hn k hk).1
  simp only [Function.comp]
  rw [hTs, getD_map_lt _ _ k default default hk1,
    (Transition.scale_parts _ s).2.2.2.2]

/-- Every system the constructor returns satisfies the structural and flux
invariants. -/
theorem sysInv_buildSystem (ls : List NucLevel) (phase1 : List Transition)
    (norm : Bool) (phase2 : List Transition) (t : ℚ) (atoms : ℕ → DecayAtom) :
    SysInv (buildSystem ls phase1 norm phase2 t atoms) := by
  apply sysInv_setCutoff
  apply sysInv_foldl
  rcases norm with _ | _
  · exact sysInv_foldl (sysInv_init ls atoms) phase1
  · exact sysInv_normGS (sysInv_foldl (sysInv_init ls atoms) phase1)

/-- Every system the constructor returns is in canonical selector form (the
constructor ends with `setCutoff`). -/
theorem canonInv_buildSystem (ls : List NucLevel) (phase1 : List Transition)
    (norm : Bool) (phase2 : List Transition) (t : ℚ) (atoms : ℕ → DecayAtom) :
    CanonInv (buildSystem ls phase1 norm phase2 t atoms) :=
  canonInv_setCutoff t

/-- The weight of bin `n` of a selector (`cumprob[n+1] - cumprob[n]`). -/
def PSelector.binWeight (P : PSelector) (n : ℕ) : ℚ :=
  P.cumprob.getD (n + 1) 0 - P.cumprob.getD n 0

theorem cumsums_getD_sub (ws : List ℚ) (a : ℚ) (n : ℕ) (hn : n < ws.length) :
    (cumsums a ws).getD (n + 1) 0 - (cumsums a ws).getD n 0 = ws.getD n 0 := by
  induction ws generalizing a n with
  | nil => simp at hn
  | cons w tl ih =>
      cases n with
      | zero =>
          simp only [cumsums, List.getD_cons_succ, List.getD_cons_zero]
          rw [cumsums_getD_zero]
          ring
      | succ m =>
          simp only [cumsums, List.getD_cons_succ]
          exact ih (a + w) m (by simpa using hn)

theorem ofWeights_binWeight (ws : List ℚ) (n : ℕ) (hn : n < ws.length) :
    (PSelector.ofWeights ws).binWeight n = ws.getD n 0 := by
  unfold PSelector.binWeight
  rw [ofWeights_cumprob]
  exact cumsums_getD_sub ws 0 n hn

/-- The claimed outflux identity: per level, outbound intensity sum =
recorded outflux = total weight of the level's decay selector. -/
def OutfluxEq (S : NucDecaySystem) : Prop :=
  ∀ n, n < S.levels.length →
    S.outSum n = (S.levels.getD n default).fluxOut ∧
    (S.levelDecays.getD n PSelector.init).getCumProb = S.outSum n

theorem outfluxEq_of_inv {S : NucDecaySystem} (h : SysInv S) (hc : CanonInv S) :
    OutfluxEq S := by
  intro n hn
  refine ⟨(h.hFlux n hn).symm, ?_⟩
  rw [hc n hn]
  show (PSelector.ofWeights _).back = _
  rw [ofWeights_back]
  rfl

theorem map_E_modN (f : NucLevel → NucLevel) (hf : ∀ x, (f x).E = x.E)
    (n : ℕ) (l : List NucLevel) :
    (modN f n l).map (fun L => L.E) = l.map (fun L => L.E) := by
  induction l generalizing n with
  | nil => cases n <;> rfl
  | cons x xs ih =>
      cases n with
      | zero => simp [modN, hf]
      | succ m => simp [modN, ih]

theorem levelEs_addTransition (S : NucDecaySystem) (T : Transition) :
    (S.addTransition T).levels.map (fun L => L.E) =
      S.levels.map (fun L => L.E) := by
  have h : (S.addTransition T).levels =
      modN (fun L => { L with fluxIn := L.fluxIn + T.Itotal }) T.toN
        (modN (fun L => { L with fluxOut := L.fluxOut + T.Itotal }) T.fromN S.levels) := rfl
  rw [h,
    map_E_modN (fun L => { L with fluxIn := L.fluxIn + T.Itotal }) (fun x => rfl) T.toN _,
    map_E_modN (fun L => { L with fluxOut := L.fluxOut + T.Itotal }) (fun x => rfl) T.fromN _]

theorem levelEs_foldl (S : NucDecaySystem) (ts : List Transition) :
    (ts.foldl NucDecaySystem.addTransition S).levels.map (fun L => L.E) =
      S.levels.map (fun L => L.E) := by
  induction ts generalizing S with
  | nil => rfl
  | cons T ts ih => rw [List.foldl_cons, ih, levelEs_addTransition]

theorem levelEs_setCutoff (S : NucDecaySystem) (t : ℚ) :
    (S.setCutoff t).levels.map (fun L => L.E) = S.levels.map (fun L => L.E) := rfl

theorem levelEs_normGS (S : NucDecaySystem) :
    S.normGS.levels.map (fun L => L.E) = S.levels.map (fun L => L.E) := by
  have h : S.normGS.levels = S.levels.map (fun L => L.scale
      ((1 : ℚ) /
        ((S.levels.filter (fun L => decide (L.fluxOut = 0))).map
          (fun L => L.fluxIn)).sum)) := rfl
  rw [h, List.map_map]
  rfl

theorem levelEs_init_sorted (ls : List NucLevel) (atoms : ℕ → DecayAtom) :
    ((initSystem ls atoms).levels.map (fun L => L.E)).Sorted (· ≤ ·) := by
  have h : (initSystem ls atoms).levels =
      sortByE (ls.map (fun L => { L with fluxIn := 0, fluxOut := 0 })) := rfl
  rw [h]
  exact List.Pairwise.map _ (fun a b hab => hab) (sortByE_sorted _)

theorem levelEs_sorted_buildSystem (ls : List NucLevel) (phase1 : List Transition)
    (norm : Bool) (phase2 : List Transition) (t : ℚ) (atoms : ℕ → DecayAtom) :
    ((buildSystem ls phase1 norm phase2 t atoms).levels.map (fun L => L.E)).Sorted
      (· ≤ ·) := by
  rcases norm with _ | _
  · have hb : buildSystem ls phase1 false phase2 t atoms =
        ((phase2.foldl NucDecaySystem.addTransition
          (phase1.foldl NucDecaySystem.addTransition (initSystem ls atoms))).setCutoff t) :=
      rfl
    rw [hb, levelEs_setCutoff, levelEs_foldl, levelEs_foldl]
    exact levelEs_init_sorted ls atoms
  · have hb : buildSystem ls phase1 true phase2 t atoms =
        ((phase2.foldl NucDecaySystem.addTransition
          ((phase1.foldl NucDecaySystem.addTransition (initSystem ls atoms)).normGS)).setCutoff t) :=
      rfl
    rw [hb, levelEs_setCutoff, levelEs_foldl, levelEs_normGS, levelEs_foldl]
    exact levelEs_init_sorted ls atoms

theorem insertLevel_length (L : NucLevel) (l : List NucLevel) :
    (insertLevel L l).length = l.length + 1 := by
  induction l with
  | nil => rfl
  | cons x xs ih =>
      by_cases h : L.E < x.E
      · simp [insertLevel, h]
      · simp [insertLevel, h, ih]

theorem sortByE_length (ls : List NucLevel) : (sortByE ls).length = ls.length := by
  induction ls with
  | nil => rfl
  | cons L l ih => simp [sortByE, insertLevel_length] at ih ⊢; exact ih

theorem levels_length_addTransition (S : NucDecaySystem) (T : Transition) :
    (S.addTransition T).levels.length = S.levels.length := by
  show (modN _ _ (modN _ _ _)).length = _
  rw [modN_length, modN_length]

theorem levels_length_foldl (S : NucDecaySystem) (ts : List Transition) :
    (ts.foldl NucDecaySystem.addTransition S).levels.length = S.levels.length := by
  induction ts generalizing S with
  | nil => rfl
  | cons T ts ih => rw [List.foldl_cons, ih, levels_length_addTransition]

theorem buildSystem_levels_length (ls : List NucLevel) (phase1 : List Transition)
    (norm : Bool) (phase2 : List Transition) (t : ℚ) (atoms : ℕ → DecayAtom) :
    (buildSystem ls phase1 norm phase2 t atoms).levels.length = ls.length := by
  have hinit : (initSystem ls atoms).levels.length = ls.length := by
    show (sortByE _).length = _
    rw [sortByE_length, List.length_map]
  rcases norm with _ | _
  · have hb : buildSystem ls phase1 false phase2 t atoms =
        ((phase2.foldl NucDecaySystem.addTransition
          (phase1.foldl NucDecaySystem.addTransition (initSystem ls atoms))).setCutoff t) :=
      rfl
    rw [hb]
    show (phase2.foldl NucDecaySystem.addTransition _).levels.length = _
    rw [levels_length_foldl, levels_length_foldl, hinit]
  · have hb : buildSystem ls phase1 true phase2 t atoms =
        ((phase2.foldl NucDecaySystem.addTransition
          ((phase1.foldl NucDecaySystem.addTransition (initSystem ls atoms)).normGS)).setCutoff t) :=
      rfl
    rw [hb]
    show (phase2.foldl NucDecaySystem.addTransition _).levels.length = _
    rw [levels_length_foldl]
    show (List.map _ _).length = _
    rw [List.length_map, levels_length_foldl, hinit]

/-- C6: after construction completes (including the constructor's final
`setCutoff`), each level's outbound `Itotal` sum equals its recorded
`fluxOut` and equals the total cumulative weight of its `levelDecays`
selector; the post-construction operations `setCutoff` and `scale` (applied
to a system in the constructor-established invariant state `SysInv`/`CanonInv`)
preserve the equality. -/
theorem C6_outflux_invariant :
    (∀ (ls : List NucLevel) (phase1 : List Transition) (norm : Bool)
        (phase2 : List Transition) (t : ℚ) (atoms : ℕ → DecayAtom),
      OutfluxEq (buildSystem ls phase1 norm phase2 t atoms)) ∧
    (∀ S : NucDecaySystem, SysInv S → CanonInv S →
      ∀ t : ℚ, OutfluxEq (S.setCutoff t)) ∧
    (∀ S : NucDecaySystem, SysInv S → CanonInv S →
      ∀ s : ℚ, OutfluxEq (S.scale s)) := by
  refine ⟨?_, ?_, ?_⟩
  · intro ls p1 nm p2 t atoms
    exact outfluxEq_of_inv (sysInv_buildSystem ls p1 nm p2 t atoms)
      (canonInv_buildSystem ls p1 nm p2 t atoms)
  · intro S h hc t
    exact outfluxEq_of_inv (sysInv_setCutoff h t) (canonInv_setCutoff t)
  · intro S h hc s
    exact outfluxEq_of_inv (sysInv_scale h s) (canonInv_scale h hc s)

/-- C9: on a constructed system (invariant state), `setCutoff` changes only
the cutoff and the chain-start selector: levels, transitions, adjacency
lists, the per-bin weights of every `levelDecays` selector, and the atom
cache keep their previous values. -/
theorem C9_setCutoff_frame {S : NucDecaySystem} (h : SysInv S) (hc : CanonInv S)
    (t : ℚ) :
    (S.setCutoff t).levels = S.levels ∧
    (S.setCutoff t).transitions = S.transitions ∧
    (S.setCutoff t).transIn = S.transIn ∧
    (S.setCutoff t).transOut = S.transOut ∧
    (S.setCutoff t).levelDecays = S.levelDecays ∧
    (S.setCutoff t).atoms = S.atoms ∧
    (S.setCutoff t).tcut = t := by
  refine ⟨rfl, rfl, rfl, rfl, ?_, rfl, rfl⟩
  have hnew : (S.setCutoff t).levelDecays = (List.range S.levels.length).map
      (fun n => PSelector.ofWeights ((S.transOut.getD n []).map
        (fun k => (S.transitions.getD k default).Itotal))) := rfl
  rw [hnew]
  apply List.ext_getElem
  · simp [h.hDec]
  · intro i h1 h2
    have hiL : i < S.levels.length := by simpa using h1
    rw [← List.getD_eq_getElem _ PSelector.init h1,
      ← List.getD_eq_getElem _ PSelector.init h2,
      getD_range_map _ _ _ _ hiL, hc i hiL]

/-- C4: after `setCutoff t` on a system with at least one level, the
chain-start weight of the last (highest-energy: a constructed system's
levels are sorted ascending by energy, first conjunct) level is exactly 1;
any other level with no outbound transitions or with half-life not exceeding
`t` gets weight 0; any other level with outbound transitions and half-life
exceeding `t` gets the sum of `Itotal` over its inbound transitions. -/
theorem C4_setCutoff_start_weights :
    (∀ (ls : List NucLevel) (phase1 : List Transition) (norm : Bool)
        (phase2 : List Transition) (t : ℚ) (atoms : ℕ → DecayAtom),
      ((buildSystem ls phase1 norm phase2 t atoms).levels.map
        (fun L => L.E)).Sorted (· ≤ ·)) ∧
    (∀ (S : NucDecaySystem) (t : ℚ), 0 < S.levels.length →
      ∀ n, n < S.levels.length →
        (S.setCutoff t).lStart.binWeight n =
          if n = S.levels.length - 1 then 1
          else if t < (S.levels.getD n default).hl ∧ S.transOut.getD n [] ≠ [] then
            S.inSum n
          else 0) := by
  constructor
  · exact levelEs_sorted_buildSystem
  · intro S t hpos n hn
    have hstart : (S.setCutoff t).lStart = PSelector.ofWeights
        ((List.range S.levels.length).map (S.startWeight t)) := rfl
    rw [hstart, ofWeights_binWeight _ n (by simpa using hn),
      getD_range_map _ _ _ _ hn]
    unfold NucDecaySystem.startWeight
    by_cases h1 : n + 1 = S.levels.length
    · have h2 : n = S.levels.length - 1 := by omega
      rw [if_pos h1, if_pos h2]
    · have h2 : ¬n = S.levels.length - 1 := by omega
      rw [if_neg h1, if_neg h2]

/-! ### A concrete two-level example system (ground state at 0 keV, one
excited state at 1 keV feeding it through an electron capture). -/

def exAtom : DecayAtom := ⟨1, 5, 1/2, fun _ _ => 0⟩

def exL0 : NucLevel := ⟨"3.2.0", 3, 2, 0, 0, "", 0, 0⟩

def exL1 : NucLevel := ⟨"3.2.1", 3, 2, 1, 3, "", 0, 0⟩

def exEC : Transition := ⟨1, 0, 2, 1, 0, TransKind.ecapture⟩

def exSys : NucDecaySystem :=
  buildSystem [exL0, exL1] [] false [exEC] 5 (fun _ => exAtom)

theorem exSys_levels_length : exSys.levels.length = 2 := by
  show (buildSystem _ _ _ _ _ _).levels.length = 2
  rw [buildSystem_levels_length]
  rfl

/-- Witness for C6 at the concrete example system: a further `setCutoff`
keeps the outflux identity. -/
theorem C6_outflux_invariant_witness : OutfluxEq (NucDecaySystem.setCutoff exSys 1) :=
  C6_outflux_invariant.2.1 exSys
    (sysInv_buildSystem [exL0, exL1] [] false [exEC] 5 (fun _ => exAtom))
    (canonInv_buildSystem [exL0, exL1] [] false [exEC] 5 (fun _ => exAtom)) 1

/-- Witness for C9 at the concrete example system. -/
theorem C9_setCutoff_frame_witness :
    (NucDecaySystem.setCutoff exSys 7).levelDecays = exSys.levelDecays :=
  (C9_setCutoff_frame
    (sysInv_buildSystem [exL0, exL1] [] false [exEC] 5 (fun _ => exAtom))
    (canonInv_buildSystem [exL0, exL1] [] false [exEC] 5 (fun _ => exAtom))
    7).2.2.2.2.1

/-- Witness for C4 at the concrete example system: the last (highest-energy)
level's start weight is 1. -/
theorem C4_setCutoff_start_weights_witness :
    (NucDecaySystem.setCutoff exSys 5).lStart.binWeight 1 =
      if 1 = exSys.levels.length - 1 then 1
      else if 5 < (exSys.levels.getD 1 default).hl ∧ exSys.transOut.getD 1 [] ≠ [] then
        exSys.inSum 1
      else 0 :=
  C4_setCutoff_start_weights.2 exSys 5
    (by rw [exSys_levels_length]; omega) 1 (by rw [exSys_levels_length]; omega)

/-! ## Chain generation (NuclEvtGen.cc:443-457 and the run/genAuger
callees).  The caller's optional uniform buffer `rnd` is the forward-only
cursor (`double*`): `select` reads and rewrites its slot 0 in place, `randp`
reads slots 0/1, the beta spectrum slot 2, and the cursor advances by the
fired transition's NDF.  The ambient gRandom source is an explicit stream
`g` of pre-drawn uniform values in [0,1). -/

/-- `PSelector::select(double* x)` as invoked during chain generation.  With
a buffer, slot 0 supplies `x` and receives the residual (the cursor does not
move); with none, one ambient uniform is drawn and scaled to `[0, total)`
(`gRandom->Uniform(0, cumprob.back())`), the residual going to a static
temporary. -/
def PSelector.selectChain (P : PSelector) :
    Option (List ℚ) → List ℚ → ℕ × Option (List ℚ) × List ℚ
  | some buf, g =>
      let r := P.selectX (buf.headD 0)
      (r.1, some (r.2 :: buf.tail), g)
  | none, g =>
      (upperBound (g.headD 0 * P.back) P.cumprob - 1, none, g.tail)

/-- `NucDecayEvent::randp` via `randomDirection` (NuclEvtGen.cc:50-57):
with a buffer the direction is determined by slots 0 (costheta) and 1 (phi)
without advancing; otherwise two ambient draws (phi first, then costheta). -/
def randp : Option (List ℚ) → List ℚ → (ℚ × ℚ) × List ℚ
  | some buf, g => ((buf.headD 0, buf.tail.headD 0), g)
  | none, g => ((g.tail.headD 0, g.headD 0), g.tail.tail)

/-- What one `TransitionBase::run` call produces. -/
structure RunOut where
  events : List NucDecayEvent
  rnd : Option (List ℚ)
  g : List ℚ
  nVacK : ℕ
  selTotals : List ℚ

/-- The virtual `run` of each transition variant (`ConversionGamma::run`
cc:147-163, `BetaDecayTrans::run` cc:249-256, `ECapture::run` cc:262-264).
`nVacK` is `nVacant(0)` right after the call: one K vacancy when a
conversion chose shell 0 or an electron capture drew below `IMissing`
(spec §4.3: "if the chosen shell is the K shell, register one K-shell
vacancy"; the override itself sits in the missing header).  The beta
branch without a buffer maps one ambient draw through the same quantile
function (`betaTF1.GetRandom()` samples the same tabulated spectrum).
`selTotals` records the total weight of every selector `select` ran on. -/
def Transition.run (A : DecayAtom) (T : Transition) (rnd : Option (List ℚ))
    (g : List ℚ) : RunOut :=
  match T.kind with
  | TransKind.gammaConv shells subshells Egamma =>
      let s1 := shells.selectChain rnd g
      if h : s1.1 < subshells.length then
        let P2 := subshells.get ⟨s1.1, h⟩
        let s2 := P2.selectChain s1.2.1 s1.2.2
        let d1 := randp s2.2.1 s2.2.2
        ⟨[⟨DecayType.D_ELECTRON, Egamma - A.binding s1.1 s2.1, d1.1⟩],
          s2.2.1, d1.2, if s1.1 = 0 then 1 else 0, [shells.back, P2.back]⟩
      else
        let d1 := randp s1.2.1 s1.2.2
        ⟨[⟨DecayType.D_GAMMA, Egamma, d1.1⟩], s1.2.1, d1.2, 0, [shells.back]⟩
  | TransKind.beta positron q =>
      let d1 := randp rnd g
      match rnd with
      | some buf =>
          ⟨[⟨if positron then DecayType.D_POSITRON else DecayType.D_ELECTRON,
              q (buf.getD 2 0), d1.1⟩], some buf, d1.2, 0, []⟩
      | none =>
          ⟨[⟨if positron then DecayType.D_POSITRON else DecayType.D_ELECTRON,
              q (d1.2.headD 0), d1.1⟩], none, d1.2.tail, 0, []⟩
  | TransKind.ecapture =>
      ⟨[], rnd, g.tail, if g.headD 0 < A.IMissing then 1 else 0, []⟩

/-- `DecayAtom::genAuger` (NuclEvtGen.cc:101-108): always one ambient
Bernoulli draw against `pAuger`; on success one Auger electron with an
ambient (`randp()` with no buffer) direction. -/
def DecayAtom.genAuger (A : DecayAtom) (g : List ℚ) :
    List NucDecayEvent × List ℚ :=
  if A.pAuger < g.headD 0 then ([], g.tail)
  else
    let d := randp none g.tail
    ([⟨DecayType.D_ELECTRON, A.Eauger, d.1⟩], d.2)

/-- The `while(nAugerK--) getAtom(T->to.Z)->genAuger(v);` loop. -/
def genAugers (A : DecayAtom) : ℕ → List ℚ → List NucDecayEvent × List ℚ
  | 0, g => ([], g)
  | k + 1, g =>
      let r := A.genAuger g
      let rest := genAugers A k r.2
      (r.1 ++ rest.1, rest.2)

/-- What one `genDecayChain` call produces: the output vector, the buffer
and ambient stream afterwards, the number of invocations (`steps` =
transition firings + the final stopping call), the total buffer advance
(`adv` = Σ `getNDF()` over fired transitions), and the total weight of
every selector that `select` was invoked on along the way. -/
structure ChainOut where
  v : List NucDecayEvent
  rnd : Option (List ℚ)
  g : List ℚ
  steps : ℕ
  adv : ℕ
  selTotals : List ℚ

/-- `NucDecaySystem::genDecayChain` (NuclEvtGen.cc:443-457), recursion run
on fuel (the fuel-0 case is unreachable from the public entry whenever
transitions strictly descend, C2): select the start level when `n` is not a
level index; stop on a fluxless level or, in a non-initial call, on a level
whose half-life exceeds the cutoff; otherwise fire the selected outbound
transition, advance the buffer by its NDF, run one atomic relaxation per K
vacancy, and recurse to the destination. -/
def genDecayChainAux (S : NucDecaySystem) :
    ℕ → List NucDecayEvent → Option (List ℚ) → List ℚ → ℕ → ChainOut
  | 0, v, rnd, g, _ => ⟨v, rnd, g, 0, 0, []⟩
  | fuel + 1, v, rnd0, g0, n0 =>
      let init := S.levels.length ≤ n0
      let s0 := if init then S.lStart.selectChain rnd0 g0 else (n0, rnd0, g0)
      let n := s0.1
      let rnd := s0.2.1
      let g := s0.2.2
      let startTotals := if init then [S.lStart.back] else []
      if (S.levels.getD n default).fluxOut = 0 ∨
          (¬init ∧ S.tcut < (S.levels.getD n default).hl) then
        ⟨v, rnd, g, 1, 0, startTotals⟩
      else
        let sel := (S.levelDecays.getD n PSelector.init).selectChain rnd g
        let T := S.transitions.getD ((S.transOut.getD n []).getD sel.1 0) default
        let r := T.run (S.atoms T.toZ) sel.2.1 sel.2.2
        let rnd2 := r.rnd.map (fun buf => buf.drop T.ndf)
        let aug := genAugers (S.atoms T.toZ) r.nVacK r.g
        let rest := genDecayChainAux S fuel (v ++ r.events ++ aug.1) rnd2 aug.2 T.toN
        ⟨rest.v, rest.rnd, rest.g, rest.steps + 1, rest.adv + T.ndf,
          startTotals ++ [(S.levelDecays.getD n PSelector.init).back] ++
            r.selTotals ++ rest.selTotals⟩

/-- The public `genDecayChain` entry: the C++ default start argument is
`UINT_MAX`, i.e. any `n ≥ levels.size()` requests start-level selection;
`levels.length + 1` units of fuel cover every strictly-descending chain. -/
def NucDecaySystem.genDecayChain (S : NucDecaySystem) (v : List NucDecayEvent)
    (rnd : Option (List ℚ)) (g : List ℚ) (n : ℕ) : ChainOut :=
  genDecayChainAux S (S.levels.length + 1) v rnd g n

/-- A descending transition graph: every outbound transition of a level
leads to a strictly smaller (lower-energy) level index. -/
def Descending (S : NucDecaySystem) : Prop :=
  ∀ n, n < S.levels.length → ∀ k ∈ S.transOut.getD n [],
    (S.transitions.getD k default).toN < n

/-- Well-formed per-variant selector data, as the ConversionGamma
constructor produces it (NuclEvtGen.cc:123-145): the shell selector is
weight-built with nonnegative weights and totals exactly `Itotal`
(cc:144), and every subshell selector is weight-built with nonnegative
weights and positive total. -/
def TransWF (T : Transition) : Prop :=
  match T.kind with
  | TransKind.gammaConv sh subs _ =>
      (∃ ws, sh = PSelector.ofWeights ws ∧ ∀ w ∈ ws, 0 ≤ w) ∧
      sh.back = T.Itotal ∧
      ∀ P ∈ subs, (∃ ws, P = PSelector.ofWeights ws ∧ ∀ w ∈ ws, 0 ≤ w) ∧ 0 < P.back
  | _ => True

/-- Validity of the caller's uniform buffer: every entry lies in [0,1). -/
def BufOK : Option (List ℚ) → Prop
  | some buf => ∀ x ∈ buf, 0 ≤ x ∧ x < 1
  | none => True

/-- Validity of the ambient stream: every entry lies in [0,1). -/
def GOK (g : List ℚ) : Prop := ∀ x ∈ g, 0 ≤ x ∧ x < 1

theorem GOK_tail {g : List ℚ} (h : GOK g) : GOK g.tail :=
  fun x hx => h x (List.mem_of_mem_tail hx)

theorem GOK_headD {g : List ℚ} (h : GOK g) :
    0 ≤ g.headD 0 ∧ g.headD 0 < 1 := by
  cases g with
  | nil => norm_num
  | cons x xs => exact h x (by simp)

theorem bufOK_headD {buf : List ℚ} (h : BufOK (some buf)) :
    0 ≤ buf.headD 0 ∧ buf.headD 0 < 1 := by
  cases buf with
  | nil => norm_num
  | cons x xs => exact h x (by simp)

theorem bufOK_tail_cons {buf : List ℚ} (h : BufOK (some buf)) {r : ℚ}
    (hr0 : 0 ≤ r) (hr1 : r < 1) : BufOK (some (r :: buf.tail)) := by
  intro x hx
  rcases List.mem_cons.mp hx with rfl | hx2
  · exact ⟨hr0, hr1⟩
  · exact h x (List.mem_of_mem_tail hx2)

theorem bufOK_drop {buf : List ℚ} (h : BufOK (some buf)) (k : ℕ) :
    BufOK (some (buf.drop k)) :=
  fun x hx => h x (List.mem_of_mem_drop hx)

/-- `select` geometry for any scaled value `0 ≤ v < total` on a weight-built
selector: bin index within range, positive bin width. -/
theorem select_core_v (ws : List ℚ)
    {v : ℚ} (hv0 : 0 ≤ v) (hv1 : v < (PSelector.ofWeights ws).back) :
    (upperBound v (PSelector.ofWeights ws).cumprob - 1) + 1 <
      (PSelector.ofWeights ws).cumprob.length ∧
    (PSelector.ofWeights ws).cumprob.getD
        (upperBound v (PSelector.ofWeights ws).cumprob - 1) 0 ≤ v ∧
    v < (PSelector.ofWeights ws).cumprob.getD
        ((upperBound v (PSelector.ofWeights ws).cumprob - 1) + 1) 0 := by
  have hne : (PSelector.ofWeights ws).cumprob ≠ [] := ofWeights_ne_nil ws
  have h0 : (PSelector.ofWeights ws).cumprob.getD 0 0 ≤ v := by
    rw [ofWeights_head ws]; exact hv0
  have hlast : v < (PSelector.ofWeights ws).cumprob.getLastD 0 := hv1
  obtain ⟨heq, hlen, hlo, hhi⟩ := upperBound_sandwich hne h0 hlast
  exact ⟨hlen, hlo, hhi⟩

/-- Behaviour of a chain-time `select` on a weight-built selector with
positive total and valid uniform inputs: in-range bin of positive width,
buffer stays valid (the written residual is in [0,1)), ambient stream stays
valid. -/
theorem selectChain_ok {ws : List ℚ} (htot : 0 < (PSelector.ofWeights ws).back)
    {rnd : Option (List ℚ)} {g : List ℚ} (hb : BufOK rnd) (hg : GOK g) :
    ((PSelector.ofWeights ws).selectChain rnd g).1 < ws.length ∧
    0 < ws.getD ((PSelector.ofWeights ws).selectChain rnd g).1 0 ∧
    BufOK ((PSelector.ofWeights ws).selectChain rnd g).2.1 ∧
    GOK ((PSelector.ofWeights ws).selectChain rnd g).2.2 := by
  have hlen_c : (PSelector.ofWeights ws).cumprob.length = ws.length + 1 := by
    rw [ofWeights_cumprob, cumsums_length]
  cases rnd with
  | some buf =>
      obtain ⟨hx0, hx1⟩ := bufOK_headD hb
      have hv0 : 0 ≤ buf.headD 0 * (PSelector.ofWeights ws).back :=
        mul_nonneg hx0 (le_of_lt htot)
      have hv1 : buf.headD 0 * (PSelector.ofWeights ws).back <
          (PSelector.ofWeights ws).back :=
        mul_lt_of_lt_one_left htot hx1
      obtain ⟨hlen, hlo, hhi⟩ := select_core_v ws hv0 hv1
      have hsc : (PSelector.ofWeights ws).selectChain (some buf) g =
          (((PSelector.ofWeights ws).selectX (buf.headD 0)).1,
            some (((PSelector.ofWeights ws).selectX (buf.headD 0)).2 :: buf.tail), g) := rfl
      have hfst : ((PSelector.ofWeights ws).selectX (buf.headD 0)).1 =
          upperBound (buf.headD 0 * (PSelector.ofWeights ws).back)
            (PSelector.ofWeights ws).cumprob - 1 := rfl
      have hi : ((PSelector.ofWeights ws).selectX (buf.headD 0)).1 < ws.length := by
        rw [hfst]; omega
      have hwidth : 0 < ws.getD ((PSelector.ofWeights ws).selectX (buf.headD 0)).1 0 := by
        have h1 := cumsums_getD_sub ws 0
          ((PSelector.ofWeights ws).selectX (buf.headD 0)).1 hi
        rw [← ofWeights_cumprob] at h1
        rw [← h1, hfst]
        linarith
      have hr : 0 ≤ ((PSelector.ofWeights ws).selectX (buf.headD 0)).2 ∧
          ((PSelector.ofWeights ws).selectX (buf.headD 0)).2 < 1 := by
        have hsnd : ((PSelector.ofWeights ws).selectX (buf.headD 0)).2 =
            (buf.headD 0 * (PSelector.ofWeights ws).back -
              (PSelector.ofWeights ws).cumprob.getD
                (((PSelector.ofWeights ws).selectX (buf.headD 0)).1) 0) /
              ((PSelector.ofWeights ws).cumprob.getD
                  (((PSelector.ofWeights ws).selectX (buf.headD 0)).1 + 1) 0 -
                (PSelector.ofWeights ws).cumprob.getD
                  (((PSelector.ofWeights ws).selectX (buf.headD 0)).1) 0) := rfl

        rw [hsnd, hfst]
        constructor
        · apply div_nonneg <;> linarith
        · exact (div_lt_one (by linarith)).mpr (by linarith)
      rw [hsc]
      exact ⟨hi, hwidth, bufOK_tail_cons hb hr.1 hr.2, hg⟩
  | none =>
      obtain ⟨hx0, hx1⟩ := GOK_headD hg
      have hv0 : 0 ≤ g.headD 0 * (PSelector.ofWeights ws).back :=
        mul_nonneg hx0 (le_of_lt htot)
      have hv1 : g.headD 0 * (PSelector.ofWeights ws).back <
          (PSelector.ofWeights ws).back :=
        mul_lt_of_lt_one_left htot hx1
      obtain ⟨hlen, hlo, hhi⟩ := select_core_v ws hv0 hv1
      have hsc : (PSelector.ofWeights ws).selectChain none g =
          (upperBound (g.headD 0 * (PSelector.ofWeights ws).back)
            (PSelector.ofWeights ws).cumprob - 1, none, g.tail) := rfl
      rw [hsc]
      have hi : upperBound (g.headD 0 * (PSelector.ofWeights ws).back)
          (PSelector.ofWeights ws).cumprob - 1 < ws.length := by omega
      refine ⟨hi, ?_, trivial, GOK_tail hg⟩
      have h1 := cumsums_getD_sub ws 0 _ hi
      rw [← ofWeights_cumprob] at h1
      rw [← h1]
      linarith

theorem GOK_randp (rnd : Option (List ℚ)) {g : List ℚ} (hg : GOK g) :
    GOK (randp rnd g).2 := by
  cases rnd with
  | some buf => exact hg
  | none => exact GOK_tail (GOK_tail hg)

/-- A fired transition's `run` keeps the uniform inputs valid and only ever
selects on positive-total selectors. -/
theorem run_ok (T : Transition) (hwf : TransWF T) (hpos : 0 < T.Itotal)
    (A : DecayAtom) (rnd : Option (List ℚ)) (g : List ℚ)
    (hb : BufOK rnd) (hg : GOK g) :
    BufOK (T.run A rnd g).rnd ∧ GOK (T.run A rnd g).g ∧
      ∀ q ∈ (T.run A rnd g).selTotals, 0 < q := by
  rcases T with ⟨fN, tN, tZ, I, nd, kind⟩
  cases kind with
  | gammaConv sh subs Eg =>
      simp only [TransWF] at hwf
      obtain ⟨⟨ws, hsh, hwnn⟩, hback, hsubs⟩ := hwf
      have htot : 0 < (PSelector.ofWeights ws).back := by
        rw [← hsh, hback]; exact hpos
      have hs1 := selectChain_ok htot hb hg
      rw [← hsh] at hs1
      obtain ⟨hs1i, hs1w, hs1b, hs1g⟩ := hs1
      have hshpos : 0 < sh.back := by rw [hsh]; exact htot
      simp only [Transition.run]
      split
      · -- a conversion shell was chosen: one more select, then randp
        rename_i hlt
        have hmem : subs.get ⟨(sh.selectChain rnd g).1, hlt⟩ ∈ subs :=
          List.get_mem subs _ _
        obtain ⟨⟨ws2, hP2, hw2nn⟩, hP2pos⟩ := hsubs _ hmem
        have htot2 : 0 < (PSelector.ofWeights ws2).back := by
          rw [← hP2]; exact hP2pos
        have hs2 := selectChain_ok htot2 hs1b hs1g
        rw [← hP2] at hs2
        obtain ⟨hs2i, hs2w, hs2b, hs2g⟩ := hs2
        refine ⟨hs2b, GOK_randp _ hs2g, ?_⟩
        intro q hq
        rcases List.mem_cons.mp hq with rfl | hq2
        · exact hshpos
        · rcases List.mem_cons.mp hq2 with rfl | hq3
          · exact hP2pos
          · simp at hq3
      · refine ⟨hs1b, GOK_randp _ hs1g, ?_⟩
        intro q hq
        rcases List.mem_cons.mp hq with rfl | hq2
        · exact hshpos
        · simp at hq2
  | beta positron q =>
      cases rnd with
      | some buf =>
          refine ⟨hb, ?_, by intro q hq; simp [Transition.run] at hq⟩
          show GOK (randp (some buf) g).2
          exact GOK_randp _ hg
      | none =>
          refine ⟨trivial, ?_, by intro q hq; simp [Transition.run] at hq⟩
          show GOK (randp none g).2.tail
          exact GOK_tail (GOK_randp none hg)
  | ecapture =>
      exact ⟨hb, GOK_tail hg, by intro q hq; simp [Transition.run] at hq⟩

theorem genAuger_GOK (A : DecayAtom) {g : List ℚ} (hg : GOK g) :
    GOK (A.genAuger g).2 := by
  unfold DecayAtom.genAuger
  split
  · exact GOK_tail hg
  · exact GOK_randp none (GOK_tail hg)

theorem genAugers_GOK (A : DecayAtom) (k : ℕ) {g : List ℚ} (hg : GOK g) :
    GOK (genAugers A k g).2 := by
  induction k generalizing g with
  | zero => exact hg
  | succ m ih => exact ih (genAuger_GOK A hg)

/-- `NucDecaySystem::getNDF(n)` for a level index (NuclEvtGen.cc:468-474),
run on fuel: the maximum over the level's outbound transitions of the
transition's own NDF plus the destination level's NDF. -/
def ndfAux (S : NucDecaySystem) : ℕ → ℕ → ℕ
  | 0, _ => 0
  | fuel + 1, n =>
      (S.transOut.getD n []).foldr
        (fun k m => max ((S.transitions.getD k default).ndf +
          ndfAux S fuel (S.transitions.getD k default).toN) m) 0

/-- `getNDF(n)` for `n` a level index; `n + 1` units of fuel suffice on a
descending graph. -/
def NucDecaySystem.getNDFlevel (S : NucDecaySystem) (n : ℕ) : ℕ :=
  ndfAux S (n + 1) n

/-- `getNDF()` with no start level (NuclEvtGen.cc:461-467): the maximum of
`getNDF(i)` over levels `i` with nonzero chain-start probability. -/
def NucDecaySystem.getNDFtop (S : NucDecaySystem) : ℕ :=
  (List.range S.levels.length).foldr
    (fun i m => if S.lStart.getProb i = 0 then m else max (S.getNDFlevel i) m) 0

theorem le_foldr_max (f : ℕ → ℕ) (l : List ℕ) (x : ℕ) (hx : x ∈ l) :
    f x ≤ l.foldr (fun a m => max (f a) m) 0 := by
  induction l with
  | nil => simp at hx
  | cons a as ih =>
      rcases List.mem_cons.mp hx with rfl | hx2
      · exact le_max_left _ _
      · exact le_trans (ih hx2) (le_max_right _ _)

theorem le_foldr_max_if (f : ℕ → ℕ) (p : ℕ → ℚ) (l : List ℕ) (i : ℕ)
    (hi : i ∈ l) (hp : p i ≠ 0) :
    f i ≤ l.foldr (fun j m => if p j = 0 then m else max (f j) m) 0 := by
  induction l with
  | nil => simp at hi
  | cons a as ih =>
      rcases List.mem_cons.mp hi with rfl | hi2
      · simp only [List.foldr_cons, if_neg hp]
        exact le_max_left _ _
      · simp only [List.foldr_cons]
        by_cases hpa : p a = 0
        · rw [if_pos hpa]; exact ih hi2
        · rw [if_neg hpa]; exact le_trans (ih hi2) (le_max_right _ _)

theorem foldr_max_congr (f g : ℕ → ℕ) (l : List ℕ)
    (h : ∀ k ∈ l, f k = g k) :
    l.foldr (fun k m => max (f k) m) 0 = l.foldr (fun k m => max (g k) m) 0 := by
  induction l with
  | nil => rfl
  | cons a as ih =>
      simp only [List.foldr_cons, h a (by simp),
        ih (fun k hk => h k (by simp [hk]))]

/-- On a descending graph `ndfAux` is fuel-independent past `n + 1`. -/
theorem ndfAux_fuel {S : NucDecaySystem} (hD : Descending S)
    (hOutLen : S.transOut.length = S.levels.length) :
    ∀ n f1 f2, n + 1 ≤ f1 → n + 1 ≤ f2 → ndfAux S f1 n = ndfAux S f2 n := by
  intro n
  induction n using Nat.strong_induction_on with
  | _ n ih =>
      intro f1 f2 h1 h2
      rcases Nat.exists_eq_add_of_le h1 with ⟨a, rfl⟩
      rcases Nat.exists_eq_add_of_le h2 with ⟨b, rfl⟩
      have ha : n + 1 + a = (n + a) + 1 := by omega
      have hb : n + 1 + b = (n + b) + 1 := by omega
      rw [ha, hb]
      by_cases hn : n < S.levels.length
      · show (S.transOut.getD n []).foldr _ 0 = (S.transOut.getD n []).foldr _ 0
        apply foldr_max_congr
        intro k hk
        have hto := hD n hn k hk
        rw [ih (S.transitions.getD k default).toN hto (n + a) (n + b)
          (by omega) (by omega)]
      · have hout : S.transOut.getD n [] = [] :=
          List.getD_eq_default _ _ (by omega)
        show (S.transOut.getD n []).foldr _ 0 = (S.transOut.getD n []).foldr _ 0
        rw [hout]
        rfl

/-- Unfolding of a non-initial (`n < levels.length`) chain invocation. -/
theorem aux_level_eq (S : NucDecaySystem) {n : ℕ} (hn : n < S.levels.length)
    (fuel : ℕ) (v : List NucDecayEvent) (rnd : Option (List ℚ)) (g : List ℚ) :
    genDecayChainAux S (fuel + 1) v rnd g n =
      if (S.levels.getD n default).fluxOut = 0 ∨
          S.tcut < (S.levels.getD n default).hl then
        ⟨v, rnd, g, 1, 0, []⟩
      else
        let sel := (S.levelDecays.getD n PSelector.init).selectChain rnd g
        let T := S.transitions.getD ((S.transOut.getD n []).getD sel.1 0) default
        let r := T.run (S.atoms T.toZ) sel.2.1 sel.2.2
        let rnd2 := r.rnd.map (fun buf => buf.drop T.ndf)
        let aug := genAugers (S.atoms T.toZ) r.nVacK r.g
        let rest := genDecayChainAux S fuel (v ++ r.events ++ aug.1) rnd2 aug.2 T.toN
        ⟨rest.v, rest.rnd, rest.g, rest.steps + 1, rest.adv + T.ndf,
          [(S.levelDecays.getD n PSelector.init).back] ++ r.selTotals ++
            rest.selTotals⟩ := by
  have h1 : ¬S.levels.length ≤ n := not_le.mpr hn
  simp only [genDecayChainAux, h1, if_false, not_false_iff, true_and, List.nil_append]

/-- Unfolding of an initial (`n0 ≥ levels.length`) chain invocation: the
start level is drawn from `lStart` and the half-life cutoff test is
skipped. -/
theorem aux_init_eq (S : NucDecaySystem) {n0 : ℕ} (hn : S.levels.length ≤ n0)
    (fuel : ℕ) (v : List NucDecayEvent) (rnd : Option (List ℚ)) (g : List ℚ) :
    genDecayChainAux S (fuel + 1) v rnd g n0 =
      (let s0 := S.lStart.selectChain rnd g
      let n := s0.1
      let rnd1 := s0.2.1
      let g1 := s0.2.2
      if (S.levels.getD n default).fluxOut = 0 then
        ⟨v, rnd1, g1, 1, 0, [S.lStart.back]⟩
      else
        let sel := (S.levelDecays.getD n PSelector.init).selectChain rnd1 g1
        let T := S.transitions.getD ((S.transOut.getD n []).getD sel.1 0) default
        let r := T.run (S.atoms T.toZ) sel.2.1 sel.2.2
        let rnd2 := r.rnd.map (fun buf => buf.drop T.ndf)
        let aug := genAugers (S.atoms T.toZ) r.nVacK r.g
        let rest := genDecayChainAux S fuel (v ++ r.events ++ aug.1) rnd2 aug.2 T.toN
        ⟨rest.v, rest.rnd, rest.g, rest.steps + 1, rest.adv + T.ndf,
          [S.lStart.back] ++ [(S.levelDecays.getD n PSelector.init).back] ++
            r.selTotals ++ rest.selTotals⟩ : ChainOut) := by
  simp only [genDecayChainAux, hn, if_true, not_true, false_and, and_false, or_false,
    List.singleton_append, List.cons_append, List.nil_append]

/-! Named pieces of one firing step (same subterms as in
`genDecayChainAux`, factored for the proofs). -/

/-- The `levelDecays[n].select(rnd)` call of a firing step. -/
def chainSel (S : NucDecaySystem) (n : ℕ) (rnd : Option (List ℚ)) (g : List ℚ) :
    ℕ × Option (List ℚ) × List ℚ :=
  (S.levelDecays.getD n PSelector.init).selectChain rnd g

/-- The fired transition `transOut[n][...]`. -/
def chainT (S : NucDecaySystem) (n : ℕ) (rnd : Option (List ℚ)) (g : List ℚ) :
    Transition :=
  S.transitions.getD ((S.transOut.getD n []).getD (chainSel S n rnd g).1 0) default

/-- The fired transition's `run`. -/
def chainRun (S : NucDecaySystem) (n : ℕ) (rnd : Option (List ℚ)) (g : List ℚ) :
    RunOut :=
  (chainT S n rnd g).run (S.atoms (chainT S n rnd g).toZ)
    (chainSel S n rnd g).2.1 (chainSel S n rnd g).2.2

/-- The Auger loop after the firing. -/
def chainAug (S : NucDecaySystem) (n : ℕ) (rnd : Option (List ℚ)) (g : List ℚ) :
    List NucDecayEvent × List ℚ :=
  genAugers (S.atoms (chainT S n rnd g).toZ) (chainRun S n rnd g).nVacK
    (chainRun S n rnd g).g

/-- The buffer cursor after the `rnd += T->getNDF()` advance. -/
def chainRnd2 (S : NucDecaySystem) (n : ℕ) (rnd : Option (List ℚ)) (g : List ℚ) :
    Option (List ℚ) :=
  (chainRun S n rnd g).rnd.map (fun buf => buf.drop (chainT S n rnd g).ndf)

/-- The recursive call after the firing. -/
def chainRest (S : NucDecaySystem) (fuel n : ℕ) (v : List NucDecayEvent)
    (rnd : Option (List ℚ)) (g : List ℚ) : ChainOut :=
  genDecayChainAux S fuel (v ++ (chainRun S n rnd g).events ++ (chainAug S n rnd g).1)
    (chainRnd2 S n rnd g) (chainAug S n rnd g).2 (chainT S n rnd g).toN

/-- Expanded unfolding of a non-initial invocation. -/
theorem aux_level_unfold (S : NucDecaySystem) {n : ℕ} (hn : n < S.levels.length)
    (fuel : ℕ) (v : List NucDecayEvent) (rnd : Option (List ℚ)) (g : List ℚ) :
    genDecayChainAux S (fuel + 1) v rnd g n =
      if (S.levels.getD n default).fluxOut = 0 ∨
          S.tcut < (S.levels.getD n default).hl then
        ⟨v, rnd, g, 1, 0, []⟩
      else
        ⟨(chainRest S fuel n v rnd g).v, (chainRest S fuel n v rnd g).rnd,
          (chainRest S fuel n v rnd g).g, (chainRest S fuel n v rnd g).steps + 1,
          (chainRest S fuel n v rnd g).adv + (chainT S n rnd g).ndf,
          [(S.levelDecays.getD n PSelector.init).back] ++
            (chainRun S n rnd g).selTotals ++
            (chainRest S fuel n v rnd g).selTotals⟩ := by
  rw [aux_level_eq S hn fuel v rnd g]
  rfl

/-- Expanded unfolding of an initial invocation: the start level `n1` comes
from `lStart`, and the cutoff test is skipped. -/
theorem aux_init_unfold (S : NucDecaySystem) {n0 : ℕ} (hn : S.levels.length ≤ n0)
    (fuel : ℕ) (v : List NucDecayEvent) (rnd : Option (List ℚ)) (g : List ℚ) :
    genDecayChainAux S (fuel + 1) v rnd g n0 =
      (if (S.levels.getD (S.lStart.selectChain rnd g).1 default).fluxOut = 0 then
        ⟨v, (S.lStart.selectChain rnd g).2.1, (S.lStart.selectChain rnd g).2.2,
          1, 0, [S.lStart.back]⟩
      else
        ⟨(chainRest S fuel (S.lStart.selectChain rnd g).1 v
            (S.lStart.selectChain rnd g).2.1 (S.lStart.selectChain rnd g).2.2).v,
          (chainRest S fuel (S.lStart.selectChain rnd g).1 v
            (S.lStart.selectChain rnd g).2.1 (S.lStart.selectChain rnd g).2.2).rnd,
          (chainRest S fuel (S.lStart.selectChain rnd g).1 v
            (S.lStart.selectChain rnd g).2.1 (S.lStart.selectChain rnd g).2.2).g,
          (chainRest S fuel (S.lStart.selectChain rnd g).1 v
            (S.lStart.selectChain rnd g).2.1 (S.lStart.selectChain rnd g).2.2).steps + 1,
          (chainRest S fuel (S.lStart.selectChain rnd g).1 v
            (S.lStart.selectChain rnd g).2.1 (S.lStart.selectChain rnd g).2.2).adv +
            (chainT S (S.lStart.selectChain rnd g).1 (S.lStart.selectChain rnd g).2.1
              (S.lStart.selectChain rnd g).2.2).ndf,
          [S.lStart.back] ++
            [(S.levelDecays.getD (S.lStart.selectChain rnd g).1 PSelector.init).back] ++
            (chainRun S (S.lStart.selectChain rnd g).1 (S.lStart.selectChain rnd g).2.1
              (S.lStart.selectChain rnd g).2.2).selTotals ++
            (chainRest S fuel (S.lStart.selectChain rnd g).1 v
              (S.lStart.selectChain rnd g).2.1
              (S.lStart.selectChain rnd g).2.2).selTotals⟩ : ChainOut) := by
  rw [aux_init_eq S hn fuel v rnd g]
  rfl

/-- Hypotheses describing a constructed decay system as chain generation
sees it: the structural/flux invariants, canonical selectors, nonnegative
intensities, well-formed conversion data, and a chain-start selector built
from one weight per level with total at least 1 (the highest-energy level
always contributes weight 1). -/
structure ChainHyp (S : NucDecaySystem) : Prop where
  inv : SysInv S
  canon : CanonInv S
  nn : ∀ k, k < S.transitions.length → 0 ≤ (S.transitions.getD k default).Itotal
  twf : ∀ k, k < S.transitions.length → TransWF (S.transitions.getD k default)
  lstart1 : 1 ≤ S.lStart.back
  lstartOf : ∃ ws, S.lStart = PSelector.ofWeights ws ∧
    ws.length = S.levels.length

theorem bufOK_map_drop {o : Option (List ℚ)} (h : BufOK o) (k : ℕ) :
    BufOK (o.map (fun buf => buf.drop k)) := by
  cases o with
  | some buf => exact bufOK_drop h k
  | none => trivial

/-- Everything a single firing step guarantees: strictly descending target,
positive fired intensity, valid buffer and ambient stream afterwards,
positive selector totals, and the NDF inequality for the fired edge. -/
theorem fireStep_facts {S : NucDecaySystem} (H : ChainHyp S) (hD : Descending S)
    {n : ℕ} (hn : n < S.levels.length)
    (hflux : (S.levels.getD n default).fluxOut ≠ 0)
    {rnd : Option (List ℚ)} {g : List ℚ} (hb : BufOK rnd) (hg : GOK g) :
    (chainT S n rnd g).toN < n ∧
    BufOK (chainRnd2 S n rnd g) ∧
    GOK (chainAug S n rnd g).2 ∧
    0 < (S.levelDecays.getD n PSelector.init).back ∧
    (∀ q ∈ (chainRun S n rnd g).selTotals, 0 < q) ∧
    (chainT S n rnd g).ndf + S.getNDFlevel (chainT S n rnd g).toN ≤
      S.getNDFlevel n := by
  have hcanon := H.canon n hn
  set ws_n := (S.transOut.getD n []).map
    (fun k => (S.transitions.getD k default).Itotal) with hwsn
  have hwnn : ∀ w ∈ ws_n, 0 ≤ w := by
    intro w hw
    obtain ⟨k, hk, rfl⟩ := List.mem_map.mp hw
    exact H.nn k (H.inv.hOutK n hn k hk).1
  have hsum : ws_n.sum = S.outSum n := rfl
  have htot : 0 < (PSelector.ofWeights ws_n).back := by
    rw [ofWeights_back, hsum, ← H.inv.hFlux n hn]
    have h0 : 0 ≤ (S.levels.getD n default).fluxOut := by
      rw [H.inv.hFlux n hn, ← hsum]
      exact List.sum_nonneg hwnn
    exact lt_of_le_of_ne h0 (Ne.symm hflux)
  have hchainSel : chainSel S n rnd g = (PSelector.ofWeights ws_n).selectChain rnd g := by
    unfold chainSel
    rw [hcanon]
  obtain ⟨hselLt, hselW, hselB, hselG⟩ := selectChain_ok htot hb hg
  have hiLt : (chainSel S n rnd g).1 < (S.transOut.getD n []).length := by
    rw [hchainSel]
    simpa [hwsn] using hselLt
  have hk0mem : (S.transOut.getD n []).getD (chainSel S n rnd g).1 0 ∈
      S.transOut.getD n [] := getD_mem hiLt 0
  have hk0 := H.inv.hOutK n hn _ hk0mem
  have hto := hD n hn _ hk0mem
  have hchainT : chainT S n rnd g =
      S.transitions.getD ((S.transOut.getD n []).getD (chainSel S n rnd g).1 0)
        default := rfl
  have hTI : (chainT S n rnd g).Itotal = ws_n.getD (chainSel S n rnd g).1 0 := by
    rw [hchainT, hwsn]
    exact (getD_map_lt (fun k => (S.transitions.getD k default).Itotal)
      (S.transOut.getD n []) _ 0 0 hiLt).symm
  have hTIpos : 0 < (chainT S n rnd g).Itotal := by
    rw [hTI]
    have h2 : ws_n.getD ((PSelector.ofWeights ws_n).selectChain rnd g).1 0 =
        ws_n.getD (chainSel S n rnd g).1 0 := by rw [hchainSel]
    rw [← h2]
    exact hselW
  have hBsel : BufOK (chainSel S n rnd g).2.1 := by rw [hchainSel]; exact hselB
  have hGsel : GOK (chainSel S n rnd g).2.2 := by rw [hchainSel]; exact hselG
  have hrun := run_ok (chainT S n rnd g) (H.twf _ hk0.1) hTIpos
    (S.atoms (chainT S n rnd g).toZ) (chainSel S n rnd g).2.1
    (chainSel S n rnd g).2.2 hBsel hGsel
  have hchainRun : chainRun S n rnd g =
      (chainT S n rnd g).run (S.atoms (chainT S n rnd g).toZ)
        (chainSel S n rnd g).2.1 (chainSel S n rnd g).2.2 := rfl
  refine ⟨hto, ?_, ?_, ?_, ?_, ?_⟩
  · unfold chainRnd2
    exact bufOK_map_drop (by rw [hchainRun]; exact hrun.1) _
  · unfold chainAug
    exact genAugers_GOK _ _ (by rw [hchainRun]; exact hrun.2.1)
  · rw [hcanon]
    exact htot
  · rw [hchainRun]
    exact hrun.2.2
  · have hfold : S.getNDFlevel n = (S.transOut.getD n []).foldr
        (fun k m => max ((S.transitions.getD k default).ndf +
          ndfAux S n (S.transitions.getD k default).toN) m) 0 := rfl
    have hterm := le_foldr_max
      (fun k => (S.transitions.getD k default).ndf +
        ndfAux S n (S.transitions.getD k default).toN)
      (S.transOut.getD n []) _ hk0mem
    rw [hfold]
    have hto2 : (chainT S n rnd g).toN < n := by rw [hchainT]; exact hto
    have hndf : ndfAux S n (chainT S n rnd g).toN =
        S.getNDFlevel (chainT S n rnd g).toN := by
      unfold NucDecaySystem.getNDFlevel
      exact ndfAux_fuel hD H.inv.hOut _ n _ (by omega) (by omega)
    rw [hchainT] at hndf ⊢
    rw [← hndf]
    exact hterm

/-- Master recursion lemma for a non-initial call at level `n`: past fuel
`n+1` the result is fuel-independent (termination), the invocation count is
at most `n+1`, the buffer advance is bounded by `getNDF(n)`, and every
selector selected on has positive total. -/
theorem chain_master {S : NucDecaySystem} (H : ChainHyp S) (hD : Descending S) :
    ∀ n, n < S.levels.length → ∀ fuel, n + 1 ≤ fuel →
      ∀ v rnd g, BufOK rnd → GOK g →
        genDecayChainAux S fuel v rnd g n = genDecayChainAux S (n + 1) v rnd g n ∧
        (genDecayChainAux S fuel v rnd g n).steps ≤ n + 1 ∧
        (genDecayChainAux S fuel v rnd g n).adv ≤ S.getNDFlevel n ∧
        (∀ q ∈ (genDecayChainAux S fuel v rnd g n).selTotals, 0 < q) := by
  intro n
  induction n using Nat.strong_induction_on with
  | _ n ih =>
      intro hn fuel hfuel v rnd g hb hg
      rcases Nat.exists_eq_add_of_le hfuel with ⟨a, ha⟩
      subst ha
      have hfe : n + 1 + a = (n + a) + 1 := by omega
      rw [hfe, aux_level_unfold S hn (n + a) v rnd g, aux_level_unfold S hn n v rnd g]
      by_cases hstop : (S.levels.getD n default).fluxOut = 0 ∨
          S.tcut < (S.levels.getD n default).hl
      · rw [if_pos hstop, if_pos hstop]
        refine ⟨rfl, ?_, ?_, ?_⟩
        · show 1 ≤ n + 1
          omega
        · show 0 ≤ S.getNDFlevel n
          omega
        · intro q hq
          simp at hq
      · rw [if_neg hstop, if_neg hstop]
        have hflux : (S.levels.getD n default).fluxOut ≠ 0 :=
          fun h => hstop (Or.inl h)
        obtain ⟨hto, hB2, hG2, hPD, hRun, hNDF⟩ :=
          fireStep_facts H hD hn hflux hb hg
        have hnto : (chainT S n rnd g).toN < S.levels.length := lt_trans hto hn
        have ihf := ih _ hto hnto (n + a) (by omega)
          (v ++ (chainRun S n rnd g).events ++ (chainAug S n rnd g).1)
          (chainRnd2 S n rnd g) (chainAug S n rnd g).2 hB2 hG2
        have ihn := ih _ hto hnto n (by omega)
          (v ++ (chainRun S n rnd g).events ++ (chainAug S n rnd g).1)
          (chainRnd2 S n rnd g) (chainAug S n rnd g).2 hB2 hG2
        have hre : chainRest S (n + a) n v rnd g = chainRest S n n v rnd g := by
          show genDecayChainAux S (n + a) _ _ _ _ = genDecayChainAux S n _ _ _ _
          rw [ihf.1, ihn.1]
        refine ⟨by rw [hre], ?_, ?_, ?_⟩
        · show (chainRest S (n + a) n v rnd g).steps + 1 ≤ n + 1
          have h1 : (chainRest S (n + a) n v rnd g).steps ≤
              (chainT S n rnd g).toN + 1 := ihf.2.1
          omega
        · show (chainRest S (n + a) n v rnd g).adv + (chainT S n rnd g).ndf ≤
            S.getNDFlevel n
          have h1 : (chainRest S (n + a) n v rnd g).adv ≤
              S.getNDFlevel (chainT S n rnd g).toN := ihf.2.2.1
          omega
        · intro q hq
          have hq2 : q ∈ [(S.levelDecays.getD n PSelector.init).back] ++
              (chainRun S n rnd g).selTotals ++
              (chainRest S (n + a) n v rnd g).selTotals := hq
          rcases List.mem_append.mp hq2 with hq3 | hq4
          · rcases List.mem_append.mp hq3 with hq5 | hq6
            · have : q = (S.levelDecays.getD n PSelector.init).back := by
                simpa using hq5
              rw [this]
              exact hPD
            · exact hRun q hq6
          · exact ihf.2.2.2 q hq4

/-- Master lemma for an initial call (start level drawn from `lStart`):
fuel-independence past `levels.length + 1`, at most `levels.length`
invocations, advance bounded by `getNDF()`, and positive selector totals
(in particular `lStart`'s own total, which is at least 1). -/
theorem chain_master_init {S : NucDecaySystem} (H : ChainHyp S) (hD : Descending S)
    (hL : 0 < S.levels.length) :
    ∀ n0, S.levels.length ≤ n0 → ∀ fuel, S.levels.length + 1 ≤ fuel →
      ∀ v rnd g, BufOK rnd → GOK g →
        genDecayChainAux S fuel v rnd g n0 =
          genDecayChainAux S (S.levels.length + 1) v rnd g n0 ∧
        (genDecayChainAux S fuel v rnd g n0).steps ≤ S.levels.length ∧
        (genDecayChainAux S fuel v rnd g n0).adv ≤ S.getNDFtop ∧
        (∀ q ∈ (genDecayChainAux S fuel v rnd g n0).selTotals, 0 < q) := by
  intro n0 hn0 fuel hfuel v rnd g hb hg
  obtain ⟨ws, hws, hwsLen⟩ := H.lstartOf
  have htot : 0 < (PSelector.ofWeights ws).back := by
    rw [← hws]
    exact lt_of_lt_of_le one_pos H.lstart1
  have hback1 : 0 < S.lStart.back := lt_of_lt_of_le one_pos H.lstart1
  rcases Nat.exists_eq_add_of_le hfuel with ⟨a, ha⟩
  subst ha
  have hfe : S.levels.length + 1 + a = (S.levels.length + a) + 1 := by omega
  rw [hfe, aux_init_unfold S hn0 (S.levels.length + a) v rnd g,
    aux_init_unfold S hn0 S.levels.length v rnd g]
  have hselOk := selectChain_ok htot hb hg
  rw [← hws] at hselOk
  obtain ⟨hn1, hWidth, hB1, hG1⟩ := hselOk
  have hn1L : (S.lStart.selectChain rnd g).1 < S.levels.length := by
    rw [← hwsLen]
    exact hn1
  by_cases hstop :
      (S.levels.getD (S.lStart.selectChain rnd g).1 default).fluxOut = 0
  · rw [if_pos hstop, if_pos hstop]
    refine ⟨rfl, ?_, ?_, ?_⟩
    · show 1 ≤ S.levels.length
      omega
    · show 0 ≤ S.getNDFtop
      omega
    · intro q hq
      have : q = S.lStart.back := by simpa using hq
      rw [this]
      exact hback1
  · rw [if_neg hstop, if_neg hstop]
    obtain ⟨hto, hB2, hG2, hPD, hRun, hNDF⟩ :=
      fireStep_facts H hD hn1L hstop hB1 hG1
    set n1 := (S.lStart.selectChain rnd g).1 with hn1def
    set rnd1 := (S.lStart.selectChain rnd g).2.1 with hrnd1def
    set g1 := (S.lStart.selectChain rnd g).2.2 with hg1def
    have hntoL : (chainT S n1 rnd1 g1).toN < S.levels.length :=
      lt_trans hto hn1L
    have hmf := chain_master H hD (chainT S n1 rnd1 g1).toN hntoL
      (S.levels.length + a) (by omega)
      (v ++ (chainRun S n1 rnd1 g1).events ++ (chainAug S n1 rnd1 g1).1)
      (chainRnd2 S n1 rnd1 g1) (chainAug S n1 rnd1 g1).2 hB2 hG2
    have hmn := chain_master H hD (chainT S n1 rnd1 g1).toN hntoL
      S.levels.length (by omega)
      (v ++ (chainRun S n1 rnd1 g1).events ++ (chainAug S n1 rnd1 g1).1)
      (chainRnd2 S n1 rnd1 g1) (chainAug S n1 rnd1 g1).2 hB2 hG2
    have hre : chainRest S (S.levels.length + a) n1 v rnd1 g1 =
        chainRest S S.levels.length n1 v rnd1 g1 := by
      show genDecayChainAux S (S.levels.length + a) _ _ _ _ =
        genDecayChainAux S S.levels.length _ _ _ _
      rw [hmf.1, hmn.1]
    have hprob : S.lStart.getProb n1 ≠ 0 := by
      unfold PSelector.getProb
      have hnum : S.lStart.cumprob.getD (n1 + 1) 0 -
          S.lStart.cumprob.getD n1 0 = ws.getD n1 0 := by
        rw [hws, ofWeights_cumprob]
        exact cumsums_getD_sub ws 0 n1 hn1
      rw [hnum]
      exact ne_of_gt (div_pos hWidth hback1)
    have hNDFtop : S.getNDFlevel n1 ≤ S.getNDFtop := by
      unfold NucDecaySystem.getNDFtop
      exact le_foldr_max_if S.getNDFlevel S.lStart.getProb _ n1
        (List.mem_range.mpr hn1L) hprob
    refine ⟨by rw [hre], ?_, ?_, ?_⟩
    · show (chainRest S (S.levels.length + a) n1 v rnd1 g1).steps + 1 ≤
        S.levels.length
      have h1 : (chainRest S (S.levels.length + a) n1 v rnd1 g1).steps ≤
          (chainT S n1 rnd1 g1).toN + 1 := hmf.2.1
      omega
    · show (chainRest S (S.levels.length + a) n1 v rnd1 g1).adv +
        (chainT S n1 rnd1 g1).ndf ≤ S.getNDFtop
      have h1 : (chainRest S (S.levels.length + a) n1 v rnd1 g1).adv ≤
          S.getNDFlevel (chainT S n1 rnd1 g1).toN := hmf.2.2.1
      omega
    · intro q hq
      have hq2 : q ∈ [S.lStart.back] ++
          [(S.levelDecays.getD n1 PSelector.init).back] ++
          (chainRun S n1 rnd1 g1).selTotals ++
          (chainRest S (S.levels.length + a) n1 v rnd1 g1).selTotals := hq
      rcases List.mem_append.mp hq2 with hq3 | hq4
      · rcases List.mem_append.mp hq3 with hq5 | hq6
        · rcases List.mem_append.mp hq5 with hq7 | hq8
          · have : q = S.lStart.back := by simpa using hq7
            rw [this]
            exact hback1
          · have : q = (S.levelDecays.getD n1 PSelector.init).back := by
              simpa using hq8
            rw [this]
            exact hPD
        · exact hRun q hq6
      · exact hmf.2.2.2 q hq4

theorem transitions_foldl (S : NucDecaySystem) (ts : List Transition) :
    (ts.foldl NucDecaySystem.addTransition S).transitions =
      S.transitions ++ ts := by
  induction ts generalizing S with
  | nil => simp
  | cons T ts ih =>
      rw [List.foldl_cons, ih]
      show (S.transitions ++ [T]) ++ ts = _
      simp

theorem buildSystem_transitions_nonorm (ls : List NucLevel) (p1 p2 : List Transition)
    (t : ℚ) (atoms : ℕ → DecayAtom) :
    (buildSystem ls p1 false p2 t atoms).transitions = p1 ++ p2 := by
  have hb : buildSystem ls p1 false p2 t atoms =
      ((p2.foldl NucDecaySystem.addTransition
        (p1.foldl NucDecaySystem.addTransition (initSystem ls atoms))).setCutoff t) := rfl
  rw [hb]
  show (p2.foldl NucDecaySystem.addTransition _).transitions = _
  rw [transitions_foldl, transitions_foldl]
  rfl

theorem getD_le_sum {l : List ℚ} (h : ∀ w ∈ l, 0 ≤ w) :
    ∀ i, i < l.length → l.getD i 0 ≤ l.sum := by
  induction l with
  | nil => intro i hi; simp at hi
  | cons x xs ih =>
      intro i hi
      cases i with
      | zero =>
          have : 0 ≤ xs.sum := List.sum_nonneg (fun w hw => h w (by simp [hw]))
          simp only [List.getD_cons_zero, List.sum_cons]
          linarith
      | succ j =>
          have h0 : 0 ≤ x := h x (by simp)
          have := ih (fun w hw => h w (by simp [hw])) j (by simpa using hi)
          simp only [List.getD_cons_succ, List.sum_cons]
          linarith

/-- A system built (without ground-state normalization) from nonnegative,
well-formed transition data over at least one level satisfies the chain
hypotheses. -/
theorem chainHyp_buildSystem (ls : List NucLevel) (p1 p2 : List Transition)
    (t : ℚ) (atoms : ℕ → DecayAtom) (hls : ls ≠ [])
    (hp : ∀ T ∈ p1 ++ p2, 0 ≤ T.Itotal ∧ TransWF T) :
    ChainHyp (buildSystem ls p1 false p2 t atoms) := by
  have hTs := buildSystem_transitions_nonorm ls p1 p2 t atoms
  have hL : 0 < (buildSystem ls p1 false p2 t atoms).levels.length := by
    rw [buildSystem_levels_length]
    exact List.length_pos.mpr hls
  have hnn : ∀ k, k < (buildSystem ls p1 false p2 t atoms).transitions.length →
      0 ≤ ((buildSystem ls p1 false p2 t atoms).transitions.getD k default).Itotal := by
    intro k hk
    exact (hp _ (by rw [← hTs]; exact getD_mem hk default)).1
  refine ⟨sysInv_buildSystem ls p1 false p2 t atoms,
    canonInv_buildSystem ls p1 false p2 t atoms, hnn, ?_, ?_, ?_⟩
  · intro k hk
    exact (hp _ (by rw [← hTs]; exact getD_mem hk default)).2
  · -- total chain-start weight at least 1
    set S3 := p2.foldl NucDecaySystem.addTransition
      (p1.foldl NucDecaySystem.addTransition (initSystem ls atoms)) with hS3
    have hb : buildSystem ls p1 false p2 t atoms = S3.setCutoff t := rfl
    have hInv3 : SysInv S3 :=
      sysInv_foldl (sysInv_foldl (sysInv_init ls atoms) p1) p2
    have hnn3 : ∀ k, k < S3.transitions.length →
        0 ≤ (S3.transitions.getD k default).Itotal := by
      intro k hk
      have hTs3 : S3.transitions = p1 ++ p2 := by
        rw [hS3, transitions_foldl, transitions_foldl]
        rfl
      exact (hp _ (by rw [← hTs3]; exact getD_mem hk default)).1
    have hws : (buildSystem ls p1 false p2 t atoms).lStart =
        PSelector.ofWeights
          ((List.range S3.levels.length).map (S3.startWeight t)) := rfl
    have hL3 : 0 < S3.levels.length := by
      have : S3.levels.length = (buildSystem ls p1 false p2 t atoms).levels.length := rfl
      omega
    have hwnn : ∀ w ∈ (List.range S3.levels.length).map (S3.startWeight t), 0 ≤ w := by
      intro w hw
      obtain ⟨i, hi, rfl⟩ := List.mem_map.mp hw
      unfold NucDecaySystem.startWeight
      split
      · norm_num
      · split
        · apply List.sum_nonneg
          intro x hx
          obtain ⟨k, hk, rfl⟩ := List.mem_map.mp hx
          exact hnn3 k (hInv3.hInK i (List.mem_range.mp hi) k hk).1
        · norm_num
    have hlast : ((List.range S3.levels.length).map (S3.startWeight t)).getD
        (S3.levels.length - 1) 0 = 1 := by
      rw [getD_range_map _ _ _ _ (by omega)]
      unfold NucDecaySystem.startWeight
      rw [if_pos (by omega)]
    rw [hws, ofWeights_back]
    calc (1 : ℚ) = ((List.range S3.levels.length).map (S3.startWeight t)).getD
          (S3.levels.length - 1) 0 := hlast.symm
      _ ≤ _ := getD_le_sum hwnn _ (by simp; omega)
  · refine ⟨(List.range ((buildSystem ls p1 false p2 t atoms).levels.length)).map
      (fun n => (buildSystem ls p1 false p2 t atoms).startWeight t n), ?_, by simp⟩
    rfl

/-- Sorted levels plus strictly-decreasing transition energies give strictly
decreasing level indices. -/
theorem descending_of_energy {S : NucDecaySystem}
    (hsort : (S.levels.map (fun L => L.E)).Sorted (· ≤ ·))
    (hE : ∀ n, n < S.levels.length → ∀ k ∈ S.transOut.getD n [],
      (S.transitions.getD k default).toN < S.levels.length ∧
      (S.levels.getD (S.transitions.getD k default).toN default).E <
        (S.levels.getD n default).E) :
    Descending S := by
  intro n hn k hk
  obtain ⟨hto, hElt⟩ := hE n hn k hk
  by_contra hge
  push_neg at hge
  have hmapn : (S.levels.map (fun L => L.E)).getD n 0 =
      (S.levels.getD n default).E := getD_map_lt _ _ _ 0 default hn
  have hmapto : (S.levels.map (fun L => L.E)).getD
      (S.transitions.getD k default).toN 0 =
      (S.levels.getD (S.transitions.getD k default).toN default).E :=
    getD_map_lt _ _ _ 0 default hto
  have hmono := sorted_getD_mono hsort hge
    (by simpa using hto)
  rw [hmapn, hmapto] at hmono
  linarith

/-- The half of the firing-step facts that needs no acyclicity: valid
buffer/stream afterwards and positive totals for every selector touched. -/
theorem fireStep_core {S : NucDecaySystem} (H : ChainHyp S)
    {n : ℕ} (hn : n < S.levels.length)
    (hflux : (S.levels.getD n default).fluxOut ≠ 0)
    {rnd : Option (List ℚ)} {g : List ℚ} (hb : BufOK rnd) (hg : GOK g) :
    BufOK (chainRnd2 S n rnd g) ∧
    GOK (chainAug S n rnd g).2 ∧
    0 < (S.levelDecays.getD n PSelector.init).back ∧
    (∀ q ∈ (chainRun S n rnd g).selTotals, 0 < q) ∧
    (S.transOut.getD n []).getD (chainSel S n rnd g).1 0 ∈
      S.transOut.getD n [] := by
  have hcanon := H.canon n hn
  set ws_n := (S.transOut.getD n []).map
    (fun k => (S.transitions.getD k default).Itotal) with hwsn
  have hwnn : ∀ w ∈ ws_n, 0 ≤ w := by
    intro w hw
    obtain ⟨k, hk, rfl⟩ := List.mem_map.mp hw
    exact H.nn k (H.inv.hOutK n hn k hk).1
  have hsum : ws_n.sum = S.outSum n := rfl
  have htot : 0 < (PSelector.ofWeights ws_n).back := by
    rw [ofWeights_back, hsum, ← H.inv.hFlux n hn]
    have h0 : 0 ≤ (S.levels.getD n default).fluxOut := by
      rw [H.inv.hFlux n hn, ← hsum]
      exact List.sum_nonneg hwnn
    exact lt_of_le_of_ne h0 (Ne.symm hflux)
  have hchainSel : chainSel S n rnd g = (PSelector.ofWeights ws_n).selectChain rnd g := by
    unfold chainSel
    rw [hcanon]
  obtain ⟨hselLt, hselW, hselB, hselG⟩ := selectChain_ok htot hb hg
  have hiLt : (chainSel S n rnd g).1 < (S.transOut.getD n []).length := by
    rw [hchainSel]
    simpa [hwsn] using hselLt
  have hk0mem : (S.transOut.getD n []).getD (chainSel S n rnd g).1 0 ∈
      S.transOut.getD n [] := getD_mem hiLt 0
  have hk0 := H.inv.hOutK n hn _ hk0mem
  have hchainT : chainT S n rnd g =
      S.transitions.getD ((S.transOut.getD n []).getD (chainSel S n rnd g).1 0)
        default := rfl
  have hTI : (chainT S n rnd g).Itotal = ws_n.getD (chainSel S n rnd g).1 0 := by
    rw [hchainT, hwsn]
    exact (getD_map_lt (fun k => (S.transitions.getD k default).Itotal)
      (S.transOut.getD n []) _ 0 0 hiLt).symm
  have hTIpos : 0 < (chainT S n rnd g).Itotal := by
    rw [hTI]
    have h2 : ws_n.getD ((PSelector.ofWeights ws_n).selectChain rnd g).1 0 =
        ws_n.getD (chainSel S n rnd g).1 0 := by rw [hchainSel]
    rw [← h2]
    exact hselW
  have hBsel : BufOK (chainSel S n rnd g).2.1 := by rw [hchainSel]; exact hselB
  have hGsel : GOK (chainSel S n rnd g).2.2 := by rw [hchainSel]; exact hselG
  have hrun := run_ok (chainT S n rnd g) (H.twf _ hk0.1) hTIpos
    (S.atoms (chainT S n rnd g).toZ) (chainSel S n rnd g).2.1
    (chainSel S n rnd g).2.2 hBsel hGsel
  have hchainRun : chainRun S n rnd g =
      (chainT S n rnd g).run (S.atoms (chainT S n rnd g).toZ)
        (chainSel S n rnd g).2.1 (chainSel S n rnd g).2.2 := rfl
  refine ⟨?_, ?_, ?_, ?_, hk0mem⟩
  · unfold chainRnd2
    exact bufOK_map_drop (by rw [hchainRun]; exact hrun.1) _
  · unfold chainAug
    exact genAugers_GOK _ _ (by rw [hchainRun]; exact hrun.2.1)
  · rw [hcanon]
    exact htot
  · rw [hchainRun]
    exact hrun.2.2

theorem chainHyp_levels_pos {S : NucDecaySystem} (H : ChainHyp S) :
    0 < S.levels.length := by
  obtain ⟨ws, hws, hlen⟩ := H.lstartOf
  by_contra h
  push_neg at h
  have hws0 : ws = [] := List.eq_nil_of_length_eq_zero (by omega)
  have hb := H.lstart1
  rw [hws, hws0, ofWeights_back] at hb
  simp at hb
  linarith

/-- Every selector total seen by `select` during chain generation (any
fuel, any start) is positive on a constructed system with valid uniform
inputs. -/
theorem chain_selTotals_pos {S : NucDecaySystem} (H : ChainHyp S) :
    ∀ fuel v rnd g n, BufOK rnd → GOK g →
      ∀ q ∈ (genDecayChainAux S fuel v rnd g n).selTotals, 0 < q := by
  intro fuel
  induction fuel with
  | zero =>
      intro v rnd g n hb hg q hq
      simp [genDecayChainAux] at hq
  | succ f ihf =>
      intro v rnd g n hb hg q hq
      by_cases hninit : n < S.levels.length
      · rw [aux_level_unfold S hninit f v rnd g] at hq
        by_cases hstop : (S.levels.getD n default).fluxOut = 0 ∨
            S.tcut < (S.levels.getD n default).hl
        · rw [if_pos hstop] at hq
          simp at hq
        · rw [if_neg hstop] at hq
          have hflux : (S.levels.getD n default).fluxOut ≠ 0 :=
            fun h => hstop (Or.inl h)
          obtain ⟨hB2, hG2, hPD, hRun, _⟩ := fireStep_core H hninit hflux hb hg
          have hq2 : q ∈ [(S.levelDecays.getD n PSelector.init).back] ++
              (chainRun S n rnd g).selTotals ++
              (chainRest S f n v rnd g).selTotals := hq
          rcases List.mem_append.mp hq2 with hq3 | hq4
          · rcases List.mem_append.mp hq3 with hq5 | hq6
            · have heq : q = (S.levelDecays.getD n PSelector.init).back := by
                simpa using hq5
              rw [heq]
              exact hPD
            · exact hRun q hq6
          · exact ihf _ _ _ _ hB2 hG2 q hq4
      · push_neg at hninit
        rw [aux_init_unfold S hninit f v rnd g] at hq
        obtain ⟨ws, hws, hwsLen⟩ := H.lstartOf
        have hback1 : 0 < S.lStart.back := lt_of_lt_of_le one_pos H.lstart1
        have htot : 0 < (PSelector.ofWeights ws).back := by
          rw [← hws]; exact hback1
        have hsel := selectChain_ok htot hb hg
        rw [← hws] at hsel
        obtain ⟨hn1, hW1, hB1, hG1⟩ := hsel
        have hn1L : (S.lStart.selectChain rnd g).1 < S.levels.length := by
          rw [← hwsLen]
          exact hn1
        by_cases hstop :
            (S.levels.getD (S.lStart.selectChain rnd g).1 default).fluxOut = 0
        · rw [if_pos hstop] at hq
          have heq : q = S.lStart.back := by simpa using hq
          rw [heq]
          exact hback1
        · rw [if_neg hstop] at hq
          obtain ⟨hB2, hG2, hPD, hRun, _⟩ := fireStep_core H hn1L hstop hB1 hG1
          have hq2 : q ∈ [S.lStart.back] ++
              [(S.levelDecays.getD (S.lStart.selectChain rnd g).1
                PSelector.init).back] ++
              (chainRun S (S.lStart.selectChain rnd g).1
                (S.lStart.selectChain rnd g).2.1
                (S.lStart.selectChain rnd g).2.2).selTotals ++
              (chainRest S f (S.lStart.selectChain rnd g).1 v
                (S.lStart.selectChain rnd g).2.1
                (S.lStart.selectChain rnd g).2.2).selTotals := hq
          rcases List.mem_append.mp hq2 with hq3 | hq4
          · rcases List.mem_append.mp hq3 with hq5 | hq6
            · rcases List.mem_append.mp hq5 with hq7 | hq8
              · have heq : q = S.lStart.back := by simpa using hq7
                rw [heq]
                exact hback1
              · have heq : q = (S.levelDecays.getD
                    (S.lStart.selectChain rnd g).1 PSelector.init).back := by
                  simpa using hq8
                rw [heq]
                exact hPD
            · exact hRun q hq6
          · exact ihf _ _ _ _ hB2 hG2 q hq4

/-- A conversion transition with a positive-probability shell whose
subshell list is the degenerate all-zero selector: constructible, and its
subshell `select` then runs on total weight 0. -/
def exGammaT : Transition :=
  ⟨1, 0, 2, 2, 2,
    TransKind.gammaConv (PSelector.ofWeights [1, 1]) [PSelector.ofWeights [0]] 1⟩

def sysC7 : NucDecaySystem :=
  buildSystem [exL0, exL1] [exGammaT] false [] 5 (fun _ => exAtom)

/-- C7 counterexample: on a constructed two-level system whose only
transition is a conversion gamma with a zero-total subshell selector, a
`genDecayChain` call does invoke `select` on a selector of total weight 0
(the subshell selector), so not every select invocation during chain
generation sees a positive total. -/
theorem C7_counterexample :
    ¬ (∀ q ∈ (sysC7.genDecayChain [] (some [0, 0, 0, 0]) [] 7).selTotals,
        0 < q) := by
  intro h
  have h0 := h 0
  have hmem : (0 : ℚ) ∈ (sysC7.genDecayChain [] (some [0, 0, 0, 0]) [] 7).selTotals := by
    norm_num [sysC7, exGammaT, exL0, exL1, exAtom, buildSystem, initSystem,
      sortByE, insertLevel, NucDecaySystem.addTransition, modN,
      NucDecaySystem.setCutoff, NucDecaySystem.startWeight,
      NucDecaySystem.inSum, NucDecaySystem.outSum, NucDecaySystem.genDecayChain,
      genDecayChainAux, PSelector.selectChain, PSelector.selectX, upperBound,
      PSelector.ofWeights, PSelector.addProb, PSelector.init, PSelector.back,
      Transition.run, randp, DecayAtom.genAuger, genAugers, List.range_succ]
  exact absurd (h0 hmem) (lt_irrefl 0)

/-- C7 (amended): on a constructed system (`ChainHyp`: invariants,
nonnegative intensities, and — the amendment the counterexample forces —
well-formed conversion selectors with positive-total subshell selectors),
with uniform inputs in [0,1): `lStart`'s total is at least 1,
`levelDecays[n]`'s total equals `fluxOut[n]` and is positive whenever the
chain can reach its `select`, and every `select` invocation during chain
generation (any fuel, any start level) operates on a positive total. -/
theorem C7_selectors_positive {S : NucDecaySystem} (H : ChainHyp S) :
    1 ≤ S.lStart.back ∧
    (∀ n, n < S.levels.length → (S.levels.getD n default).fluxOut ≠ 0 →
      (S.levelDecays.getD n PSelector.init).getCumProb =
        (S.levels.getD n default).fluxOut ∧
      0 < (S.levelDecays.getD n PSelector.init).getCumProb) ∧
    (∀ fuel v rnd g n, BufOK rnd → GOK g →
      ∀ q ∈ (genDecayChainAux S fuel v rnd g n).selTotals, 0 < q) := by
  refine ⟨H.lstart1, ?_, chain_selTotals_pos H⟩
  intro n hn hflux
  have h1 : (S.levelDecays.getD n PSelector.init).getCumProb = S.outSum n := by
    rw [H.canon n hn]
    show (PSelector.ofWeights _).back = _
    rw [ofWeights_back]
    rfl
  have h2 : S.outSum n = (S.levels.getD n default).fluxOut :=
    (H.inv.hFlux n hn).symm
  have hnn : ∀ w ∈ (S.transOut.getD n []).map
      (fun k => (S.transitions.getD k default).Itotal), 0 ≤ w := by
    intro w hw
    obtain ⟨k, hk, rfl⟩ := List.mem_map.mp hw
    exact H.nn k (H.inv.hOutK n hn k hk).1
  have h0 : 0 ≤ S.outSum n := List.sum_nonneg hnn
  refine ⟨by rw [h1, h2], ?_⟩
  rw [h1]
  exact lt_of_le_of_ne h0 (by rw [h2]; exact Ne.symm hflux)

/-- Witness for the amended C7 at the concrete electron-capture example:
every selector total in a run is positive. -/
theorem C7_selectors_positive_witness :
    ((genDecayChainAux exSys 3 [] (some [0, 0, 0]) [0, 0, 0] 9).selTotals).all
      (fun q => decide (0 < q)) = true := by
  rw [List.all_eq_true]
  have H : ChainHyp exSys :=
    chainHyp_buildSystem [exL0, exL1] [] [exEC] 5 (fun _ => exAtom) (by simp)
      (by
        intro T hT
        simp only [List.nil_append] at hT
        have : T = exEC := by simpa using hT
        subst this
        exact ⟨by norm_num [exEC], trivial⟩)
  have h := (C7_selectors_positive H).2.2 3 [] (some [0, 0, 0]) [0, 0, 0] 9
    (by intro x hx; fin_cases hx <;> norm_num)
    (by intro x hx; fin_cases hx <;> norm_num)
  intro q hq
  simpa using h q hq

theorem exSys_chainHyp : ChainHyp exSys :=
  chainHyp_buildSystem [exL0, exL1] [] [exEC] 5 (fun _ => exAtom) (by simp)
    (by
      intro T hT
      simp only [List.nil_append] at hT
      have : T = exEC := by simpa using hT
      subst this
      exact ⟨by norm_num [exEC], trivial⟩)

theorem exSys_transOut : exSys.transOut = [[], [0]] := by
  norm_num [exSys, exEC, exL0, exL1, exAtom, buildSystem, initSystem, sortByE,
    insertLevel, NucDecaySystem.addTransition, modN, NucDecaySystem.setCutoff]

theorem exSys_transitions : exSys.transitions = [exEC] := by
  have h := buildSystem_transitions_nonorm [exL0, exL1] [] [exEC] 5 (fun _ => exAtom)
  simpa using h

theorem exSys_levels_E :
    (exSys.levels.getD 0 default).E = 0 ∧ (exSys.levels.getD 1 default).E = 1 := by
  constructor <;>
    norm_num [exSys, exEC, exL0, exL1, exAtom, buildSystem, initSystem, sortByE,
      insertLevel, NucDecaySystem.addTransition, modN, NucDecaySystem.setCutoff]

theorem exSys_energy_descent :
    ∀ n, n < exSys.levels.length → ∀ k ∈ exSys.transOut.getD n [],
      (exSys.transitions.getD k default).toN < exSys.levels.length ∧
      (exSys.levels.getD (exSys.transitions.getD k default).toN default).E <
        (exSys.levels.getD n default).E := by
  intro n hn k hk
  have hlen := exSys_levels_length
  rw [hlen] at hn
  rw [exSys_transOut] at hk
  interval_cases n
  · simp at hk
  · have hk0 : k = 0 := by simpa using hk
    subst hk0
    rw [exSys_transitions]
    have hto : (([exEC] : List Transition).getD 0 default).toN = 0 := rfl
    rw [hto, hlen]
    refine ⟨by omega, ?_⟩
    rw [exSys_levels_E.1, exSys_levels_E.2]
    norm_num

theorem exSys_levels_sorted :
    (exSys.levels.map (fun L => L.E)).Sorted (· ≤ ·) :=
  levelEs_sorted_buildSystem [exL0, exL1] [] false [exEC] 5 (fun _ => exAtom)

/-- C2 counterexample: the constructed zero-level system.  The single
initial invocation (which stops on the fluxless default lookup) already
counts as one recursive step, exceeding the level count 0, so the step
bound "at most the number of levels" fails without the at-least-one-level
amendment. -/
theorem C2_counterexample :
    ¬ (((buildSystem [] [] false [] 0 (fun _ => exAtom)).genDecayChain []
          (some [0]) [] 7).steps ≤
        (buildSystem [] [] false [] 0 (fun _ => exAtom)).levels.length) := by
  have hdef : (default : NucLevel).fluxOut = 0 := rfl
  norm_num [buildSystem, initSystem, sortByE, NucDecaySystem.setCutoff,
    NucDecaySystem.genDecayChain, genDecayChainAux, PSelector.selectChain,
    PSelector.selectX, upperBound, PSelector.ofWeights, PSelector.init,
    PSelector.back, NucDecaySystem.startWeight, List.range_succ, hdef]

/-- C2 (amended): on a constructed system with at least one level
(`ChainHyp`), whose transitions all go to strictly lower-energy levels
(hence strictly smaller sorted indices), every `genDecayChain` call with
uniform inputs in [0,1) terminates — the fuel-run recursion is stable from
`levels.length + 1` onward — and its number of invocations (transition
firings plus the final stopping call) is at most the number of levels. -/
theorem C2_termination {S : NucDecaySystem} (H : ChainHyp S)
    (hsort : (S.levels.map (fun L => L.E)).Sorted (· ≤ ·))
    (hE : ∀ n, n < S.levels.length → ∀ k ∈ S.transOut.getD n [],
      (S.transitions.getD k default).toN < S.levels.length ∧
      (S.levels.getD (S.transitions.getD k default).toN default).E <
        (S.levels.getD n default).E) :
    ∀ n0 v rnd g, BufOK rnd → GOK g →
      (∀ fuel, S.levels.length + 1 ≤ fuel →
        genDecayChainAux S fuel v rnd g n0 = S.genDecayChain v rnd g n0) ∧
      (S.genDecayChain v rnd g n0).steps ≤ S.levels.length := by
  have hD := descending_of_energy hsort hE
  have hL := chainHyp_levels_pos H
  intro n0 v rnd g hb hg
  by_cases hn : n0 < S.levels.length
  · have hm1 := chain_master H hD n0 hn (S.levels.length + 1) (by omega) v rnd g hb hg
    constructor
    · intro fuel hf
      have hm2 := chain_master H hD n0 hn fuel (by omega) v rnd g hb hg
      show genDecayChainAux S fuel v rnd g n0 =
        genDecayChainAux S (S.levels.length + 1) v rnd g n0
      rw [hm2.1, hm1.1]
    · show (genDecayChainAux S (S.levels.length + 1) v rnd g n0).steps ≤
        S.levels.length
      have h1 := hm1.2.1
      omega
  · push_neg at hn
    have hm1 := chain_master_init H hD hL n0 hn (S.levels.length + 1) (by omega)
      v rnd g hb hg
    constructor
    · intro fuel hf
      have hm2 := chain_master_init H hD hL n0 hn fuel (by omega) v rnd g hb hg
      show genDecayChainAux S fuel v rnd g n0 =
        genDecayChainAux S (S.levels.length + 1) v rnd g n0
      rw [hm2.1, hm1.1]
    · exact hm1.2.1

/-- Witness for the amended C2 at the concrete example system and run. -/
theorem C2_termination_witness :
    (exSys.genDecayChain [] (some [0, 0, 0]) [0, 0, 0] 9).steps ≤
      exSys.levels.length :=
  (C2_termination exSys_chainHyp exSys_levels_sorted exSys_energy_descent 9 []
    (some [0, 0, 0]) [0, 0, 0]
    (by intro x hx; fin_cases hx <;> norm_num)
    (by intro x hx; fin_cases hx <;> norm_num)).2

/-- C5: on a constructed system (`ChainHyp`) whose transitions strictly
descend in energy: for every level `n` and transition in `transOut[n]`,
`T.getNDF() + getNDF(T.to.n) ≤ getNDF(n)`; `getNDF()` with no start level
dominates `getNDF(i)` for every level `i` of nonzero start probability; and
the total random-buffer advance of a `genDecayChain` call never exceeds the
start's NDF budget (level version and start-selection version). -/
theorem C5_ndf_bounds {S : NucDecaySystem} (H : ChainHyp S)
    (hsort : (S.levels.map (fun L => L.E)).Sorted (· ≤ ·))
    (hE : ∀ n, n < S.levels.length → ∀ k ∈ S.transOut.getD n [],
      (S.transitions.getD k default).toN < S.levels.length ∧
      (S.levels.getD (S.transitions.getD k default).toN default).E <
        (S.levels.getD n default).E) :
    (∀ n, n < S.levels.length → ∀ k ∈ S.transOut.getD n [],
      (S.transitions.getD k default).ndf +
        S.getNDFlevel (S.transitions.getD k default).toN ≤ S.getNDFlevel n) ∧
    (∀ i, i < S.levels.length → S.lStart.getProb i ≠ 0 →
      S.getNDFlevel i ≤ S.getNDFtop) ∧
    (∀ n0 v rnd g, BufOK rnd → GOK g → n0 < S.levels.length →
      (S.genDecayChain v rnd g n0).adv ≤ S.getNDFlevel n0) ∧
    (∀ n0 v rnd g, BufOK rnd → GOK g → S.levels.length ≤ n0 →
      (S.genDecayChain v rnd g n0).adv ≤ S.getNDFtop) := by
  have hD := descending_of_energy hsort hE
  have hL := chainHyp_levels_pos H
  refine ⟨?_, ?_, ?_, ?_⟩
  · intro n hn k hk
    have hto := hD n hn k hk
    have hfold : S.getNDFlevel n = (S.transOut.getD n []).foldr
        (fun k m => max ((S.transitions.getD k default).ndf +
          ndfAux S n (S.transitions.getD k default).toN) m) 0 := rfl
    have hterm := le_foldr_max
      (fun k => (S.transitions.getD k default).ndf +
        ndfAux S n (S.transitions.getD k default).toN)
      (S.transOut.getD n []) k hk
    have hndf : ndfAux S n (S.transitions.getD k default).toN =
        S.getNDFlevel (S.transitions.getD k default).toN :=
      ndfAux_fuel hD H.inv.hOut _ n _ (by omega) (by omega)
    rw [hfold, ← hndf]
    exact hterm
  · intro i hi hp
    exact le_foldr_max_if S.getNDFlevel S.lStart.getProb _ i
      (List.mem_range.mpr hi) hp
  · intro n0 v rnd g hb hg hn
    exact (chain_master H hD n0 hn (S.levels.length + 1) (by omega)
      v rnd g hb hg).2.2.1
  · intro n0 v rnd g hb hg hn
    exact (chain_master_init H hD hL n0 hn (S.levels.length + 1) (by omega)
      v rnd g hb hg).2.2.1

/-- Witness for C5: the concrete example run's buffer advance is within the
start NDF budget. -/
theorem C5_ndf_bounds_witness :
    (exSys.genDecayChain [] (some [0, 0, 0]) [0, 0, 0] 9).adv ≤
      exSys.getNDFtop :=
  (C5_ndf_bounds exSys_chainHyp exSys_levels_sorted exSys_energy_descent).2.2.2
    9 [] (some [0, 0, 0]) [0, 0, 0]
    (by intro x hx; fin_cases hx <;> norm_num)
    (by intro x hx; fin_cases hx <;> norm_num)
    (by rw [exSys_levels_length]; omega)

/-- A transition whose `run` touches no ambient (gRandom) state when a
buffer is supplied, and which leaves no K vacancy: a pure gamma (no
conversion subshells) or a beta.  `ECapture::run` always draws from gRandom
(NuclEvtGen.cc:263), and a K vacancy triggers `genAuger`, which also always
draws from gRandom (cc:102), so those are excluded. -/
def AmbientFree (T : Transition) : Prop :=
  match T.kind with
  | TransKind.gammaConv _ subs _ => subs = []
  | TransKind.beta _ _ => True
  | TransKind.ecapture => False

/-- With a supplied buffer, an ambient-free transition's `run` produces
events, buffer and vacancy count that do not depend on the ambient stream
(and leaves no vacancy; its buffer output stays `some`). -/
theorem run_g_independent {T : Transition} (hA : AmbientFree T) (A : DecayAtom)
    (buf : List ℚ) (g1 g2 : List ℚ) :
    (T.run A (some buf) g1).events = (T.run A (some buf) g2).events ∧
    (T.run A (some buf) g1).rnd = (T.run A (some buf) g2).rnd ∧
    (T.run A (some buf) g1).nVacK = 0 ∧
    (T.run A (some buf) g2).nVacK = 0 ∧
    (∃ b, (T.run A (some buf) g1).rnd = some b) := by
  rcases T with ⟨fN, tN, tZ, I, nd, kind⟩
  cases kind with
  | gammaConv sh subs Eg =>
      simp only [AmbientFree] at hA
      subst hA
      simp only [Transition.run]
      rw [dif_neg (by simp), dif_neg (by simp)]
      exact ⟨by simp [PSelector.selectChain, randp], by simp [PSelector.selectChain],
        by simp, by simp, ⟨_, rfl⟩⟩
  | beta positron q =>
      simp only [Transition.run]
      exact ⟨by simp [randp], by simp, by simp, by simp, ⟨_, rfl⟩⟩
  | ecapture =>
      simp only [AmbientFree] at hA

/-- With a supplied buffer on an ambient-free constructed system, the whole
chain's output events, final cursor, invocation count and buffer advance do
not depend on the ambient stream. -/
theorem chain_g_independent {S : NucDecaySystem} (H : ChainHyp S)
    (hA : ∀ k, k < S.transitions.length →
      AmbientFree (S.transitions.getD k default)) :
    ∀ fuel v buf g1 g2 n, BufOK (some buf) → GOK g1 → GOK g2 →
      (genDecayChainAux S fuel v (some buf) g1 n).v =
        (genDecayChainAux S fuel v (some buf) g2 n).v ∧
      (genDecayChainAux S fuel v (some buf) g1 n).rnd =
        (genDecayChainAux S fuel v (some buf) g2 n).rnd ∧
      (genDecayChainAux S fuel v (some buf) g1 n).steps =
        (genDecayChainAux S fuel v (some buf) g2 n).steps ∧
      (genDecayChainAux S fuel v (some buf) g1 n).adv =
        (genDecayChainAux S fuel v (some buf) g2 n).adv := by
  intro fuel
  induction fuel with
  | zero =>
      intro v buf g1 g2 n hb hg1 hg2
      exact ⟨rfl, rfl, rfl, rfl⟩
  | succ f ihf =>
      intro v buf g1 g2 n hb hg1 hg2
      have hfire : ∀ (v0 : List NucDecayEvent) (buf0 : List ℚ),
          BufOK (some buf0) → ∀ m, m < S.levels.length →
          (S.levels.getD m default).fluxOut ≠ 0 →
          (chainRest S f m v0 (some buf0) g1).v =
            (chainRest S f m v0 (some buf0) g2).v ∧
          (chainRest S f m v0 (some buf0) g1).rnd =
            (chainRest S f m v0 (some buf0) g2).rnd ∧
          (chainRest S f m v0 (some buf0) g1).steps =
            (chainRest S f m v0 (some buf0) g2).steps ∧
          (chainRest S f m v0 (some buf0) g1).adv =
            (chainRest S f m v0 (some buf0) g2).adv ∧
          (chainRun S m (some buf0) g1).events =
            (chainRun S m (some buf0) g2).events ∧
          (chainAug S m (some buf0) g1).1 = [] ∧
          (chainAug S m (some buf0) g2).1 = [] ∧
          chainT S m (some buf0) g2 = chainT S m (some buf0) g1 := by
        intro v0 buf0 hb0 m hm hflux
        obtain ⟨hB2, hG2, hPD, hRun, hmem⟩ := fireStep_core H hm hflux hb0 hg1
        obtain ⟨hB2b, hG2b, _, _, _⟩ := fireStep_core H hm hflux hb0 hg2
        have hk0 := H.inv.hOutK m hm _ hmem
        have hAk : AmbientFree (chainT S m (some buf0) g1) := hA _ hk0.1
        have hTeq : chainT S m (some buf0) g2 = chainT S m (some buf0) g1 := rfl
        have hrg := run_g_independent hAk
          (S.atoms (chainT S m (some buf0) g1).toZ)
          (((S.levelDecays.getD m PSelector.init).selectX (buf0.headD 0)).2 ::
            buf0.tail) g1 g2
        have hRun1 : chainRun S m (some buf0) g1 =
            (chainT S m (some buf0) g1).run
              (S.atoms (chainT S m (some buf0) g1).toZ)
              (some (((S.levelDecays.getD m PSelector.init).selectX
                (buf0.headD 0)).2 :: buf0.tail)) g1 := rfl
        have hRun2 : chainRun S m (some buf0) g2 =
            (chainT S m (some buf0) g1).run
              (S.atoms (chainT S m (some buf0) g1).toZ)
              (some (((S.levelDecays.getD m PSelector.init).selectX
                (buf0.headD 0)).2 :: buf0.tail)) g2 := rfl
        have hEv : (chainRun S m (some buf0) g1).events =
            (chainRun S m (some buf0) g2).events := by
          rw [hRun1, hRun2]
          exact hrg.1
        have hRnd : (chainRun S m (some buf0) g1).rnd =
            (chainRun S m (some buf0) g2).rnd := by
          rw [hRun1, hRun2]
          exact hrg.2.1
        have hV1 : (chainRun S m (some buf0) g1).nVacK = 0 := by
          rw [hRun1]
          exact hrg.2.2.1
        have hV2 : (chainRun S m (some buf0) g2).nVacK = 0 := by
          rw [hRun2]
          exact hrg.2.2.2.1
        obtain ⟨bR, hbR⟩ := hrg.2.2.2.2
        have hbR1 : (chainRun S m (some buf0) g1).rnd = some bR := by
          rw [hRun1]
          exact hbR
        have hAug1 : (chainAug S m (some buf0) g1).1 = [] := by
          unfold chainAug
          rw [hV1]
          rfl
        have hAug2 : (chainAug S m (some buf0) g2).1 = [] := by
          unfold chainAug
          rw [hV2]
          rfl
        have hrnd2L : chainRnd2 S m (some buf0) g1 =
            some (bR.drop (chainT S m (some buf0) g1).ndf) := by
          unfold chainRnd2
          rw [hbR1]
          rfl
        have hrnd2R : chainRnd2 S m (some buf0) g2 =
            some (bR.drop (chainT S m (some buf0) g1).ndf) := by
          unfold chainRnd2
          rw [← hRnd, hbR1, hTeq]
          rfl
        have hBR : BufOK (some (bR.drop (chainT S m (some buf0) g1).ndf)) := by
          rw [← hrnd2L]
          exact hB2
        have hvL : v0 ++ (chainRun S m (some buf0) g1).events ++
            (chainAug S m (some buf0) g1).1 =
            v0 ++ (chainRun S m (some buf0) g1).events := by
          rw [hAug1, List.append_nil]
        have hvR : v0 ++ (chainRun S m (some buf0) g2).events ++
            (chainAug S m (some buf0) g2).1 =
            v0 ++ (chainRun S m (some buf0) g1).events := by
          rw [hAug2, List.append_nil, hEv]
        have hGA1 : GOK (chainAug S m (some buf0) g1).2 := hG2
        have hGA2 : GOK (chainAug S m (some buf0) g2).2 := hG2b
        have hRL : chainRest S f m v0 (some buf0) g1 =
            genDecayChainAux S f (v0 ++ (chainRun S m (some buf0) g1).events)
              (some (bR.drop (chainT S m (some buf0) g1).ndf))
              (chainAug S m (some buf0) g1).2 (chainT S m (some buf0) g1).toN := by
          unfold chainRest
          rw [hvL, hrnd2L]
        have hRR : chainRest S f m v0 (some buf0) g2 =
            genDecayChainAux S f (v0 ++ (chainRun S m (some buf0) g1).events)
              (some (bR.drop (chainT S m (some buf0) g1).ndf))
              (chainAug S m (some buf0) g2).2 (chainT S m (some buf0) g1).toN := by
          unfold chainRest
          rw [hvR, hrnd2R, hTeq]
        have hrest := ihf (v0 ++ (chainRun S m (some buf0) g1).events)
          (bR.drop (chainT S m (some buf0) g1).ndf)
          (chainAug S m (some buf0) g1).2 (chainAug S m (some buf0) g2).2
          (chainT S m (some buf0) g1).toN hBR hGA1 hGA2
        rw [hRL, hRR]
        exact ⟨hrest.1, hrest.2.1, hrest.2.2.1, hrest.2.2.2, hEv, hAug1, hAug2, hTeq⟩
      by_cases hn : n < S.levels.length
      · rw [aux_level_unfold S hn f v (some buf) g1,
          aux_level_unfold S hn f v (some buf) g2]
        by_cases hstop : (S.levels.getD n default).fluxOut = 0 ∨
            S.tcut < (S.levels.getD n default).hl
        · rw [if_pos hstop, if_pos hstop]
          exact ⟨rfl, rfl, rfl, rfl⟩
        · rw [if_neg hstop, if_neg hstop]
          have hflux : (S.levels.getD n default).fluxOut ≠ 0 :=
            fun h => hstop (Or.inl h)
          obtain ⟨h1, h2, h3, h4, hEv, hAug1, hAug2, hTeq⟩ :=
            hfire v buf hb n hn hflux
          refine ⟨?_, ?_, ?_, ?_⟩
          · show (chainRest S f n v (some buf) g1).v =
              (chainRest S f n v (some buf) g2).v
            exact h1
          · show (chainRest S f n v (some buf) g1).rnd =
              (chainRest S f n v (some buf) g2).rnd
            exact h2
          · show (chainRest S f n v (some buf) g1).steps + 1 =
              (chainRest S f n v (some buf) g2).steps + 1
            rw [h3]
          · show (chainRest S f n v (some buf) g1).adv +
                (chainT S n (some buf) g1).ndf =
              (chainRest S f n v (some buf) g2).adv +
                (chainT S n (some buf) g2).ndf
            rw [h4, hTeq]
      · push_neg at hn
        rw [aux_init_unfold S hn f v (some buf) g1,
          aux_init_unfold S hn f v (some buf) g2]
        obtain ⟨ws, hws, hwsLen⟩ := H.lstartOf
        have hback1 : 0 < S.lStart.back := lt_of_lt_of_le one_pos H.lstart1
        have htot : 0 < (PSelector.ofWeights ws).back := by
          rw [← hws]
          exact hback1
        have hsel := selectChain_ok htot hb hg1
        rw [← hws] at hsel
        obtain ⟨hn1, hW1, hB1, _⟩ := hsel
        have hn1L : (S.lStart.selectChain (some buf) g1).1 < S.levels.length := by
          rw [← hwsLen]
          exact hn1
        have hSelEq1 : (S.lStart.selectChain (some buf) g2).1 =
            (S.lStart.selectChain (some buf) g1).1 := rfl
        by_cases hstop : (S.levels.getD
            (S.lStart.selectChain (some buf) g1).1 default).fluxOut = 0
        · rw [if_pos hstop, if_pos (by rw [hSelEq1]; exact hstop)]
          exact ⟨rfl, rfl, rfl, rfl⟩
        · rw [if_neg hstop, if_neg (by rw [hSelEq1]; exact hstop)]
          have hR1 : (S.lStart.selectChain (some buf) g1).2.1 =
              some ((S.lStart.selectX (buf.headD 0)).2 :: buf.tail) := rfl
          have hB1b : BufOK (some ((S.lStart.selectX (buf.headD 0)).2 ::
              buf.tail)) := by
            rw [← hR1]
            exact hB1
          obtain ⟨h1, h2, h3, h4, hEv, hAug1, hAug2, hTeq⟩ :=
            hfire v ((S.lStart.selectX (buf.headD 0)).2 :: buf.tail) hB1b
              (S.lStart.selectChain (some buf) g1).1 hn1L hstop
          refine ⟨?_, ?_, ?_, ?_⟩
          · exact h1
          · exact h2
          · show (chainRest S f (S.lStart.selectChain (some buf) g1).1 v
                (some ((S.lStart.selectX (buf.headD 0)).2 :: buf.tail))
                g1).steps + 1 =
              (chainRest S f (S.lStart.selectChain (some buf) g1).1 v
                (some ((S.lStart.selectX (buf.headD 0)).2 :: buf.tail))
                g2).steps + 1
            rw [h3]
          · show (chainRest S f (S.lStart.selectChain (some buf) g1).1 v
                (some ((S.lStart.selectX (buf.headD 0)).2 :: buf.tail))
                g1).adv + (chainT S (S.lStart.selectChain (some buf) g1).1
                  (some ((S.lStart.selectX (buf.headD 0)).2 :: buf.tail))
                  g1).ndf =
              (chainRest S f (S.lStart.selectChain (some buf) g1).1 v
                (some ((S.lStart.selectX (buf.headD 0)).2 :: buf.tail))
                g2).adv + (chainT S (S.lStart.selectChain (some buf) g1).1
                  (some ((S.lStart.selectX (buf.headD 0)).2 :: buf.tail))
                  g2).ndf
            rw [h4, hTeq]

/-- C1 counterexample: on the constructed electron-capture example system,
two `genDecayChain` calls with byte-identical explicit uniform buffers (and
identical initial output vectors) produce different event sequences when
the ambient gRandom states differ — `ECapture::run` and `genAuger` draw
from gRandom even when `rnd` is supplied. -/
theorem C1_counterexample :
    (exSys.genDecayChain [] (some [0, 0, 0]) [0, 0, 0, 0] 9).v ≠
      (exSys.genDecayChain [] (some [0, 0, 0]) [3/4] 9).v := by
  have hdef : (default : NucLevel).fluxOut = 0 := rfl
  norm_num [exSys, exEC, exL0, exL1, exAtom, buildSystem, initSystem,
    sortByE, insertLevel, NucDecaySystem.addTransition, modN,
    NucDecaySystem.setCutoff, NucDecaySystem.startWeight,
    NucDecaySystem.inSum, NucDecaySystem.outSum, NucDecaySystem.genDecayChain,
    genDecayChainAux, PSelector.selectChain, PSelector.selectX, upperBound,
    PSelector.ofWeights, PSelector.addProb, PSelector.init, PSelector.back,
    Transition.run, randp, DecayAtom.genAuger, genAugers, List.range_succ, hdef]

/-- C1 (amended): with a supplied uniform buffer, `genDecayChain` is
deterministic in the buffer alone — independent of the ambient gRandom
state — provided the system's transitions are ambient-free (no electron
captures, no conversion subshells, hence no K vacancies and no Auger
draws); the two runs yield identical output event sequences and identical
final buffer cursors.  (In general the ambient state must also coincide,
as the counterexample shows.) -/
theorem C1_buffer_determinism {S : NucDecaySystem} (H : ChainHyp S)
    (hA : ∀ k, k < S.transitions.length →
      AmbientFree (S.transitions.getD k default)) :
    ∀ v buf g1 g2 n, BufOK (some buf) → GOK g1 → GOK g2 →
      (S.genDecayChain v (some buf) g1 n).v =
        (S.genDecayChain v (some buf) g2 n).v ∧
      (S.genDecayChain v (some buf) g1 n).rnd =
        (S.genDecayChain v (some buf) g2 n).rnd := by
  intro v buf g1 g2 n hb hg1 hg2
  have h := chain_g_independent H hA (S.levels.length + 1) v buf g1 g2 n hb hg1 hg2
  exact ⟨h.1, h.2.1⟩

/-- A pure-gamma transition (no conversion shells): ambient-free. -/
def exGamma0 : Transition :=
  ⟨1, 0, 2, 1, 2, TransKind.gammaConv (PSelector.ofWeights [1]) [] 1⟩

def sysC1 : NucDecaySystem :=
  buildSystem [exL0, exL1] [exGamma0] false [] 5 (fun _ => exAtom)

theorem sysC1_transitions : sysC1.transitions = [exGamma0] := by
  have h := buildSystem_transitions_nonorm [exL0, exL1] [exGamma0] [] 5
    (fun _ => exAtom)
  simpa using h

/-- Witness for the amended C1 at the pure-gamma example system: two runs
with the same buffer but different ambient streams give the same events. -/
theorem C1_buffer_determinism_witness :
    (sysC1.genDecayChain [] (some [0, 0, 0]) [0, 0] 9).v =
      (sysC1.genDecayChain [] (some [0, 0, 0]) [1/2, 1/2] 9).v := by
  have H : ChainHyp sysC1 := by
    apply chainHyp_buildSystem [exL0, exL1] [exGamma0] [] 5 (fun _ => exAtom)
      (by simp)
    intro T hT
    simp only [List.append_nil] at hT
    have hTe : T = exGamma0 := by simpa using hT
    subst hTe
    refine ⟨by norm_num [exGamma0], ?_⟩
    show (∃ ws, PSelector.ofWeights [1] = PSelector.ofWeights ws ∧
        ∀ w ∈ ws, 0 ≤ w) ∧
      (PSelector.ofWeights [1]).back = (1 : ℚ) ∧
      ∀ P ∈ ([] : List PSelector),
        (∃ ws, P = PSelector.ofWeights ws ∧ ∀ w ∈ ws, 0 ≤ w) ∧ 0 < P.back
    refine ⟨⟨[1], rfl, by intro w hw; fin_cases hw; norm_num⟩, ?_, by simp⟩
    rw [ofWeights_back]
    norm_num
  have hA : ∀ k, k < sysC1.transitions.length →
      AmbientFree (sysC1.transitions.getD k default) := by
    intro k hk
    rw [sysC1_transitions] at hk ⊢
    simp only [List.length_singleton] at hk
    interval_cases k
    show AmbientFree exGamma0
    show ([] : List PSelector) = []
    rfl
  exact (C1_buffer_determinism H hA [] [0, 0, 0] [0, 0] [1/2, 1/2] 9
    (by intro x hx; fin_cases hx <;> norm_num)
    (by intro x hx; fin_cases hx <;> norm_num)
    (by intro x hx; fin_cases hx <;> norm_num)).1

/-- Modelled from the spec (SMExcept.hh is not in src/): the structured
errors raised during graph construction, carrying the offending field
value -- `SMExcept("UnknownLevel")` with `e.insert("name", s)`
(NuclEvtGen.cc:436-438), `SMExcept("BadAugerZ")` with `e.insert("Z", Z)`
(cc:313-316), the `smassert` failure on a duplicate level name (cc:286),
which the spec describes as a structured error carrying the offending
field name/value, and the `smassert` on an explicit electron-capture
target of wrong A/Z/E (cc:352). -/
inductive SMErr where
  | unknownLevel (name : String)
  | duplicateLevel (name : String)
  | badAugerZ (Z : ℤ)
  | assertFailed
deriving DecidableEq

/-- A parsed gamma/beta record: the `from`/`to` level-name fields looked
up through `levIndex`, plus the record's payload -- the transition built
from the resolved level indices (`ConversionGamma`/`BetaDecayTrans`
construction, whose physics fields are orthogonal to the name-resolution
error handling modelled here). -/
structure TransRecord where
  fromName : String
  toName : String
  build : ℕ → ℕ → Transition

/-- A parsed ecapt record (NuclEvtGen.cc:339-357): the `from` name, the
`to` field defaulting to "AUTO", and the `I` intensity used on the
explicit-target branch. -/
structure ECRecord where
  fromName : String
  toName : String
  I : ℚ

/-- `NucDecaySystem::levIndex` (NuclEvtGen.cc:433-441): look up a level
name in the name→index map (built first-wins over the sorted levels);
unknown names raise `SMExcept("UnknownLevel")` carrying the name. -/
def levIndexE (s : String) : List NucLevel → Except SMErr ℕ
  | [] => Except.error (SMErr.unknownLevel s)
  | L :: rest =>
      if L.name = s then Except.ok 0
      else
        match levIndexE s rest with
        | Except.ok i => Except.ok (i + 1)
        | Except.error e => Except.error e

/-- The constructor's duplicate-name loop (NuclEvtGen.cc:284-288):
`smassert(levelIndex.find(l.name) == levelIndex.end())` before each
`emplace`, walking the sorted levels with the already-inserted names as
`seen`.  The smassert failure is modelled (spec) as a structured error
carrying the duplicated name. -/
def checkNamesAux : List String → List String → Except SMErr Unit
  | _, [] => Except.ok ()
  | seen, m :: rest =>
      if m ∈ seen then Except.error (SMErr.duplicateLevel m)
      else checkNamesAux (m :: seen) rest

/-- The AugerK-record loop (NuclEvtGen.cc:311-320): each record's Z field
(`a.getDefault("Z",0)`) is checked, and `Z = 0` throws
`SMExcept("BadAugerZ")` carrying Z; the `getAtom(Z)->load(a)` call only
fills the externally supplied atom table modelled by the `atoms`
function. -/
def checkAugers : List ℤ → Except SMErr Unit
  | [] => Except.ok ()
  | z :: rest =>
      if z = 0 then Except.error (SMErr.badAugerZ z) else checkAugers rest

/-- One record-loading loop of the constructor (cc:292-295 gammas,
cc:322-338 betas): resolve the from/to names through `levIndex` against
the current system's levels, then register the record's transition; the
first failing lookup aborts construction. -/
def addTransRecords : List TransRecord → NucDecaySystem → Except SMErr NucDecaySystem
  | [], S => Except.ok S
  | r :: rest, S =>
      match levIndexE r.fromName S.levels with
      | Except.error e => Except.error e
      | Except.ok fi =>
          match levIndexE r.toName S.levels with
          | Except.error e => Except.error e
          | Except.ok ti => addTransRecords rest (S.addTransition (r.build fi ti))

/-- The ecapt `to == "AUTO"` branch (NuclEvtGen.cc:340-349): walk the
levels in order and, for each level of the same A, charge Z one below the
origin's and strictly lower energy whose flux deficit
`fluxOut - fluxIn` is positive, register an ECapture of that deficit
intensity.  Each registration immediately updates the flux accumulators
(the C++ mutates the vectors in place through references), so later
iterations see the updated state.  This branch performs no `levIndex`
lookup and cannot fail. -/
def addAutoEC (fi : ℕ) : List ℕ → NucDecaySystem → NucDecaySystem
  | [], S => S
  | d :: rest, S =>
      addAutoEC fi rest
        (if (S.levels.getD d default).A = (S.levels.getD fi default).A ∧
            (S.levels.getD d default).Z + 1 = (S.levels.getD fi default).Z ∧
            (S.levels.getD d default).E < (S.levels.getD fi default).E ∧
            0 < (S.levels.getD d default).fluxOut - (S.levels.getD d default).fluxIn then
          S.addTransition ⟨fi, d, (S.levels.getD d default).Z.toNat,
            (S.levels.getD d default).fluxOut - (S.levels.getD d default).fluxIn, 0,
            TransKind.ecapture⟩
        else S)

/-- The ecapt-record loop (NuclEvtGen.cc:339-357): resolve `from`; a
record with `to = "AUTO"` runs the flux-deficit walk with no further
lookup, any other record resolves `to` through `levIndex` and then
asserts `Ldest.A == Lorig.A && Ldest.Z+1 == Lorig.Z && Ldest.E < Lorig.E`
(cc:352, the smassert modelled per the spec as a structured error) before
registering an ECapture with the record's intensity. -/
def addECRecords : List ECRecord → NucDecaySystem → Except SMErr NucDecaySystem
  | [], S => Except.ok S
  | r :: rest, S =>
      match levIndexE r.fromName S.levels with
      | Except.error e => Except.error e
      | Except.ok fi =>
          if r.toName = "AUTO" then
            addECRecords rest (addAutoEC fi (List.range S.levels.length) S)
          else
            match levIndexE r.toName S.levels with
            | Except.error e => Except.error e
            | Except.ok ti =>
                if (S.levels.getD ti default).A = (S.levels.getD fi default).A ∧
                    (S.levels.getD ti default).Z + 1 = (S.levels.getD fi default).Z ∧
                    (S.levels.getD ti default).E < (S.levels.getD fi default).E then
                  addECRecords rest (S.addTransition ⟨fi, ti,
                    (S.levels.getD ti default).Z.toNat, r.I, 0, TransKind.ecapture⟩)
                else Except.error SMErr.assertFailed

/-- The fallible constructor (NuclEvtGen.cc:270-360) at the record level,
in source order: load and sort the levels (`initSystem`), run the
duplicate-name assertion loop over the sorted names, resolve and register
the gamma records, optionally apply ground-state normalization, check the
AugerK records' Z fields, resolve and register the beta records, process
the ecapt records (AUTO flux-deficit walk or explicit target with the
A/Z/E assertion), and finish with `setCutoff t`.  A thrown error
propagates: no partially built system is returned. -/
def buildSystemChecked (ls : List NucLevel) (gammas : List TransRecord) (norm : Bool)
    (augerZs : List ℤ) (betas : List TransRecord) (ecapts : List ECRecord)
    (t : ℚ) (atoms : ℕ → DecayAtom) : Except SMErr NucDecaySystem :=
  match checkNamesAux [] ((initSystem ls atoms).levels.map NucLevel.name) with
  | Except.error e => Except.error e
  | Except.ok _ =>
      match addTransRecords gammas (initSystem ls atoms) with
      | Except.error e => Except.error e
      | Except.ok S1 =>
          match checkAugers augerZs with
          | Except.error e => Except.error e
          | Except.ok _ =>
              match addTransRecords betas (if norm then S1.normGS else S1) with
              | Except.error e => Except.error e
              | Except.ok S3 =>
                  match addECRecords ecapts S3 with
                  | Except.error e => Except.error e
                  | Except.ok S4 => Except.ok (S4.setCutoff t)

/-- The construction-stable part of a level: name, mass number, charge
and energy.  Registration and normalization only touch the flux
accumulators, so this skeleton is invariant across the constructor. -/
def skelL (L : NucLevel) : String × ℤ × ℤ × ℚ := (L.name, L.A, L.Z, L.E)

/-- The explicit-ecapt assertion (NuclEvtGen.cc:352) as a predicate on a
level list: whenever the record's names resolve, the target has the same
A, charge one below, and strictly lower energy.  It reads only the level
skeleton. -/
def ECassertOK (l : List NucLevel) (r : ECRecord) : Prop :=
  ∀ fi ti, levIndexE r.fromName l = Except.ok fi →
    levIndexE r.toName l = Except.ok ti →
    (l.getD ti default).A = (l.getD fi default).A ∧
    (l.getD ti default).Z + 1 = (l.getD fi default).Z ∧
    (l.getD ti default).E < (l.getD fi default).E

theorem insertLevel_perm (L : NucLevel) (l : List NucLevel) :
    (insertLevel L l).Perm (L :: l) := by
  induction l with
  | nil => exact List.Perm.refl _
  | cons x xs ih =>
      by_cases h : L.E < x.E
      · rw [insertLevel, if_pos h]
      · rw [insertLevel, if_neg h]
        exact (ih.cons x).trans (List.Perm.swap L x xs)

theorem sortByE_perm (ls : List NucLevel) : (sortByE ls).Perm ls := by
  induction ls with
  | nil => exact List.Perm.refl _
  | cons L rest ih => exact (insertLevel_perm L (sortByE rest)).trans (ih.cons L)

theorem map_name_map (f : NucLevel → NucLevel) (h : ∀ L, (f L).name = L.name)
    (l : List NucLevel) : (l.map f).map NucLevel.name = l.map NucLevel.name := by
  induction l with
  | nil => rfl
  | cons x xs ih => simp [h, ih]

theorem initSystem_names_perm (ls : List NucLevel) (atoms : ℕ → DecayAtom) :
    ((initSystem ls atoms).levels.map NucLevel.name).Perm (ls.map NucLevel.name) := by
  show ((sortByE (ls.map (fun L => { L with fluxIn := 0, fluxOut := 0 }))).map
    NucLevel.name).Perm (ls.map NucLevel.name)
  have h1 := (sortByE_perm (ls.map (fun L => { L with fluxIn := 0, fluxOut := 0 }))).map
    NucLevel.name
  rwa [map_name_map (fun L => { L with fluxIn := 0, fluxOut := 0 })
    (fun L => rfl)] at h1

theorem map_skel_map (f : NucLevel → NucLevel) (h : ∀ L, skelL (f L) = skelL L)
    (l : List NucLevel) : (l.map f).map skelL = l.map skelL := by
  induction l with
  | nil => rfl
  | cons x xs ih => simp [h, ih]

theorem map_skel_modN (f : NucLevel → NucLevel) (h : ∀ L, skelL (f L) = skelL L) :
    ∀ (n : ℕ) (l : List NucLevel), (modN f n l).map skelL = l.map skelL := by
  intro n l
  induction l generalizing n with
  | nil => cases n <;> rfl
  | cons x xs ih =>
      cases n with
      | zero => simp [modN, h]
      | succ m => simp [modN, ih]

theorem skel_addTransition (S : NucDecaySystem) (T : Transition) :
    (S.addTransition T).levels.map skelL = S.levels.map skelL := by
  simp only [NucDecaySystem.addTransition]
  rw [map_skel_modN (fun L => { L with fluxIn := L.fluxIn + T.Itotal }) (fun L => rfl),
    map_skel_modN (fun L => { L with fluxOut := L.fluxOut + T.Itotal }) (fun L => rfl)]

theorem skel_normGS (S : NucDecaySystem) :
    S.normGS.levels.map skelL = S.levels.map skelL := by
  simp only [NucDecaySystem.normGS]
  exact map_skel_map
    (fun L => L.scale
      (1 / ((S.levels.filter (fun L => decide (L.fluxOut = 0))).map
        (fun L => L.fluxIn)).sum))
    (fun L => rfl) S.levels

theorem skel_addAutoEC (fi : ℕ) : ∀ (ds : List ℕ) (S : NucDecaySystem),
    (addAutoEC fi ds S).levels.map skelL = S.levels.map skelL := by
  intro ds
  induction ds with
  | nil => intro S; rfl
  | cons d rest ih =>
      intro S
      simp only [addAutoEC]
      rw [ih]
      split
      · exact skel_addTransition _ _
      · rfl

theorem names_of_skel : ∀ l1 l2 : List NucLevel,
    l1.map skelL = l2.map skelL → l1.map NucLevel.name = l2.map NucLevel.name := by
  intro l1
  induction l1 with
  | nil =>
      intro l2 h
      cases l2 with
      | nil => rfl
      | cons y ys => simp at h
  | cons x xs ih =>
      intro l2 h
      cases l2 with
      | nil => simp at h
      | cons y ys =>
          simp only [List.map_cons, List.cons.injEq] at h ⊢
          exact ⟨congrArg Prod.fst h.1, ih ys h.2⟩

theorem levIndexE_congr (s : String) : ∀ l1 l2 : List NucLevel,
    l1.map NucLevel.name = l2.map NucLevel.name → levIndexE s l1 = levIndexE s l2 := by
  intro l1
  induction l1 with
  | nil =>
      intro l2 h
      cases l2 with
      | nil => rfl
      | cons y ys => simp at h
  | cons x xs ih =>
      intro l2 h
      cases l2 with
      | nil => simp at h
      | cons y ys =>
          simp only [List.map_cons, List.cons.injEq] at h
          simp only [levIndexE, h.1, ih ys h.2]

theorem skel_getD {l1 l2 : List NucLevel} (h : l1.map skelL = l2.map skelL) (i : ℕ) :
    skelL (l1.getD i default) = skelL (l2.getD i default) := by
  have hlen : l1.length = l2.length := by
    have hc := congrArg List.length h
    simpa using hc
  by_cases hi : i < l1.length
  · have h1 : (l1.map skelL).getD i (skelL default) = skelL (l1.getD i default) :=
      getD_map_lt skelL l1 i (skelL default) default hi
    have h2 : (l2.map skelL).getD i (skelL default) = skelL (l2.getD i default) :=
      getD_map_lt skelL l2 i (skelL default) default (by omega)
    rw [← h1, ← h2, h]
  · rw [List.getD_eq_default _ _ (by omega), List.getD_eq_default _ _ (by omega)]

theorem ECassertOK_congr {l1 l2 : List NucLevel} (h : l1.map skelL = l2.map skelL)
    (r : ECRecord) (ha : ECassertOK l1 r) : ECassertOK l2 r := by
  intro fi ti hf ht
  have hn := names_of_skel l1 l2 h
  have hf1 : levIndexE r.fromName l1 = Except.ok fi :=
    (levIndexE_congr r.fromName l1 l2 hn).trans hf
  have ht1 : levIndexE r.toName l1 = Except.ok ti :=
    (levIndexE_congr r.toName l1 l2 hn).trans ht
  obtain ⟨hA, hZ, hE⟩ := ha fi ti hf1 ht1
  have hsf := skel_getD h fi
  have hst := skel_getD h ti
  have hAf : (l1.getD fi default).A = (l2.getD fi default).A :=
    congrArg (fun p => p.2.1) hsf
  have hAt : (l1.getD ti default).A = (l2.getD ti default).A :=
    congrArg (fun p => p.2.1) hst
  have hZf : (l1.getD fi default).Z = (l2.getD fi default).Z :=
    congrArg (fun p => p.2.2.1) hsf
  have hZt : (l1.getD ti default).Z = (l2.getD ti default).Z :=
    congrArg (fun p => p.2.2.1) hst
  have hEf : (l1.getD fi default).E = (l2.getD fi default).E :=
    congrArg (fun p => p.2.2.2) hsf
  have hEt : (l1.getD ti default).E = (l2.getD ti default).E :=
    congrArg (fun p => p.2.2.2) hst
  refine ⟨?_, ?_, ?_⟩
  · rw [← hAt, ← hAf]; exact hA
  · rw [← hZt, ← hZf]; exact hZ
  · rw [← hEt, ← hEf]; exact hE

theorem checkNamesAux_ok_iff (names : List String) :
    ∀ seen, checkNamesAux seen names = Except.ok () ↔
      names.Nodup ∧ ∀ n ∈ names, n ∉ seen := by
  induction names with
  | nil => intro seen; simp [checkNamesAux]
  | cons m rest ih =>
      intro seen
      by_cases h : m ∈ seen
      · simp only [checkNamesAux, if_pos h]
        constructor
        · intro hc; exact absurd hc (by simp)
        · rintro ⟨-, hall⟩; exact absurd h (hall m (by simp))
      · simp only [checkNamesAux, if_neg h, ih, List.nodup_cons]
        constructor
        · rintro ⟨hnd, hall⟩
          refine ⟨⟨fun hm => (hall m hm) (by simp), hnd⟩, ?_⟩
          intro n hn hns
          rcases List.mem_cons.mp hn with rfl | hn2
          · exact h hns
          · exact (hall n hn2) (List.mem_cons_of_mem m hns)
        · rintro ⟨⟨hmr, hnd⟩, hall⟩
          refine ⟨hnd, ?_⟩
          intro n hn hns
          rcases List.mem_cons.mp hns with rfl | hns2
          · exact hmr hn
          · exact (hall n (List.mem_cons_of_mem m hn)) hns2

theorem checkNamesAux_cases (names : List String) :
    ∀ seen, checkNamesAux seen names = Except.ok () ∨
      ∃ n, checkNamesAux seen names = Except.error (SMErr.duplicateLevel n) ∧
        n ∈ names ∧ (n ∈ seen ∨ 2 ≤ names.count n) := by
  induction names with
  | nil => intro seen; left; rfl
  | cons m rest ih =>
      intro seen
      by_cases h : m ∈ seen
      · right
        exact ⟨m, by simp only [checkNamesAux, if_pos h], by simp, Or.inl h⟩
      · rcases ih (m :: seen) with hok | ⟨n, herr, hn, hor⟩
        · left; simp only [checkNamesAux, if_neg h]; exact hok
        · right
          refine ⟨n, by simp only [checkNamesAux, if_neg h]; exact herr,
            List.mem_cons_of_mem m hn, ?_⟩
          rcases hor with hns | hcount
          · rcases List.mem_cons.mp hns with rfl | hseen
            · right
              rw [List.count_cons_self]
              have : 0 < rest.count n := List.count_pos_iff.mpr hn
              omega
            · exact Or.inl hseen
          · right
            by_cases hnm : n = m
            · subst hnm; rw [List.count_cons_self]; omega
            · rw [List.count_cons_of_ne hnm]; exact hcount

theorem levIndexE_cases (ls : List NucLevel) (s : String) :
    ((∃ i, levIndexE s ls = Except.ok i) ∧ ∃ L ∈ ls, L.name = s) ∨
      (levIndexE s ls = Except.error (SMErr.unknownLevel s) ∧
        ∀ L ∈ ls, L.name ≠ s) := by
  induction ls with
  | nil => right; exact ⟨rfl, by simp⟩
  | cons L rest ih =>
      by_cases h : L.name = s
      · left; exact ⟨⟨0, by simp [levIndexE, h]⟩, L, by simp, h⟩
      · rcases ih with ⟨⟨i, hi⟩, L2, hL2, hname⟩ | ⟨herr, hall⟩
        · left
          refine ⟨⟨i + 1, ?_⟩, L2, List.mem_cons_of_mem L hL2, hname⟩
          simp only [levIndexE, if_neg h, hi]
        · right
          refine ⟨by simp only [levIndexE, if_neg h, herr], ?_⟩
          intro L2 hL2
          rcases List.mem_cons.mp hL2 with rfl | h2
          · exact h
          · exact hall L2 h2

theorem name_mem {l : List NucLevel} {s : String}
    (h : ∃ L ∈ l, L.name = s) : s ∈ l.map NucLevel.name := by
  obtain ⟨L, hL, hn⟩ := h
  exact List.mem_map.mpr ⟨L, hL, hn⟩

theorem name_not_mem {l : List NucLevel} {s : String}
    (h : ∀ L ∈ l, L.name ≠ s) : s ∉ l.map NucLevel.name := by
  intro hm
  obtain ⟨L, hL, hn⟩ := List.mem_map.mp hm
  exact h L hL hn

theorem checkAugers_ok : ∀ zs : List ℤ, (∀ z ∈ zs, z ≠ 0) →
    checkAugers zs = Except.ok () := by
  intro zs
  induction zs with
  | nil => intro _; rfl
  | cons z rest ih =>
      intro h
      simp only [checkAugers, if_neg (h z (by simp))]
      exact ih (fun z2 hz2 => h z2 (List.mem_cons_of_mem z hz2))

theorem addTransRecords_cases (rs : List TransRecord) :
    ∀ S : NucDecaySystem,
      ((∃ S2, addTransRecords rs S = Except.ok S2 ∧
          S2.levels.map skelL = S.levels.map skelL) ∧
        ∀ r ∈ rs, r.fromName ∈ S.levels.map NucLevel.name ∧
          r.toName ∈ S.levels.map NucLevel.name) ∨
      ∃ n, addTransRecords rs S = Except.error (SMErr.unknownLevel n) ∧
        (∃ r ∈ rs, n = r.fromName ∨ n = r.toName) ∧
        n ∉ S.levels.map NucLevel.name := by
  induction rs with
  | nil => intro S; left; exact ⟨⟨S, rfl, rfl⟩, by simp⟩
  | cons r rest ih =>
      intro S
      rcases levIndexE_cases S.levels r.fromName with ⟨⟨fi, hfi⟩, hfrom⟩ | ⟨hfe, hfall⟩
      · rcases levIndexE_cases S.levels r.toName with ⟨⟨ti, hti⟩, hto⟩ | ⟨hte, htall⟩
        · have hskel := skel_addTransition S (r.build fi ti)
          have hnames := names_of_skel _ _ hskel
          rcases ih (S.addTransition (r.build fi ti)) with
            ⟨⟨S2, hok, hS2⟩, hall⟩ | ⟨n, herr, hnr, hnm⟩
          · left
            refine ⟨⟨S2, by simp only [addTransRecords, hfi, hti]; exact hok,
                hS2.trans hskel⟩, ?_⟩
            intro r2 hr2
            rcases List.mem_cons.mp hr2 with rfl | h2
            · exact ⟨name_mem hfrom, name_mem hto⟩
            · have h3 := hall r2 h2
              rwa [hnames] at h3
          · right
            refine ⟨n, by simp only [addTransRecords, hfi, hti]; exact herr, ?_, ?_⟩
            · obtain ⟨r2, hr2, hor⟩ := hnr
              exact ⟨r2, List.mem_cons_of_mem r hr2, hor⟩
            · rwa [hnames] at hnm
        · right
          exact ⟨r.toName, by simp only [addTransRecords, hfi, hte],
            ⟨r, by simp, Or.inr rfl⟩, name_not_mem htall⟩
      · right
        exact ⟨r.fromName, by simp only [addTransRecords, hfe],
          ⟨r, by simp, Or.inl rfl⟩, name_not_mem hfall⟩

theorem addECRecords_ok (rs : List ECRecord) :
    ∀ S : NucDecaySystem,
      (∀ r ∈ rs, r.fromName ∈ S.levels.map NucLevel.name ∧
        (r.toName = "AUTO" ∨ (r.toName ∈ S.levels.map NucLevel.name ∧
          ECassertOK S.levels r))) →
      ∃ S2, addECRecords rs S = Except.ok S2 := by
  induction rs with
  | nil => intro S _; exact ⟨S, rfl⟩
  | cons r rest ih =>
      intro S h
      have hfmem := (h r (by simp)).1
      have hfiex : ∃ i, levIndexE r.fromName S.levels = Except.ok i := by
        rcases levIndexE_cases S.levels r.fromName with ⟨he, -⟩ | ⟨-, hfall⟩
        · exact he
        · exact absurd hfmem (name_not_mem hfall)
      obtain ⟨fi, hfi⟩ := hfiex
      by_cases hA : r.toName = "AUTO"
      · have hskel := skel_addAutoEC fi (List.range S.levels.length) S
        have hnames := names_of_skel _ _ hskel
        have harg : ∀ r2 ∈ rest,
            r2.fromName ∈ (addAutoEC fi (List.range S.levels.length) S).levels.map
              NucLevel.name ∧
            (r2.toName = "AUTO" ∨
              (r2.toName ∈ (addAutoEC fi (List.range S.levels.length) S).levels.map
                NucLevel.name ∧
                ECassertOK (addAutoEC fi (List.range S.levels.length) S).levels r2)) := by
          intro r2 hr2
          obtain ⟨hf2, hor⟩ := h r2 (List.mem_cons_of_mem r hr2)
          refine ⟨by rw [hnames]; exact hf2, ?_⟩
          rcases hor with hA2 | ⟨hm2, hE2⟩
          · exact Or.inl hA2
          · exact Or.inr ⟨by rw [hnames]; exact hm2, ECassertOK_congr hskel.symm r2 hE2⟩
        obtain ⟨S2, hS2⟩ := ih _ harg
        exact ⟨S2, by simp only [addECRecords, hfi, if_pos hA]; exact hS2⟩
      · rcases (h r (by simp)).2 with hA2 | ⟨htmem, hEC⟩
        · exact absurd hA2 hA
        · have htiex : ∃ i, levIndexE r.toName S.levels = Except.ok i := by
            rcases levIndexE_cases S.levels r.toName with ⟨he, -⟩ | ⟨-, htall⟩
            · exact he
            · exact absurd htmem (name_not_mem htall)
          obtain ⟨ti, hti⟩ := htiex
          have hcond := hEC fi ti hfi hti
          have hskel := skel_addTransition S ⟨fi, ti,
            (S.levels.getD ti default).Z.toNat, r.I, 0, TransKind.ecapture⟩
          have hnames := names_of_skel _ _ hskel
          have harg : ∀ r2 ∈ rest,
              r2.fromName ∈ (S.addTransition ⟨fi, ti,
                (S.levels.getD ti default).Z.toNat, r.I, 0,
                TransKind.ecapture⟩).levels.map NucLevel.name ∧
              (r2.toName = "AUTO" ∨
                (r2.toName ∈ (S.addTransition ⟨fi, ti,
                  (S.levels.getD ti default).Z.toNat, r.I, 0,
                  TransKind.ecapture⟩).levels.map NucLevel.name ∧
                  ECassertOK (S.addTransition ⟨fi, ti,
                    (S.levels.getD ti default).Z.toNat, r.I, 0,
                    TransKind.ecapture⟩).levels r2)) := by
            intro r2 hr2
            obtain ⟨hf2, hor⟩ := h r2 (List.mem_cons_of_mem r hr2)
            refine ⟨by rw [hnames]; exact hf2, ?_⟩
            rcases hor with hA3 | ⟨hm2, hE2⟩
            · exact Or.inl hA3
            · exact Or.inr ⟨by rw [hnames]; exact hm2, ECassertOK_congr hskel.symm r2 hE2⟩
          obtain ⟨S2, hS2⟩ := ih _ harg
          refine ⟨S2, ?_⟩
          simp only [addECRecords, hfi, if_neg hA, hti]
          rw [if_pos hcond]
          exact hS2

theorem addECRecords_unknown (rs : List ECRecord) :
    ∀ S : NucDecaySystem,
      (∀ r ∈ rs, r.toName ≠ "AUTO" → r.fromName ∈ S.levels.map NucLevel.name →
        r.toName ∈ S.levels.map NucLevel.name → ECassertOK S.levels r) →
      (∃ r ∈ rs, r.fromName ∉ S.levels.map NucLevel.name ∨
        (r.toName ≠ "AUTO" ∧ r.toName ∉ S.levels.map NucLevel.name)) →
      ∃ n, addECRecords rs S = Except.error (SMErr.unknownLevel n) ∧
        (∃ r ∈ rs, n = r.fromName ∨ n = r.toName) ∧
        n ∉ S.levels.map NucLevel.name := by
  induction rs with
  | nil => intro S _ hbad; simp at hbad
  | cons r rest ih =>
      intro S hassert hbad
      rcases levIndexE_cases S.levels r.fromName with ⟨⟨fi, hfi⟩, hfromex⟩ | ⟨hfe, hfall⟩
      · have hfmem : r.fromName ∈ S.levels.map NucLevel.name := name_mem hfromex
        by_cases hA : r.toName = "AUTO"
        · have hbad2 : ∃ r2 ∈ rest, r2.fromName ∉ S.levels.map NucLevel.name ∨
              (r2.toName ≠ "AUTO" ∧ r2.toName ∉ S.levels.map NucLevel.name) := by
            obtain ⟨r2, hr2, hor⟩ := hbad
            rcases List.mem_cons.mp hr2 with rfl | h2
            · rcases hor with hm | ⟨hA2, -⟩
              · exact absurd hfmem hm
              · exact absurd hA hA2
            · exact ⟨r2, h2, hor⟩
          have hskel := skel_addAutoEC fi (List.range S.levels.length) S
          have hnames := names_of_skel _ _ hskel
          have hassert2 : ∀ r2 ∈ rest, r2.toName ≠ "AUTO" →
              r2.fromName ∈ (addAutoEC fi (List.range S.levels.length) S).levels.map
                NucLevel.name →
              r2.toName ∈ (addAutoEC fi (List.range S.levels.length) S).levels.map
                NucLevel.name →
              ECassertOK (addAutoEC fi (List.range S.levels.length) S).levels r2 := by
            intro r2 hr2 hA2 hf2 ht2
            refine ECassertOK_congr hskel.symm r2 ?_
            exact hassert r2 (List.mem_cons_of_mem r hr2) hA2
              (by rw [← hnames]; exact hf2) (by rw [← hnames]; exact ht2)
          have hbad3 : ∃ r2 ∈ rest,
              r2.fromName ∉ (addAutoEC fi (List.range S.levels.length) S).levels.map
                NucLevel.name ∨
              (r2.toName ≠ "AUTO" ∧
                r2.toName ∉ (addAutoEC fi (List.range S.levels.length) S).levels.map
                  NucLevel.name) := by
            obtain ⟨r2, hr2, hor⟩ := hbad2
            refine ⟨r2, hr2, ?_⟩
            rcases hor with hm | ⟨hA2, hm⟩
            · exact Or.inl (by rw [hnames]; exact hm)
            · exact Or.inr ⟨hA2, by rw [hnames]; exact hm⟩
          obtain ⟨n, herr, hnr, hnm⟩ := ih _ hassert2 hbad3
          refine ⟨n, by simp only [addECRecords, hfi, if_pos hA]; exact herr, ?_, ?_⟩
          · obtain ⟨r2, hr2, hor⟩ := hnr
            exact ⟨r2, List.mem_cons_of_mem r hr2, hor⟩
          · rwa [hnames] at hnm
        · rcases levIndexE_cases S.levels r.toName with ⟨⟨ti, hti⟩, htoex⟩ | ⟨hte, htall⟩
          · have htmem : r.toName ∈ S.levels.map NucLevel.name := name_mem htoex
            have hcond := hassert r (by simp) hA hfmem htmem fi ti hfi hti
            have hbad2 : ∃ r2 ∈ rest, r2.fromName ∉ S.levels.map NucLevel.name ∨
                (r2.toName ≠ "AUTO" ∧ r2.toName ∉ S.levels.map NucLevel.name) := by
              obtain ⟨r2, hr2, hor⟩ := hbad
              rcases List.mem_cons.mp hr2 with rfl | h2
              · rcases hor with hm | ⟨-, hm⟩
                · exact absurd hfmem hm
                · exact absurd htmem hm
              · exact ⟨r2, h2, hor⟩
            have hskel := skel_addTransition S ⟨fi, ti,
              (S.levels.getD ti default).Z.toNat, r.I, 0, TransKind.ecapture⟩
            have hnames := names_of_skel _ _ hskel
            have hassert2 : ∀ r2 ∈ rest, r2.toName ≠ "AUTO" →
                r2.fromName ∈ (S.addTransition ⟨fi, ti,
                  (S.levels.getD ti default).Z.toNat, r.I, 0,
                  TransKind.ecapture⟩).levels.map NucLevel.name →
                r2.toName ∈ (S.addTransition ⟨fi, ti,
                  (S.levels.getD ti default).Z.toNat, r.I, 0,
                  TransKind.ecapture⟩).levels.map NucLevel.name →
                ECassertOK (S.addTransition ⟨fi, ti,
                  (S.levels.getD ti default).Z.toNat, r.I, 0,
                  TransKind.ecapture⟩).levels r2 := by
              intro r2 hr2 hA2 hf2 ht2
              refine ECassertOK_congr hskel.symm r2 ?_
              exact hassert r2 (List.mem_cons_of_mem r hr2) hA2
                (by rw [← hnames]; exact hf2) (by rw [← hnames]; exact ht2)
            have hbad3 : ∃ r2 ∈ rest,
                r2.fromName ∉ (S.addTransition ⟨fi, ti,
                  (S.levels.getD ti default).Z.toNat, r.I, 0,
                  TransKind.ecapture⟩).levels.map NucLevel.name ∨
                (r2.toName ≠ "AUTO" ∧
                  r2.toName ∉ (S.addTransition ⟨fi, ti,
                    (S.levels.getD ti default).Z.toNat, r.I, 0,
                    TransKind.ecapture⟩).levels.map NucLevel.name) := by
              obtain ⟨r2, hr2, hor⟩ := hbad2
              refine ⟨r2, hr2, ?_⟩
              rcases hor with hm | ⟨hA2, hm⟩
              · exact Or.inl (by rw [hnames]; exact hm)
              · exact Or.inr ⟨hA2, by rw [hnames]; exact hm⟩
            obtain ⟨n, herr, hnr, hnm⟩ := ih _ hassert2 hbad3
            refine ⟨n, ?_, ?_, ?_⟩
            · simp only [addECRecords, hfi, if_neg hA, hti]
              rw [if_pos hcond]
              exact herr
            · obtain ⟨r2, hr2, hor⟩ := hnr
              exact ⟨r2, List.mem_cons_of_mem r hr2, hor⟩
            · rwa [hnames] at hnm
          · refine ⟨r.toName, ?_, ⟨r, by simp, Or.inr rfl⟩, name_not_mem htall⟩
            simp only [addECRecords, hfi, if_neg hA, hte]
      · exact ⟨r.fromName, by simp only [addECRecords, hfe],
          ⟨r, by simp, Or.inl rfl⟩, name_not_mem hfall⟩

/-- C8: construction is all-or-nothing with structured errors.  If the
level names contain a duplicate, the checked constructor returns the
duplicate-name structured error carrying a name occurring at least twice.
If the names are distinct, the AugerK records are well-formed and the
explicit electron-capture targets satisfy the A/Z/E assertion, but some
gamma, beta or ecapt record references a `from`/`to` name that is no
level's name (`to` of an ecapt only on its explicit branch -- an "AUTO"
target is never looked up), the constructor returns the `UnknownLevel`
structured error carrying an offending referenced-but-nonexistent name.
If in addition every such reference resolves, construction completes and
returns a system; in every error case only the error is returned, so no
partially built system is ever exposed. -/
theorem C8_construction_errors (ls : List NucLevel) (gammas : List TransRecord)
    (norm : Bool) (augerZs : List ℤ) (betas : List TransRecord)
    (ecapts : List ECRecord) (t : ℚ) (atoms : ℕ → DecayAtom) :
    (¬ (ls.map NucLevel.name).Nodup →
      ∃ n, buildSystemChecked ls gammas norm augerZs betas ecapts t atoms =
          Except.error (SMErr.duplicateLevel n) ∧
        2 ≤ (ls.map NucLevel.name).count n) ∧
    ((ls.map NucLevel.name).Nodup →
      (∀ z ∈ augerZs, z ≠ 0) →
      (∀ r ∈ ecapts, r.toName ≠ "AUTO" → r.fromName ∈ ls.map NucLevel.name →
        r.toName ∈ ls.map NucLevel.name →
        ECassertOK (initSystem ls atoms).levels r) →
      ((∃ r ∈ gammas ++ betas, r.fromName ∉ ls.map NucLevel.name ∨
          r.toName ∉ ls.map NucLevel.name) ∨
        ∃ r ∈ ecapts, r.fromName ∉ ls.map NucLevel.name ∨
          (r.toName ≠ "AUTO" ∧ r.toName ∉ ls.map NucLevel.name)) →
      ∃ n, buildSystemChecked ls gammas norm augerZs betas ecapts t atoms =
          Except.error (SMErr.unknownLevel n) ∧
        ((∃ r ∈ gammas ++ betas, n = r.fromName ∨ n = r.toName) ∨
          ∃ r ∈ ecapts, n = r.fromName ∨ n = r.toName) ∧
        n ∉ ls.map NucLevel.name) ∧
    ((ls.map NucLevel.name).Nodup →
      (∀ z ∈ augerZs, z ≠ 0) →
      (∀ r ∈ gammas ++ betas, r.fromName ∈ ls.map NucLevel.name ∧
        r.toName ∈ ls.map NucLevel.name) →
      (∀ r ∈ ecapts, r.fromName ∈ ls.map NucLevel.name ∧
        (r.toName = "AUTO" ∨ (r.toName ∈ ls.map NucLevel.name ∧
          ECassertOK (initSystem ls atoms).levels r))) →
      ∃ S, buildSystemChecked ls gammas norm augerZs betas ecapts t atoms =
        Except.ok S) := by
  have hperm : ((initSystem ls atoms).levels.map NucLevel.name).Perm
      (ls.map NucLevel.name) := initSystem_names_perm ls atoms
  have hmem0 : ∀ s, s ∈ (initSystem ls atoms).levels.map NucLevel.name ↔
      s ∈ ls.map NucLevel.name := fun s => hperm.mem_iff
  refine ⟨?_, ?_, ?_⟩
  · intro hdup
    rcases checkNamesAux_cases ((initSystem ls atoms).levels.map NucLevel.name) []
      with hok | ⟨n, herr, -, hor⟩
    · exact absurd (hperm.nodup_iff.mp ((checkNamesAux_ok_iff _ []).mp hok).1) hdup
    · refine ⟨n, by simp only [buildSystemChecked, herr], ?_⟩
      rcases hor with hns | hc
      · simp at hns
      · rw [← hperm.count_eq]; exact hc
  · intro hnd hZ hassert hbad
    have hok : checkNamesAux []
        ((initSystem ls atoms).levels.map NucLevel.name) = Except.ok () :=
      (checkNamesAux_ok_iff _ []).mpr ⟨hperm.nodup_iff.mpr hnd, by simp⟩
    rcases addTransRecords_cases gammas (initSystem ls atoms) with
      ⟨⟨S1, hok1, hskel1⟩, hgall⟩ | ⟨n, herr1, hnr, hnm⟩
    · have hskel2 : (if norm then S1.normGS else S1).levels.map skelL =
          (initSystem ls atoms).levels.map skelL := by
        cases norm <;> simp [skel_normGS, hskel1]
      have hnames2 := names_of_skel _ _ hskel2
      rcases addTransRecords_cases betas (if norm then S1.normGS else S1) with
        ⟨⟨S3, hok3, hskel3⟩, hball⟩ | ⟨n, herr3, hnr, hnm⟩
      · have hskelS3 : S3.levels.map skelL =
            (initSystem ls atoms).levels.map skelL := hskel3.trans hskel2
        have hnames3 := names_of_skel _ _ hskelS3
        have hbadec : ∃ r ∈ ecapts, r.fromName ∉ S3.levels.map NucLevel.name ∨
            (r.toName ≠ "AUTO" ∧ r.toName ∉ S3.levels.map NucLevel.name) := by
          rcases hbad with ⟨r, hr, hor⟩ | ⟨r, hr, hor⟩
          · exfalso
            rcases List.mem_append.mp hr with hrg | hrb
            · obtain ⟨h1, h2⟩ := hgall r hrg
              rcases hor with hm | hm
              · exact hm ((hmem0 _).mp h1)
              · exact hm ((hmem0 _).mp h2)
            · obtain ⟨h1, h2⟩ := hball r hrb
              rw [hnames2] at h1 h2
              rcases hor with hm | hm
              · exact hm ((hmem0 _).mp h1)
              · exact hm ((hmem0 _).mp h2)
          · refine ⟨r, hr, ?_⟩
            rcases hor with hm | ⟨hA2, hm⟩
            · refine Or.inl fun hmem => hm ?_
              rw [hnames3] at hmem
              exact (hmem0 _).mp hmem
            · refine Or.inr ⟨hA2, fun hmem => hm ?_⟩
              rw [hnames3] at hmem
              exact (hmem0 _).mp hmem
        have hassert3 : ∀ r ∈ ecapts, r.toName ≠ "AUTO" →
            r.fromName ∈ S3.levels.map NucLevel.name →
            r.toName ∈ S3.levels.map NucLevel.name → ECassertOK S3.levels r := by
          intro r hr hA2 hf ht
          rw [hnames3] at hf ht
          exact ECassertOK_congr hskelS3.symm r
            (hassert r hr hA2 ((hmem0 _).mp hf) ((hmem0 _).mp ht))
        obtain ⟨n, herrE, hnr, hnm⟩ := addECRecords_unknown ecapts S3 hassert3 hbadec
        refine ⟨n, ?_, ?_, ?_⟩
        · simp only [buildSystemChecked, hok, hok1, checkAugers_ok augerZs hZ,
            hok3, herrE]
        · obtain ⟨r2, hr2, hor⟩ := hnr
          exact Or.inr ⟨r2, hr2, hor⟩
        · intro hmem
          apply hnm
          rw [hnames3]
          exact (hmem0 n).mpr hmem
      · refine ⟨n, ?_, ?_, ?_⟩
        · simp only [buildSystemChecked, hok, hok1, checkAugers_ok augerZs hZ, herr3]
        · obtain ⟨r2, hr2, hor⟩ := hnr
          exact Or.inl ⟨r2, List.mem_append_right gammas hr2, hor⟩
        · intro hmem
          apply hnm
          rw [hnames2]
          exact (hmem0 n).mpr hmem
    · refine ⟨n, by simp only [buildSystemChecked, hok, herr1], ?_, ?_⟩
      · obtain ⟨r2, hr2, hor⟩ := hnr
        exact Or.inl ⟨r2, List.mem_append_left betas hr2, hor⟩
      · exact fun hmem => hnm ((hmem0 n).mpr hmem)
  · intro hnd hZ hgb hec
    have hok : checkNamesAux []
        ((initSystem ls atoms).levels.map NucLevel.name) = Except.ok () :=
      (checkNamesAux_ok_iff _ []).mpr ⟨hperm.nodup_iff.mpr hnd, by simp⟩
    rcases addTransRecords_cases gammas (initSystem ls atoms) with
      ⟨⟨S1, hok1, hskel1⟩, -⟩ | ⟨n, -, hnr, hnm⟩
    · have hskel2 : (if norm then S1.normGS else S1).levels.map skelL =
          (initSystem ls atoms).levels.map skelL := by
        cases norm <;> simp [skel_normGS, hskel1]
      have hnames2 := names_of_skel _ _ hskel2
      rcases addTransRecords_cases betas (if norm then S1.normGS else S1) with
        ⟨⟨S3, hok3, hskel3⟩, -⟩ | ⟨n, -, hnr, hnm⟩
      · have hskelS3 : S3.levels.map skelL =
            (initSystem ls atoms).levels.map skelL := hskel3.trans hskel2
        have hnames3 := names_of_skel _ _ hskelS3
        have harg : ∀ r ∈ ecapts, r.fromName ∈ S3.levels.map NucLevel.name ∧
            (r.toName = "AUTO" ∨ (r.toName ∈ S3.levels.map NucLevel.name ∧
              ECassertOK S3.levels r)) := by
          intro r hr
          obtain ⟨hf, hor⟩ := hec r hr
          refine ⟨by rw [hnames3]; exact (hmem0 _).mpr hf, ?_⟩
          rcases hor with hA2 | ⟨hm, hE⟩
          · exact Or.inl hA2
          · exact Or.inr ⟨by rw [hnames3]; exact (hmem0 _).mpr hm,
              ECassertOK_congr hskelS3.symm r hE⟩
        obtain ⟨S4, hS4⟩ := addECRecords_ok ecapts S3 harg
        exact ⟨S4.setCutoff t, by simp only [buildSystemChecked, hok, hok1,
          checkAugers_ok augerZs hZ, hok3, hS4]⟩
      · exfalso
        obtain ⟨r, hr, hor⟩ := hnr
        obtain ⟨h1, h2⟩ := hgb r (List.mem_append_right gammas hr)
        rcases hor with rfl | rfl
        · exact hnm (by rw [hnames2]; exact (hmem0 _).mpr h1)
        · exact hnm (by rw [hnames2]; exact (hmem0 _).mpr h2)
    · exfalso
      obtain ⟨r, hr, hor⟩ := hnr
      obtain ⟨h1, h2⟩ := hgb r (List.mem_append_left betas hr)
      rcases hor with rfl | rfl
      · exact hnm ((hmem0 _).mpr h1)
      · exact hnm ((hmem0 _).mpr h2)

/-- A well-formed gamma record between the two example levels. -/
def exG8 : TransRecord :=
  ⟨"3.2.1", "3.2.0",
    fun fi ti => ⟨fi, ti, 2, 1, 2, TransKind.gammaConv (PSelector.ofWeights [1]) [] 1⟩⟩

/-- A well-formed ecapt record with an AUTO target (no `to` lookup). -/
def exEC8 : ECRecord := ⟨"3.2.1", "AUTO", 0⟩

def exceptOk : Except SMErr NucDecaySystem → Bool
  | Except.ok _ => true
  | Except.error _ => false

/-- Witness for C8 at a concrete well-formed input (one gamma record, one
AUTO electron-capture record): the checked constructor succeeds. -/
theorem C8_construction_errors_witness :
    exceptOk (buildSystemChecked [exL0, exL1] [exG8] false [] [] [exEC8] 5
      (fun _ => exAtom)) = true := by
  obtain ⟨S, hS⟩ :=
    (C8_construction_errors [exL0, exL1] [exG8] false [] [] [exEC8] 5
        (fun _ => exAtom)).2.2
      (by decide)
      (by simp)
      (by
        intro r hr
        simp only [List.append_nil, List.mem_singleton] at hr
        subst hr
        exact ⟨by decide, by decide⟩)
      (by
        intro r hr
        simp only [List.mem_singleton] at hr
        subst hr
        exact ⟨by decide, Or.inl rfl⟩)
  rw [hS]
  rfl

end NuclEvtGen
